import Mathlib

/-!
# Record conversion of libdns/autodns (convert.go)

A shallow embedding of `ToLibDNS` and `ToAutoDNS` together with the pieces of
the Go standard library they call (`strings.ToUpper`, `strings.Fields`,
`strconv.Atoi`, `fmt.Sprintf` with `%d` and `%s`, `time.Duration`,
`net/netip`), followed by theorems about the conversions.

Conventions of the embedding:

* Go strings are modelled as Lean strings, that is as sequences of Unicode
  code points (the provider records come out of `encoding/json`, which only
  produces valid UTF-8).
* Go `int` is the 64-bit two's complement integer of the usual targets;
  `time.Duration` is an `int64` count of nanoseconds.  Values are kept in `Int`
  and every operation that can overflow wraps explicitly.
* `uint16` fields are kept in `Nat`; the conversion `uint16(x)` is `x % 65536`.
* A Go result `(v, err)` is an `Except String`, the string being `err.Error()`.
-/

/-! ## unicode -/

namespace unicode

/-- The predicate `unicode.IsSpace`: the code points with the Unicode White_Space property. -/
def IsSpace (c : Char) : Bool :=
  let n := c.toNat
  (9 ≤ n && n ≤ 13) || n == 32 || n == 0x85 || n == 0xA0 || n == 0x1680 ||
  (0x2000 ≤ n && n ≤ 0x200A) || n == 0x2028 || n == 0x2029 || n == 0x202F ||
  n == 0x205F || n == 0x3000

/-- The function `unicode.ToUpper` as far as the dispatch of `ToLibDNS` can
observe it: it is exact on every rune whose upper case is an ASCII letter
(`a`..`z`, U+0131 dotless i, U+017F long s) and on every rune that is its own
upper case.  Every other rune has a non-ASCII upper case; it is left unchanged
here, which is again a non-ASCII rune, so that comparing the result with an
ASCII tag gives the same answer as in Go. -/
def ToUpper (c : Char) : Char :=
  if c = Char.ofNat 0x131 then 'I'
  else if c = Char.ofNat 0x17F then 'S'
  else if 97 ≤ c.toNat ∧ c.toNat ≤ 122 then Char.ofNat (c.toNat - 32)
  else c

end unicode

/-! ## strings -/

namespace strings

/-- The function `strings.ToUpper`: every rune mapped to its upper case. -/
def ToUpper (s : String) : String := ⟨s.data.map unicode.ToUpper⟩

/-- The scan of `strings.Fields`: `cur` is the field being read (empty between fields). -/
def fieldsGo (cur : List Char) : List Char → List (List Char)
  | [] => if cur = [] then [] else [cur]
  | c :: cs =>
    if unicode.IsSpace c then
      (if cur = [] then fieldsGo [] cs else cur :: fieldsGo [] cs)
    else fieldsGo (cur ++ [c]) cs

/-- The function `strings.Fields`: the maximal runs of non-space runes, in order. -/
def Fields (s : String) : List String := (fieldsGo [] s.data).map String.mk

end strings

/-! ## strconv and fmt -/

namespace strconv

/-- A decimal digit. -/
def isDigit (c : Char) : Bool := 48 ≤ c.toNat && c.toNat ≤ 57

/-- The digit loop of `strconv.ParseUint` in base 10 (no underscores): the
value of a run of digits, `none` at the first other character. -/
def parseDigits : List Char → Nat → Option Nat
  | [], acc => some acc
  | c :: cs, acc => if isDigit c then parseDigits cs (acc * 10 + (c.toNat - 48)) else none

/-- The function `strconv.Atoi` on a 64-bit target: an optional sign, at least
one digit, nothing else, and a value in the range of `int`; `none` stands for
any error (syntax or range). -/
def Atoi (s : String) : Option Int :=
  match s.data with
  | [] => none
  | c :: cs =>
    let ds := if c = '-' ∨ c = '+' then cs else c :: cs
    if ds = [] then none
    else
      match parseDigits ds 0 with
      | none => none
      | some n =>
        if c = '-' then (if n ≤ 2 ^ 63 then some (-(n : Int)) else none)
        else (if n < 2 ^ 63 then some (n : Int) else none)

/-- The character of a decimal digit. -/
def digitChar (d : Nat) : Char := Char.ofNat (48 + d)

/-- Digits of `n` pushed in front of `acc`, most significant first. -/
def formatBits : Nat → Nat → List Char → List Char
  | 0, _, acc => acc
  | fuel + 1, n, acc =>
    if n < 10 then digitChar n :: acc
    else formatBits fuel (n / 10) (digitChar (n % 10) :: acc)

/-- The base-10 text of an unsigned integer (`strconv.FormatUint(n, 10)`, which
is what the verb `%d` of `fmt` prints for a `uint16`). -/
def FormatUint (n : Nat) : String := ⟨formatBits (n + 1) n []⟩

end strconv

/-- The conversion `uint16(x)` of a Go `int`. -/
def uint16 (x : Int) : Nat := (x % 65536).toNat

/-- The value of an `int64` computation whose exact result is `x`. -/
def wrapInt64 (x : Int) : Int := (x + 2 ^ 63) % 2 ^ 64 - 2 ^ 63

/-- The values of the Go type `int64` (and of `int`, and of `time.Duration`). -/
def isInt64 (x : Int) : Prop := -(2 ^ 63) ≤ x ∧ x < 2 ^ 63

instance (x : Int) : Decidable (isInt64 x) := by unfold isInt64; infer_instance

/-! ## float64 and time

`Duration.Seconds` computes in `float64`.  A finite binary64 value is kept as
an exact dyadic number `sig * 2 ^ exp`; every operation takes the exact result
and rounds it to 53 significant bits, ties to even.  All values met here have
magnitudes between `1e-9` and `2 ^ 64`, far from the subnormal and overflow
ranges, which the model leaves out. -/

/-- A finite binary64 number, `sig * 2 ^ exp`. -/
structure float64 where
  sig : Int
  exp : Int
deriving DecidableEq, Repr

namespace float64

/-- Index of the highest set bit of `n` (0 for `n < 2`). -/
def log2Fuel : Nat → Nat → Nat
  | 0, _ => 0
  | fuel + 1, n => if n < 2 then 0 else log2Fuel fuel (n / 2) + 1

/-- The binary64 number nearest to `num / den`, ties to even. -/
def round (num : Int) (den : Nat) : float64 :=
  let p := num.natAbs
  if p = 0 ∨ den = 0 then ⟨0, 0⟩
  else
    let g : Int := (log2Fuel p p : Int) - (log2Fuel den den : Int)
    -- the binary exponent of `p / den` is `g` or `g - 1`
    let e : Int := if den * 2 ^ g.toNat ≤ p * 2 ^ (-g).toNat then g else g - 1
    -- `p / den = (N / D) * 2 ^ (e - 52)` with `2 ^ 52 ≤ N / D < 2 ^ 53`
    let N := p * 2 ^ (52 - e).toNat
    let D := den * 2 ^ (e - 52).toNat
    let f := N / D
    let r := N % D
    let m := if 2 * r < D then f else if D < 2 * r then f + 1 else if f % 2 = 0 then f else f + 1
    ⟨if num < 0 then -(m : Int) else (m : Int), e - 52⟩

/-- The conversion `float64(n)` of an integer. -/
def ofInt (n : Int) : float64 := round n 1

/-- The quotient `a / b` of two binary64 numbers (`b` not zero). -/
def div (a b : float64) : float64 :=
  round (a.sig * b.sig.sign * 2 ^ (a.exp - b.exp).toNat) (b.sig.natAbs * 2 ^ (b.exp - a.exp).toNat)

/-- The sum `a + b` of two binary64 numbers. -/
def add (a b : float64) : float64 :=
  let e := min a.exp b.exp
  let s := a.sig * 2 ^ (a.exp - e).toNat + b.sig * 2 ^ (b.exp - e).toNat
  round (s * 2 ^ e.toNat) (2 ^ (-e).toNat)

/-- The conversion `int(x)`: the fraction is discarded (truncation toward zero). -/
def toInt (x : float64) : Int :=
  if 0 ≤ x.exp then x.sig * 2 ^ x.exp.toNat else x.sig.tdiv (2 ^ (-x.exp).toNat)

end float64

namespace time

/-- The constant `time.Second`, in nanoseconds. -/
def Second : Int := 1000000000

/-- The method `Duration.Seconds`:
`sec := d / Second; nsec := d % Second; return float64(sec) + float64(nsec)/1e9`. -/
def Duration.Seconds (d : Int) : float64 :=
  float64.add (float64.ofInt (d.tdiv Second))
    (float64.div (float64.ofInt (d.tmod Second)) (float64.ofInt 1000000000))

end time

/-! ## net/netip

An address is the zero `Addr` (invalid), an IPv4 address of four bytes, or an
IPv6 address of eight 16-bit groups with a zone (the empty zone meaning none,
as `Addr.Zone` reports it). -/

namespace netip

/-- The type `netip.Addr`. -/
inductive Addr where
  | zero
  | v4 (a b c d : Nat)
  | v6 (groups : List Nat) (zone : String)
deriving DecidableEq, Repr

/-- The ranges that the Go representation enforces by its types. -/
def Addr.WF : Addr → Prop
  | .zero => True
  | .v4 a b c d => a < 256 ∧ b < 256 ∧ c < 256 ∧ d < 256
  | .v6 groups _ => groups.length = 8 ∧ ∀ x ∈ groups, x < 65536

/-- The method `Addr.IsValid`: every address but the zero `Addr`. -/
def Addr.IsValid : Addr → Bool
  | .zero => false
  | _ => true

/-- The method `Addr.Is4`. -/
def Addr.Is4 : Addr → Bool
  | .v4 _ _ _ _ => true
  | _ => false

/-- The method `Addr.Is6`: IPv6 addresses, IPv4-mapped ones included. -/
def Addr.Is6 : Addr → Bool
  | .v6 _ _ => true
  | _ => false

/-- The method `Addr.Is4In6`: an IPv6 address of the form `::ffff:a.b.c.d`. -/
def Addr.Is4In6 : Addr → Bool
  | .v6 groups _ => groups.take 6 == [0, 0, 0, 0, 0, 0xffff]
  | _ => false

/-! ### Parsing -/

/-- The loop of `parseIPv4Fields`.  `start` says that the scan is at the first
character or right behind a dot, `val` and `digLen` describe the octet being
read, `fields` are the octets finished so far (`pos` of them). -/
def parseIPv4Fields : List Char → Bool → Nat → Nat → List Nat → Option (List Nat)
  | [], _, val, _, fields => if fields.length < 3 then none else some (fields ++ [val])
  | c :: cs, start, val, digLen, fields =>
    if strconv.isDigit c then
      if digLen = 1 ∧ val = 0 then none
      else if val * 10 + (c.toNat - 48) > 255 then none
      else parseIPv4Fields cs false (val * 10 + (c.toNat - 48)) (digLen + 1) fields
    else if c = '.' then
      if start ∨ cs = [] then none
      else if fields.length = 3 then none
      else parseIPv4Fields cs true 0 0 (fields ++ [val])
    else none

/-- The function `parseIPv4`. -/
def parseIPv4 (s : List Char) : Option Addr :=
  match parseIPv4Fields s true 0 0 [] with
  | some [a, b, c, d] => some (.v4 a b c d)
  | _ => none

/-- The value of a hexadecimal digit of either case. -/
def hexVal (c : Char) : Option Nat :=
  let n := c.toNat
  if 48 ≤ n ∧ n ≤ 57 then some (n - 48)
  else if 97 ≤ n ∧ n ≤ 102 then some (n - 87)
  else if 65 ≤ n ∧ n ≤ 70 then some (n - 55)
  else none

/-- The inner loop of `parseIPv6` reading one group: from offset `off` and
accumulator `acc` it returns the offset, the value and the text at the first
character that is no hexadecimal digit; `none` when a fifth digit appears. -/
def parseHexField : Nat → Nat → List Char → Option (Nat × Nat × List Char)
  | off, acc, [] => some (off, acc, [])
  | off, acc, c :: cs =>
    match hexVal c with
    | none => some (off, acc, c :: cs)
    | some v =>
      if off > 3 then none
      else if acc * 16 + v > 65535 then none
      else parseHexField (off + 1) (acc * 16 + v) cs

/-- The main loop of `parseIPv6`, run while fewer than eight groups are read
(`fuel` is the number of groups still missing).  `ip` are the groups read so
far, `ellipsis` the group index of a `::` seen so far.  It returns the groups,
the ellipsis and the text left over. -/
def parseIPv6Loop : Nat → List Nat → Option Nat → List Char →
    Option (List Nat × Option Nat × List Char)
  | 0, ip, ellipsis, s => some (ip, ellipsis, s)
  | fuel + 1, ip, ellipsis, s =>
    match parseHexField 0 0 s with
    | none => none
    | some (off, acc, rest) =>
      if off = 0 then none
      else
        match rest with
        | [] => some (ip ++ [acc], ellipsis, [])
        | c :: rest1 =>
          if c = '.' then
            -- a trailing embedded IPv4 address
            if ellipsis = none ∧ ip.length ≠ 6 then none
            else if ip.length + 2 > 8 then none
            else
              match parseIPv4Fields s true 0 0 [] with
              | some [a, b, c, d] => some (ip ++ [a * 256 + b, c * 256 + d], ellipsis, [])
              | _ => none
          else if c ≠ ':' then none
          else
            match rest1 with
            | [] => none
            | c1 :: rest2 =>
              if c1 = ':' then
                if ellipsis ≠ none then none
                else if rest2 = [] then some (ip ++ [acc], some (ip.length + 1), [])
                else parseIPv6Loop fuel (ip ++ [acc]) (some (ip.length + 1)) rest2
              else parseIPv6Loop fuel (ip ++ [acc]) ellipsis rest1

/-- The text before the first `%` and, when there is one, the text behind it. -/
def splitZone : List Char → List Char × Option (List Char)
  | [] => ([], none)
  | c :: cs =>
    if c = '%' then ([], some cs)
    else ((c :: (splitZone cs).1), (splitZone cs).2)

/-- The end of `parseIPv6`, behind the loop: the whole text must be used up; with
fewer than eight groups the `::` is expanded to the missing zero groups, and
with eight groups there must be no `::`. -/
def expandEllipsis (zone : String) : Option (List Nat × Option Nat × List Char) → Option Addr
  | none => none
  | some (ip, ellipsis, rest) =>
    if rest ≠ [] then none
    else if ip.length < 8 then
      match ellipsis with
      | none => none
      | some e => some (.v6 (ip.take e ++ List.replicate (8 - ip.length) 0 ++ ip.drop e) zone)
    else if ellipsis ≠ none then none
    else some (.v6 ip zone)

/-- The part of `parseIPv6` behind the split of the zone: `s` is the text in
front of the zone.  A leading `::` is taken off before the loop. -/
def parseIPv6Groups (s : List Char) (zone : String) : Option Addr :=
  match s with
  | [':', ':'] => some (.v6 [0, 0, 0, 0, 0, 0, 0, 0] zone)
  | ':' :: ':' :: rest => expandEllipsis zone (parseIPv6Loop 8 [] (some 0) rest)
  | _ => expandEllipsis zone (parseIPv6Loop 8 [] none s)

/-- The function `parseIPv6`: a zone that is given must not be empty. -/
def parseIPv6 (inp : List Char) : Option Addr :=
  match (splitZone inp).2 with
  | some [] => none
  | z => parseIPv6Groups (splitZone inp).1 ⟨z.getD []⟩

/-- The scan of `ParseAddr` for the first `.`, `:` or `%` of the text. -/
def parseAddrScan (whole : List Char) : List Char → Option Addr
  | [] => none
  | c :: cs =>
    if c = '.' then parseIPv4 whole
    else if c = ':' then parseIPv6 whole
    else if c = '%' then none
    else parseAddrScan whole cs

/-- The function `netip.ParseAddr`; `none` stands for any parse error. -/
def ParseAddr (s : String) : Option Addr := parseAddrScan s.data s.data

/-! ### Printing -/

/-- The function `appendDecimal` for a byte. -/
def appendDecimal (x : Nat) : List Char :=
  (if 100 ≤ x then [strconv.digitChar (x / 100)] else []) ++
  (if 10 ≤ x then [strconv.digitChar (x / 10 % 10)] else []) ++
  [strconv.digitChar (x % 10)]

/-- A lower-case hexadecimal digit. -/
def hexDigit (d : Nat) : Char := if d < 10 then Char.ofNat (48 + d) else Char.ofNat (87 + d)

/-- The function `appendHex` for a 16-bit group: no leading zeros. -/
def appendHex (x : Nat) : List Char :=
  (if 0x1000 ≤ x then [hexDigit (x / 0x1000)] else []) ++
  (if 0x100 ≤ x then [hexDigit (x / 0x100 % 16)] else []) ++
  (if 0x10 ≤ x then [hexDigit (x / 0x10 % 16)] else []) ++
  [hexDigit (x % 16)]

/-- Dotted-decimal text of four bytes. -/
def string4 (a b c d : Nat) : List Char :=
  appendDecimal a ++ '.' :: appendDecimal b ++ '.' :: appendDecimal c ++ '.' :: appendDecimal d

/-- Length of the run of zero groups that starts at index `i`. -/
def zeroRunAt (groups : List Nat) (i : Nat) : Nat :=
  ((groups.drop i).takeWhile (fun x => x == 0)).length

/-- The first loop of `appendTo6`: start and end of the first longest run of
at least two zero groups, `(255, 255)` when there is none. -/
def longestZeroRun (groups : List Nat) : Nat × Nat :=
  (List.range 8).foldl
    (fun (z : Nat × Nat) i =>
      if 2 ≤ zeroRunAt groups i ∧ z.2 - z.1 < zeroRunAt groups i then (i, i + zeroRunAt groups i)
      else z)
    (255, 255)

/-- Groups in hexadecimal, separated by single colons. -/
def joinHex : List Nat → List Char
  | [] => []
  | [x] => appendHex x
  | x :: y :: rest => appendHex x ++ ':' :: joinHex (y :: rest)

/-- The text that the second loop of `appendTo6` emits: the groups in
hexadecimal separated by colons, the chosen run of zeros replaced by `::`. -/
def string6 (groups : List Nat) : List Char :=
  let z := longestZeroRun groups
  if z.1 = 255 then joinHex groups
  else joinHex (groups.take z.1) ++ ':' :: ':' :: joinHex (groups.drop z.2)

/-- The zone suffix of an IPv6 text. -/
def zoneSuffix (zone : String) : List Char := if zone = "" then [] else '%' :: zone.data

/-- The method `Addr.String`. -/
def Addr.String : Addr → String
  | .zero => "invalid IP"
  | .v4 a b c d => ⟨string4 a b c d⟩
  | .v6 groups zone =>
    if Addr.Is4In6 (.v6 groups zone) then
      ⟨"::ffff:".data ++
        string4 (groups.getD 6 0 / 256) (groups.getD 6 0 % 256)
          (groups.getD 7 0 / 256) (groups.getD 7 0 % 256) ++ zoneSuffix zone⟩
    else ⟨string6 groups ++ zoneSuffix zone⟩

end netip

/-! ## The two record shapes -/

deriving instance DecidableEq for Except

/-- The provider record `ZoneRecord` (`Typ` is the Go field `Type`). -/
structure ZoneRecord where
  Name : String
  Typ : String
  Value : String
  TTL : Int
deriving DecidableEq, Repr

namespace libdns

/-- The struct `libdns.RR`, also the result of the method `Record.RR`. -/
structure RR where
  Name : String
  TTL : Int
  Typ : String
  Data : String
deriving DecidableEq, Repr

/-- A value of the Go type `any`, as the field `ProviderData` holds one:
`none` is the nil interface, `some s` a value that is not nil, named by a text.
The conversions never look inside it. -/
abbrev Any : Type := Option String

/-- The interface `libdns.Record` as `ToAutoDNS` sees it: the seven pointer
types of its type switch, with every field of the libdns structs, and `other`
for any further implementation, which is only ever used through its method
`RR`.  A `TTL` is a `time.Duration` in nanoseconds.  The struct `libdns.RR` has
no field `ProviderData`; `Service` and `Transport` are fields of `libdns.SRV`
only. -/
inductive Record where
  | Address (Name : String) (IP : netip.Addr) (TTL : Int) (ProviderData : Any)
  | CNAME (Name : String) (Target : String) (TTL : Int) (ProviderData : Any)
  | TXT (Name : String) (Text : String) (TTL : Int) (ProviderData : Any)
  | MX (Name : String) (Preference : Nat) (Target : String) (TTL : Int) (ProviderData : Any)
  | NS (Name : String) (Target : String) (TTL : Int) (ProviderData : Any)
  | SRV (Name : String) (Priority Weight Port : Nat) (Target : String) (TTL : Int)
      (Service Transport : String) (ProviderData : Any)
  | RR (Name : String) (Typ : String) (Data : String) (TTL : Int)
  | other (rr : libdns.RR)
deriving DecidableEq, Repr

/-- The field `TTL` of a record (of its `RR` for `other`). -/
def Record.TTL : Record → Int
  | .Address _ _ t _ => t
  | .CNAME _ _ t _ => t
  | .TXT _ _ t _ => t
  | .MX _ _ _ t _ => t
  | .NS _ _ t _ => t
  | .SRV _ _ _ _ _ t _ _ _ => t
  | .RR _ _ _ t => t
  | .other rr => rr.TTL

/-- The ranges that the Go field types enforce: `uint16` numbers, an `int64`
duration, a well-formed address. -/
def Record.WF : Record → Prop
  | .Address _ ip t _ => ip.WF ∧ isInt64 t
  | .MX _ p _ t _ => p < 65536 ∧ isInt64 t
  | .SRV _ p w q _ t _ _ _ => p < 65536 ∧ w < 65536 ∧ q < 65536 ∧ isInt64 t
  | r => isInt64 r.TTL

end libdns

/-! ## convert.go -/

namespace autodns

open libdns

/-- The expression `time.Duration(zr.TTL) * time.Second`, an `int64` product. -/
def ttlDuration (ttl : Int) : Int := wrapInt64 (ttl * time.Second)

/-- The expression `int(r.TTL.Seconds())`. -/
def ttlSeconds (d : Int) : Int := (time.Duration.Seconds d).toInt

/-- The function `ToLibDNS`: an AutoDNS zone record to a libdns record.  The
composite literals name no `ProviderData`, and the one of `libdns.SRV` no
`Service` and no `Transport`: these fields have their zero values, nil and the
empty string. -/
def ToLibDNS (zr : ZoneRecord) : Except String Record :=
  let tag := strings.ToUpper zr.Typ
  if tag = "A" ∨ tag = "AAAA" then
    match netip.ParseAddr zr.Value with
    | none => .error ("invalid " ++ zr.Typ ++ " record value: " ++ zr.Value)
    | some ip => .ok (.Address zr.Name ip (ttlDuration zr.TTL) none)
  else if tag = "CNAME" then
    .ok (.CNAME zr.Name zr.Value (ttlDuration zr.TTL) none)
  else if tag = "TXT" then
    .ok (.TXT zr.Name zr.Value (ttlDuration zr.TTL) none)
  else if tag = "MX" then
    match strings.Fields zr.Value with
    | [p0, p1] =>
      match strconv.Atoi p0 with
      | none => .error ("invalid MX preference: " ++ p0)
      | some preference =>
        .ok (.MX zr.Name (uint16 preference) p1 (ttlDuration zr.TTL) none)
    | _ => .error ("invalid MX record format: " ++ zr.Value)
  else if tag = "NS" then
    .ok (.NS zr.Name zr.Value (ttlDuration zr.TTL) none)
  else if tag = "SRV" then
    match strings.Fields zr.Value with
    | [p0, p1, p2, p3] =>
      match strconv.Atoi p0 with
      | none => .error ("invalid SRV priority: " ++ p0)
      | some priority =>
        match strconv.Atoi p1 with
        | none => .error ("invalid SRV weight: " ++ p1)
        | some weight =>
          match strconv.Atoi p2 with
          | none => .error ("invalid SRV port: " ++ p2)
          | some port =>
            .ok (.SRV zr.Name (uint16 priority) (uint16 weight) (uint16 port) p3
              (ttlDuration zr.TTL) "" "" none)
    | _ => .error ("invalid SRV record format: " ++ zr.Value)
  else
    .ok (.RR zr.Name zr.Typ zr.Value (ttlDuration zr.TTL))

/-- The function `ToAutoDNS`: a libdns record to an AutoDNS zone record.  No
branch reads `ProviderData`, and the `SRV` branch reads neither `Service` nor
`Transport`. -/
def ToAutoDNS (record : Record) : Except String ZoneRecord :=
  match record with
  | .Address name ip ttl _ =>
    .ok ⟨name, if ip.Is6 then "AAAA" else "A", ip.String, ttlSeconds ttl⟩
  | .CNAME name target ttl _ => .ok ⟨name, "CNAME", target, ttlSeconds ttl⟩
  | .TXT name text ttl _ => .ok ⟨name, "TXT", text, ttlSeconds ttl⟩
  | .MX name preference target ttl _ =>
    .ok ⟨name, "MX", strconv.FormatUint preference ++ " " ++ target, ttlSeconds ttl⟩
  | .NS name target ttl _ => .ok ⟨name, "NS", target, ttlSeconds ttl⟩
  | .SRV name priority weight port target ttl _ _ _ =>
    .ok ⟨name, "SRV",
      strconv.FormatUint priority ++ " " ++ strconv.FormatUint weight ++ " " ++
        strconv.FormatUint port ++ " " ++ target,
      ttlSeconds ttl⟩
  | .RR name typ data ttl => .ok ⟨name, typ, data, ttlSeconds ttl⟩
  | .other rr => .ok ⟨rr.Name, rr.Typ, rr.Data, ttlSeconds rr.TTL⟩

end autodns

/-! ## Vocabulary of the statements -/

namespace autodns

open libdns

/-- The seven type tags that `ToLibDNS` decodes into a typed record. -/
def knownTags : List String := ["A", "AAAA", "CNAME", "TXT", "MX", "NS", "SRV"]

/-- A duration that is a whole number of seconds. -/
def wholeSeconds (d : Int) : Prop := d % time.Second = 0

instance (d : Int) : Decidable (wholeSeconds d) := by unfold wholeSeconds; infer_instance

/-- The provider TTLs whose count of nanoseconds is a `time.Duration`:
`9223372036` is the largest number of seconds below `2 ^ 63` nanoseconds. -/
def ttlInRange (ttl : Int) : Prop := -9223372036 ≤ ttl ∧ ttl ≤ 9223372036

instance (ttl : Int) : Decidable (ttlInRange ttl) := by unfold ttlInRange; infer_instance

/-- A target that is not empty and has no white space in it. -/
def plainTarget (t : String) : Prop := t.data ≠ [] ∧ ∀ c ∈ t.data, unicode.IsSpace c = false

instance (t : String) : Decidable (plainTarget t) := by unfold plainTarget; infer_instance

/-- Encoding `r` succeeds and decoding the result succeeds and gives `r` back. -/
def RoundTrips (r : Record) : Prop := ∃ zr, ToAutoDNS r = .ok zr ∧ ToLibDNS zr = .ok r

/-- The records with a dedicated variant other than `Address`, the target of an
`MX` or `SRV` record being a plain one. -/
def structuredRecord : Record → Prop
  | .CNAME _ _ _ _ => True
  | .TXT _ _ _ _ => True
  | .NS _ _ _ _ => True
  | .MX _ _ target _ _ => plainTarget target
  | .SRV _ _ _ _ target _ _ _ _ => plainTarget target
  | _ => False

/-- The record `r` with the fields that `ToAutoDNS` does not read at their zero
values: `ProviderData` nil, and `Service` and `Transport` of an `SRV` empty. -/
def zeroUnread : Record → Record
  | .Address name ip ttl _ => .Address name ip ttl none
  | .CNAME name target ttl _ => .CNAME name target ttl none
  | .TXT name text ttl _ => .TXT name text ttl none
  | .MX name preference target ttl _ => .MX name preference target ttl none
  | .NS name target ttl _ => .NS name target ttl none
  | .SRV name priority weight port target ttl _ _ _ =>
    .SRV name priority weight port target ttl "" "" none
  | r => r

/-- The number that a run of decimal digits denotes. -/
def decimalValue (cs : List Char) : Nat := cs.foldl (fun a c => 10 * a + (c.toNat - 48)) 0

/-- The string `s` is a decimal integer (digits `0`..`9` only, at least one),
and `n` is its value. -/
def IsDecimal (s : String) (n : Nat) : Prop :=
  s.data ≠ [] ∧ (∀ c ∈ s.data, 48 ≤ c.toNat ∧ c.toNat ≤ 57) ∧ decimalValue s.data = n

/-- Two strings that differ at most in the case of their ASCII letters. -/
def sameIgnoringCase (s t : String) : Prop := s.data.map Char.toLower = t.data.map Char.toLower

instance (s t : String) : Decidable (sameIgnoringCase s t) := by
  unfold sameIgnoringCase; infer_instance

/-- The string `s` is the decimal text of the integer `n`: digits, behind a
minus sign when the number is negative. -/
def IsIntegerText (s : String) (n : Int) : Prop :=
  (∃ m : Nat, IsDecimal s m ∧ n = (m : Int)) ∨
  (∃ (t : String) (m : Nat), s = "-" ++ t ∧ IsDecimal t m ∧ n = -(m : Int))

/-- One decode followed by one encode of a provider record. -/
def recode (zr : ZoneRecord) : Except String ZoneRecord :=
  match ToLibDNS zr with
  | .ok r => ToAutoDNS r
  | .error e => .error e

/-- The result of `k` rounds of decode and encode. -/
def recodeTimes : Nat → ZoneRecord → Except String ZoneRecord
  | 0, zr => .ok zr
  | k + 1, zr =>
    match recode zr with
    | .ok zr1 => recodeTimes k zr1
    | .error e => .error e

end autodns
/-! ## Arithmetic of the duration conversions -/

namespace float64

theorem log2Fuel_spec : ∀ (fuel n : Nat), n ≤ fuel → n ≠ 0 →
    2 ^ log2Fuel fuel n ≤ n ∧ n < 2 ^ (log2Fuel fuel n + 1) := by
  intro fuel
  induction fuel with
  | zero => intro n h h0; omega
  | succ fuel ih =>
    intro n h h0
    unfold log2Fuel
    by_cases h2 : n < 2
    · simp only [h2, if_true]
      omega
    · simp only [h2, if_false]
      have hn : n / 2 ≤ fuel := by omega
      have hn0 : n / 2 ≠ 0 := by omega
      obtain ⟨h1, h3⟩ := ih (n / 2) hn hn0
      constructor
      · rw [pow_succ]; omega
      · rw [pow_succ]; omega

theorem log2_unique {n a b : Nat} (ha : 2 ^ a ≤ n) (ha2 : n < 2 ^ (a + 1))
    (hb : 2 ^ b ≤ n) (hb2 : n < 2 ^ (b + 1)) : a = b := by
  by_contra hne
  rcases Nat.lt_or_gt_of_ne hne with h | h
  · have : 2 ^ (a + 1) ≤ 2 ^ b := Nat.pow_le_pow_right (by norm_num) h
    omega
  · have : 2 ^ (b + 1) ≤ 2 ^ a := Nat.pow_le_pow_right (by norm_num) h
    omega

theorem log2Fuel_mul_pow (q t : Nat) (hq : 0 < q) :
    log2Fuel (q * 2 ^ t) (q * 2 ^ t) = log2Fuel q q + t := by
  have hpos : 0 < 2 ^ t := Nat.pos_pow_of_pos t (by norm_num)
  have hne : q * 2 ^ t ≠ 0 := Nat.mul_ne_zero (by omega) (by omega)
  obtain ⟨h1, h2⟩ := log2Fuel_spec (q * 2 ^ t) (q * 2 ^ t) le_rfl hne
  obtain ⟨h3, h4⟩ := log2Fuel_spec q q le_rfl (by omega)
  apply log2_unique h1 h2
  · rw [pow_add]; exact Nat.mul_le_mul_right _ h3
  · have : 2 ^ (log2Fuel q q + t + 1) = 2 ^ (log2Fuel q q + 1) * 2 ^ t := by
      rw [← pow_add]; congr 1; omega
    rw [this]
    exact Nat.mul_lt_mul_of_pos_right h4 hpos

theorem log2Fuel_pow (t : Nat) : log2Fuel (2 ^ t) (2 ^ t) = t := by
  have := log2Fuel_mul_pow 1 t (by norm_num)
  simpa [log2Fuel] using this

end float64
namespace float64

/-- Rounding is exact on `q * 2 ^ t / 2 ^ t` when `q` has at most 53 bits. -/
theorem round_exact (num : Int) (q t : Nat) (hq : 0 < q) (hnum : num.natAbs = q * 2 ^ t)
    (hL : log2Fuel q q ≤ 52) :
    round num (2 ^ t) =
      ⟨if num < 0 then -((q * 2 ^ (52 - log2Fuel q q) : Nat) : Int)
        else ((q * 2 ^ (52 - log2Fuel q q) : Nat) : Int), (log2Fuel q q : Int) - 52⟩ := by
  have hpos : 0 < 2 ^ t := Nat.pos_pow_of_pos t (by norm_num)
  have hP : q * 2 ^ t ≠ 0 := Nat.mul_ne_zero (by omega) (by omega)
  obtain ⟨h3, _⟩ := log2Fuel_spec q q le_rfl (by omega)
  unfold round
  simp only [hnum, log2Fuel_mul_pow q t hq, log2Fuel_pow]
  have hg : ((log2Fuel q q + t : Nat) : Int) - (t : Int) = (log2Fuel q q : Int) := by
    push_cast; ring
  rw [hg]
  have hden : ¬ (q * 2 ^ t = 0 ∨ 2 ^ t = 0) := by
    intro h; rcases h with h | h <;> omega
  rw [if_neg hden]
  have h1 : ((log2Fuel q q : Int)).toNat = log2Fuel q q := Int.toNat_natCast _
  have h2 : (-(log2Fuel q q : Int)).toNat = 0 := by
    apply Int.toNat_eq_zero.mpr; omega
  have hle : 2 ^ t * 2 ^ (log2Fuel q q) ≤ q * 2 ^ t * 2 ^ 0 := by
    rw [pow_zero, mul_one, mul_comm]
    exact Nat.mul_le_mul_right _ h3
  simp only [h1, h2, hle, if_true]
  have h4 : ((52 : Int) - (log2Fuel q q : Int)).toNat = 52 - log2Fuel q q := by omega
  have h5 : ((log2Fuel q q : Int) - 52).toNat = 0 := by omega
  simp only [h4, h5, pow_zero, mul_one]
  have hN : q * 2 ^ t * 2 ^ (52 - log2Fuel q q) = (q * 2 ^ (52 - log2Fuel q q)) * 2 ^ t := by ring
  rw [hN, Nat.mul_div_cancel _ hpos, Nat.mul_mod_left]
  simp only [Nat.mul_zero, hpos, if_true]

end float64

namespace autodns

theorem wrapInt64_of_isInt64 {x : Int} (h : isInt64 x) : wrapInt64 x = x := by
  unfold isInt64 at h
  unfold wrapInt64
  norm_num at h ⊢
  omega

/-- On a whole number of seconds `int(d.Seconds())` is that number. -/
theorem ttlSeconds_mul (k : Int) (h1 : -9223372036 ≤ k) (h2 : k ≤ 9223372036) :
    ttlSeconds (k * time.Second) = k := by
  unfold ttlSeconds time.Duration.Seconds
  have hs : time.Second ≠ 0 := by decide
  rw [Int.mul_tdiv_cancel _ hs, Int.mul_tmod_left]
  have hz : float64.div (float64.ofInt 0) (float64.ofInt 1000000000) = ⟨0, 0⟩ := by decide
  rw [hz]
  by_cases hk : k = 0
  · subst hk; decide
  · have hq : 0 < k.natAbs := Int.natAbs_pos.mpr hk
    have hqlt : k.natAbs < 2 ^ 34 := by norm_num; omega
    obtain ⟨h3, _⟩ := float64.log2Fuel_spec k.natAbs k.natAbs le_rfl (by omega)
    have hL : float64.log2Fuel k.natAbs k.natAbs < 34 := by
      by_contra hcon
      have : 2 ^ 34 ≤ 2 ^ float64.log2Fuel k.natAbs k.natAbs :=
        Nat.pow_le_pow_right (by norm_num) (by omega)
      omega
    have e1 : float64.ofInt k = _ :=
      float64.round_exact k k.natAbs 0 hq (by simp) (by omega)
    simp only [pow_zero] at e1
    rw [e1]
    generalize hLdef : float64.log2Fuel k.natAbs k.natAbs = L at *
    generalize hsig : (if k < 0 then -((k.natAbs * 2 ^ (52 - L) : Nat) : Int)
        else ((k.natAbs * 2 ^ (52 - L) : Nat) : Int)) = sig
    have hsabs : sig.natAbs = k.natAbs * 2 ^ (52 - L) := by
      rw [← hsig]; split
      · rw [Int.natAbs_neg, Int.natAbs_ofNat]
      · rw [Int.natAbs_ofNat]
    have hsneg : sig < 0 ↔ k < 0 := by
      have hpos : (0 : Int) < ((k.natAbs * 2 ^ (52 - L) : Nat) : Int) := by
        have : 0 < k.natAbs * 2 ^ (52 - L) :=
          Nat.mul_pos hq (Nat.pos_pow_of_pos _ (by norm_num))
        exact_mod_cast this
      rw [← hsig]; split <;> omega
    unfold float64.add
    have hmin : min ((L : Int) - 52) 0 = (L : Int) - 52 := by omega
    simp only [hmin, sub_self, Int.toNat_zero, pow_zero, mul_one, zero_mul, add_zero]
    have hneg : (-((L : Int) - 52)).toNat = 52 - L := by omega
    have hexp : ((L : Int) - 52).toNat = 0 := by omega
    rw [hneg, hexp, pow_zero, mul_one]
    rw [float64.round_exact sig k.natAbs (52 - L) hq hsabs (by omega), hLdef]
    unfold float64.toInt
    have hlt : ¬ (0 : Int) ≤ (L : Int) - 52 := by omega
    simp only [hlt, if_false, hneg]
    have hpow : (0 : Int) < 2 ^ (52 - L) := by positivity
    by_cases hkn : k < 0
    · simp only [hsneg.mpr hkn, if_true]
      simp only [Nat.cast_mul, Nat.cast_pow, Nat.cast_ofNat]
      rw [Int.neg_tdiv, Int.mul_tdiv_cancel _ (by omega)]
      omega
    · have : ¬ sig < 0 := fun h => hkn (hsneg.mp h)
      simp only [this, if_false]
      simp only [Nat.cast_mul, Nat.cast_pow, Nat.cast_ofNat]
      rw [Int.mul_tdiv_cancel _ (by omega)]
      omega

end autodns

/-! ## Characters, digits and fields -/

namespace strconv

theorem digitChar_toNat : ∀ d, d < 10 → (digitChar d).toNat = 48 + d := by decide

theorem isDigit_digitChar : ∀ d, d < 10 → isDigit (digitChar d) = true := by decide

theorem isDigit_not_space {c : Char} (h : isDigit c = true) : unicode.IsSpace c = false := by
  unfold isDigit at h
  unfold unicode.IsSpace
  simp only [Bool.and_eq_true, decide_eq_true_eq] at h
  simp only [Bool.or_eq_false_iff, Bool.and_eq_false_iff, decide_eq_false_iff_not, beq_eq_false_iff_ne]
  omega

theorem isDigit_not_sign {c : Char} (h : isDigit c = true) : ¬ (c = '-' ∨ c = '+') := by
  intro hc
  rcases hc with rfl | rfl <;> simp [isDigit] at h

theorem formatBits_spec : ∀ (fuel n : Nat) (acc : List Char), n < fuel →
    ∃ ds : List Char, formatBits fuel n acc = ds ++ acc ∧ ds ≠ [] ∧
      (∀ c ∈ ds, isDigit c = true) ∧ ∀ rest, parseDigits (ds ++ rest) 0 = parseDigits rest n := by
  intro fuel
  induction fuel with
  | zero => intro n acc h; omega
  | succ fuel ih =>
    intro n acc h
    unfold formatBits
    by_cases h10 : n < 10
    · simp only [h10, if_true]
      refine ⟨[digitChar n], rfl, by simp, ?_, ?_⟩
      · intro c hc
        simp only [List.mem_singleton] at hc
        subst hc
        exact isDigit_digitChar n h10
      · intro rest
        simp only [List.singleton_append, parseDigits, isDigit_digitChar n h10, if_true,
          digitChar_toNat n h10]
        congr 1; omega
    · simp only [h10, if_false]
      obtain ⟨ds, h1, h2, h3, h4⟩ := ih (n / 10) (digitChar (n % 10) :: acc) (by omega)
      have hm : n % 10 < 10 := Nat.mod_lt _ (by norm_num)
      refine ⟨ds ++ [digitChar (n % 10)], by simp [h1], by simp, ?_, ?_⟩
      · intro c hc
        rcases List.mem_append.mp hc with hc | hc
        · exact h3 c hc
        · simp only [List.mem_singleton] at hc
          subst hc
          exact isDigit_digitChar _ hm
      · intro rest
        rw [List.append_assoc, h4]
        simp only [List.singleton_append, parseDigits, isDigit_digitChar _ hm, if_true,
          digitChar_toNat _ hm]
        congr 1; omega

/-- The text of `FormatUint`: a non-empty run of digits that reads back as the number. -/
theorem FormatUint_spec (n : Nat) :
    (FormatUint n).data ≠ [] ∧ (∀ c ∈ (FormatUint n).data, isDigit c = true) ∧
      parseDigits (FormatUint n).data 0 = some n := by
  obtain ⟨ds, h1, h2, h3, h4⟩ := formatBits_spec (n + 1) n [] (by omega)
  have hd : (FormatUint n).data = ds := by
    simp [FormatUint, h1]
  rw [hd]
  refine ⟨h2, h3, ?_⟩
  have := h4 []
  simpa [parseDigits] using this

theorem Atoi_of_digits (s : String) (n : Nat) (hne : s.data ≠ [])
    (hd : ∀ c ∈ s.data, isDigit c = true) (hv : parseDigits s.data 0 = some n)
    (hn : n < 2 ^ 63) : Atoi s = some (n : Int) := by
  unfold Atoi
  cases hs : s.data with
  | nil => exact absurd hs hne
  | cons c cs =>
    have hc : isDigit c = true := hd c (by rw [hs]; exact List.mem_cons_self _ _)
    have hsign := isDigit_not_sign hc
    have hm : c ≠ '-' := fun h => hsign (Or.inl h)
    rw [hs] at hv
    simp only []
    rw [if_neg hsign, if_neg (List.cons_ne_nil _ _), hv]
    simp only []
    rw [if_neg hm, if_pos hn]

theorem Atoi_FormatUint (n : Nat) (hn : n < 2 ^ 63) : Atoi (FormatUint n) = some (n : Int) := by
  obtain ⟨h1, h2, h3⟩ := FormatUint_spec n
  exact Atoi_of_digits _ n h1 h2 h3 hn

end strconv

namespace strings

theorem fieldsGo_append (w : List Char) (hw : ∀ c ∈ w, unicode.IsSpace c = false) :
    ∀ (cur rest : List Char), fieldsGo cur (w ++ rest) = fieldsGo (cur ++ w) rest := by
  induction w with
  | nil => intro cur rest; simp
  | cons c w ih =>
    intro cur rest
    have hc : unicode.IsSpace c = false := hw c (List.mem_cons_self _ _)
    have hw2 : ∀ x ∈ w, unicode.IsSpace x = false := fun x hx => hw x (List.mem_cons_of_mem _ hx)
    show fieldsGo cur (c :: (w ++ rest)) = _
    rw [fieldsGo]
    simp only [hc, Bool.false_eq_true, if_false]
    rw [ih hw2]
    simp

/-- A word without spaces is a single field. -/
theorem fieldsGo_word (w : List Char) (hne : w ≠ []) (hw : ∀ c ∈ w, unicode.IsSpace c = false) :
    fieldsGo [] w = [w] := by
  have := fieldsGo_append w hw [] []
  simp only [List.append_nil, List.nil_append] at this
  rw [this]
  simp [fieldsGo, hne]

/-- A word, one space, and more text: the word is the first field. -/
theorem fieldsGo_word_space (w : List Char) (hne : w ≠ [])
    (hw : ∀ c ∈ w, unicode.IsSpace c = false) (rest : List Char) :
    fieldsGo [] (w ++ ' ' :: rest) = w :: fieldsGo [] rest := by
  rw [fieldsGo_append w hw]
  have hsp : unicode.IsSpace ' ' = true := by decide
  simp [fieldsGo, hne, hsp]

end strings

namespace autodns

open libdns

theorem ttlDuration_of_inRange {ttl : Int} (h : ttlInRange ttl) :
    ttlDuration ttl = ttl * time.Second := by
  unfold ttlInRange at h
  unfold ttlDuration
  apply wrapInt64_of_isInt64
  unfold isInt64 time.Second
  norm_num
  omega

/-- A whole-second duration survives encoding and decoding. -/
theorem ttl_roundtrip {d : Int} (h : isInt64 d) (hw : wholeSeconds d) :
    ttlDuration (ttlSeconds d) = d := by
  unfold wholeSeconds at hw
  have hd : d = (d / time.Second) * time.Second := by
    have := Int.ediv_add_emod d time.Second
    rw [hw] at this
    rw [mul_comm]; omega
  have hk : ttlInRange (d / time.Second) := by
    unfold isInt64 at h
    unfold ttlInRange
    unfold time.Second at hd ⊢
    norm_num at h
    omega
  rw [hd, ttlSeconds_mul _ hk.1 hk.2, ttlDuration_of_inRange hk]

theorem ToUpper_A : strings.ToUpper "A" = "A" := by decide
theorem ToUpper_AAAA : strings.ToUpper "AAAA" = "AAAA" := by decide
theorem ToUpper_CNAME : strings.ToUpper "CNAME" = "CNAME" := by decide
theorem ToUpper_TXT : strings.ToUpper "TXT" = "TXT" := by decide
theorem ToUpper_MX : strings.ToUpper "MX" = "MX" := by decide
theorem ToUpper_NS : strings.ToUpper "NS" = "NS" := by decide
theorem ToUpper_SRV : strings.ToUpper "SRV" = "SRV" := by decide

theorem uint16_natCast {n : Nat} (h : n < 65536) : uint16 (n : Int) = n := by
  unfold uint16
  omega

theorem FormatUint_noSpace (n : Nat) : ∀ c ∈ (strconv.FormatUint n).data, unicode.IsSpace c = false :=
  fun c hc => strconv.isDigit_not_space ((strconv.FormatUint_spec n).2.1 c hc)

theorem Fields_MX_value (p : Nat) (target : String) (ht : plainTarget target) :
    strings.Fields (strconv.FormatUint p ++ " " ++ target) = [strconv.FormatUint p, target] := by
  unfold strings.Fields
  have hd : (strconv.FormatUint p ++ " " ++ target).data =
      (strconv.FormatUint p).data ++ ' ' :: target.data := by
    simp [String.data_append]
  rw [hd, strings.fieldsGo_word_space _ (strconv.FormatUint_spec p).1 (FormatUint_noSpace p),
    strings.fieldsGo_word _ ht.1 ht.2]
  rfl

theorem Fields_SRV_value (p w q : Nat) (target : String) (ht : plainTarget target) :
    strings.Fields (strconv.FormatUint p ++ " " ++ strconv.FormatUint w ++ " " ++
      strconv.FormatUint q ++ " " ++ target) =
      [strconv.FormatUint p, strconv.FormatUint w, strconv.FormatUint q, target] := by
  unfold strings.Fields
  have hd : (strconv.FormatUint p ++ " " ++ strconv.FormatUint w ++ " " ++
      strconv.FormatUint q ++ " " ++ target).data =
      (strconv.FormatUint p).data ++ ' ' :: ((strconv.FormatUint w).data ++ ' ' ::
        ((strconv.FormatUint q).data ++ ' ' :: target.data)) := by
    simp [String.data_append]
  rw [hd, strings.fieldsGo_word_space _ (strconv.FormatUint_spec p).1 (FormatUint_noSpace p),
    strings.fieldsGo_word_space _ (strconv.FormatUint_spec w).1 (FormatUint_noSpace w),
    strings.fieldsGo_word_space _ (strconv.FormatUint_spec q).1 (FormatUint_noSpace q),
    strings.fieldsGo_word _ ht.1 ht.2]
  rfl

theorem Atoi_FormatUint16 {n : Nat} (h : n < 65536) :
    strconv.Atoi (strconv.FormatUint n) = some (n : Int) :=
  strconv.Atoi_FormatUint n (by norm_num; omega)

/-- C1, counterexample. An SRV record with `Service` "sip" and `Transport`
"tcp", a plain target and a TTL of one hour: `ToAutoDNS` does not read the two
fields, `ToLibDNS` of its result returns the record with both fields empty, and
the round trip does not give the record back. -/
theorem roundtrip_structured_refuted :
    Record.WF (.SRV "_sip._tcp" 10 5 5060 "sip.example.org" 3600000000000 "sip" "tcp" none) ∧
    structuredRecord (.SRV "_sip._tcp" 10 5 5060 "sip.example.org" 3600000000000 "sip" "tcp" none) ∧
    wholeSeconds (3600000000000 : Int) ∧
    ToAutoDNS (.SRV "_sip._tcp" 10 5 5060 "sip.example.org" 3600000000000 "sip" "tcp" none) =
      .ok ⟨"_sip._tcp", "SRV", "10 5 5060 sip.example.org", 3600⟩ ∧
    ToLibDNS ⟨"_sip._tcp", "SRV", "10 5 5060 sip.example.org", 3600⟩ =
      .ok (.SRV "_sip._tcp" 10 5 5060 "sip.example.org" 3600000000000 "" "" none) ∧
    ¬ RoundTrips (.SRV "_sip._tcp" 10 5 5060 "sip.example.org" 3600000000000 "sip" "tcp" none) := by
  have h3 : ToAutoDNS (.SRV "_sip._tcp" 10 5 5060 "sip.example.org" 3600000000000 "sip" "tcp" none) =
      .ok ⟨"_sip._tcp", "SRV", "10 5 5060 sip.example.org", 3600⟩ := by decide
  have h4 : ToLibDNS ⟨"_sip._tcp", "SRV", "10 5 5060 sip.example.org", 3600⟩ =
      .ok (.SRV "_sip._tcp" 10 5 5060 "sip.example.org" 3600000000000 "" "" none) := by decide
  refine ⟨by simp [Record.WF, isInt64], by unfold structuredRecord plainTarget; decide,
    by decide, h3, h4, ?_⟩
  rintro ⟨zr, h1, h2⟩
  rw [h3] at h1
  injection h1 with h1
  subst h1
  rw [h4] at h2
  exact absurd h2 (by decide)

/-- C1, amended. Round trip of the structured variants: for every CNAME, TXT,
NS, MX or SRV record whose TTL is a whole number of seconds (the target of an
MX or SRV record being non-empty and free of white space), `ToAutoDNS` succeeds
and `ToLibDNS` of its result succeeds and returns a record of the same variant
that equals the record in every field except `ProviderData`, which is nil in
the result, and `Service` and `Transport` of an SRV record, which are empty in
the result; the round trip gives the record itself back exactly when these
fields are nil and empty in the record. -/
theorem roundtrip_structured (r : Record) (hwf : r.WF) (hr : structuredRecord r)
    (httl : wholeSeconds r.TTL) :
    (∃ zr, ToAutoDNS r = .ok zr ∧ ToLibDNS zr = .ok (zeroUnread r)) ∧
    (RoundTrips r ↔ zeroUnread r = r) := by
  have key : ∃ zr, ToAutoDNS r = .ok zr ∧ ToLibDNS zr = .ok (zeroUnread r) := by
    cases r with
    | Address name ip ttl pd => exact absurd hr (by simp [structuredRecord])
    | RR name typ data ttl => exact absurd hr (by simp [structuredRecord])
    | other rr => exact absurd hr (by simp [structuredRecord])
    | CNAME name target ttl pd =>
      refine ⟨_, rfl, ?_⟩
      have h := ttl_roundtrip (d := ttl) hwf httl
      simp [ToLibDNS, ToUpper_CNAME, h, zeroUnread]
    | TXT name text ttl pd =>
      refine ⟨_, rfl, ?_⟩
      have h := ttl_roundtrip (d := ttl) hwf httl
      simp [ToLibDNS, ToUpper_TXT, h, zeroUnread]
    | NS name target ttl pd =>
      refine ⟨_, rfl, ?_⟩
      have h := ttl_roundtrip (d := ttl) hwf httl
      simp [ToLibDNS, ToUpper_NS, h, zeroUnread]
    | MX name p target ttl pd =>
      refine ⟨_, rfl, ?_⟩
      obtain ⟨hp, ht⟩ := hwf
      have h := ttl_roundtrip (d := ttl) ht httl
      simp [ToLibDNS, ToUpper_MX, h, Fields_MX_value p target hr, Atoi_FormatUint16 hp,
        uint16_natCast hp, zeroUnread]
    | SRV name p w q target ttl service transport pd =>
      refine ⟨_, rfl, ?_⟩
      obtain ⟨hp, hw, hq, ht⟩ := hwf
      have h := ttl_roundtrip (d := ttl) ht httl
      simp [ToLibDNS, ToUpper_SRV, h, Fields_SRV_value p w q target hr, Atoi_FormatUint16 hp,
        Atoi_FormatUint16 hw, Atoi_FormatUint16 hq, uint16_natCast hp, uint16_natCast hw,
        uint16_natCast hq, zeroUnread]
  refine ⟨key, ?_⟩
  obtain ⟨zr, h1, h2⟩ := key
  constructor
  · rintro ⟨zr1, e1, e2⟩
    rw [h1] at e1
    injection e1 with e1
    subst e1
    rw [h2] at e2
    injection e2
  · intro h
    exact ⟨zr, h1, by rw [h2, h]⟩

end autodns

namespace autodns

open libdns

/-- C1, witness: the SRV fixture of the repository's tests, whose `Service`,
`Transport` and `ProviderData` are the zero values, so that the round trip
gives the record itself back. -/
theorem roundtrip_structured_witness :
    Record.WF (.SRV "_test._tcp" 10 5 443 "srv.example.org" 3600000000000 "" "" none) ∧
    structuredRecord (.SRV "_test._tcp" 10 5 443 "srv.example.org" 3600000000000 "" "" none) ∧
    wholeSeconds (3600000000000 : Int) ∧
    RoundTrips (.SRV "_test._tcp" 10 5 443 "srv.example.org" 3600000000000 "" "" none) :=
  ⟨by simp [Record.WF, isInt64], by unfold structuredRecord plainTarget; decide, by decide,
    (roundtrip_structured _ (by simp [Record.WF, isInt64])
      (by unfold structuredRecord plainTarget; decide) (by decide)).2.2 rfl⟩

/-- C3, counterexample. A fallback record that carries the tag `TXT` is encoded
with that tag and decodes to the `TXT` variant, not to the fallback it was. -/
theorem roundtrip_RR_refuted :
    Record.WF (.RR "www" "TXT" "hello" 300000000000) ∧
    wholeSeconds (300000000000 : Int) ∧
    ToAutoDNS (.RR "www" "TXT" "hello" 300000000000) = .ok ⟨"www", "TXT", "hello", 300⟩ ∧
    ToLibDNS ⟨"www", "TXT", "hello", 300⟩ = .ok (.TXT "www" "hello" 300000000000 none) ∧
    ¬ RoundTrips (.RR "www" "TXT" "hello" 300000000000) := by
  refine ⟨by simp [Record.WF, isInt64, Record.TTL], by decide, by decide, by decide, ?_⟩
  rintro ⟨zr, h1, h2⟩
  have h3 : ToAutoDNS (.RR "www" "TXT" "hello" 300000000000) = .ok ⟨"www", "TXT", "hello", 300⟩ := by
    decide
  rw [h3] at h1
  injection h1 with h1
  subst h1
  revert h2
  decide

theorem ToLibDNS_fallback (zr : ZoneRecord) (h : strings.ToUpper zr.Typ ∉ knownTags) :
    ToLibDNS zr = .ok (.RR zr.Name zr.Typ zr.Value (ttlDuration zr.TTL)) := by
  simp only [knownTags, List.mem_cons, List.mem_singleton, List.not_mem_nil, or_false,
    not_or] at h
  obtain ⟨h1, h2, h3, h4, h5, h6, h7⟩ := h
  simp [ToLibDNS, h1, h2, h3, h4, h5, h6, h7]

/-- C3, amended. For every fallback RR record whose TTL is a whole number of
seconds and whose type tag is, ignoring case, none of A, AAAA, CNAME, TXT, MX,
NS, SRV, `ToAutoDNS` succeeds and `ToLibDNS` of its result succeeds and returns
an RR record equal to the original. -/
theorem roundtrip_RR (name typ data : String) (ttl : Int) (hwf : isInt64 ttl)
    (httl : wholeSeconds ttl) (htag : strings.ToUpper typ ∉ knownTags) :
    RoundTrips (.RR name typ data ttl) := by
  refine ⟨_, rfl, ?_⟩
  rw [ToLibDNS_fallback _ htag, ttl_roundtrip hwf httl]

/-- C3, witness: the CAA fixture of the repository's tests. -/
theorem roundtrip_RR_witness :
    isInt64 300000000000 ∧ wholeSeconds 300000000000 ∧ strings.ToUpper "CAA" ∉ knownTags ∧
    RoundTrips (.RR "test-rr" "CAA" "0 issue \"example.org\"" 300000000000) :=
  ⟨by decide, by decide, by decide, roundtrip_RR _ _ _ _ (by decide) (by decide) (by decide)⟩

end autodns

namespace unicode

theorem toNat_ofNat_of_lt {n : Nat} (h : n < 55296) : (Char.ofNat n).toNat = n := by
  have hv : n.isValidChar := Or.inl h
  simp only [Char.ofNat, hv, dite_true]
  rfl

theorem toNat_inj {a b : Char} (h : a.toNat = b.toNat) : a = b := by
  rw [← Char.ofNat_toNat a, ← Char.ofNat_toNat b, h]

/-- Upper-casing undoes ASCII lower-casing of an ASCII capital. -/
theorem ToUpper_of_toLower_eq {a u : Char} (hu : 65 ≤ u.toNat ∧ u.toNat ≤ 90)
    (h : a.toLower = u.toLower) : ToUpper a = u := by
  have hul : u.toLower = Char.ofNat (u.toNat + 32) := by
    simp [Char.toLower, hu]
  have hulN : u.toLower.toNat = u.toNat + 32 := by
    rw [hul]; exact toNat_ofNat_of_lt (by omega)
  have h1 : (Char.ofNat 0x131).toNat = 0x131 := toNat_ofNat_of_lt (by norm_num)
  have h2 : (Char.ofNat 0x17F).toNat = 0x17F := toNat_ofNat_of_lt (by norm_num)
  by_cases ha : 65 ≤ a.toNat ∧ a.toNat ≤ 90
  · have hal : a.toLower = Char.ofNat (a.toNat + 32) := by
      simp [Char.toLower, ha]
    have halN : a.toLower.toNat = a.toNat + 32 := by
      rw [hal]; exact toNat_ofNat_of_lt (by omega)
    have hau : a = u := toNat_inj (by rw [h] at halN; omega)
    subst hau
    have n1 : a ≠ Char.ofNat 0x131 := fun hc => by rw [hc] at ha; omega
    have n2 : a ≠ Char.ofNat 0x17F := fun hc => by rw [hc] at ha; omega
    have n3 : ¬ (97 ≤ a.toNat ∧ a.toNat ≤ 122) := by omega
    simp only [ToUpper, n1, n2, n3, if_false]
  · have hal : a.toLower = a := by
      simp only [Char.toLower]
      rw [if_neg]
      simpa using ha
    have haN : a.toNat = u.toNat + 32 := by rw [← hal, h, hulN]
    have n1 : a ≠ Char.ofNat 0x131 := fun hc => by rw [hc] at haN; omega
    have n2 : a ≠ Char.ofNat 0x17F := fun hc => by rw [hc] at haN; omega
    have n3 : 97 ≤ a.toNat ∧ a.toNat ≤ 122 := by omega
    simp only [ToUpper, n1, n2, n3, if_false, and_self, if_true]
    apply toNat_inj
    rw [toNat_ofNat_of_lt (by omega)]
    omega

end unicode

namespace strings

theorem map_ToUpper_of_same : ∀ (t k : List Char), (∀ c ∈ k, 65 ≤ c.toNat ∧ c.toNat ≤ 90) →
    t.map Char.toLower = k.map Char.toLower → t.map unicode.ToUpper = k := by
  intro t
  induction t with
  | nil =>
    intro k _ h
    cases k with
    | nil => rfl
    | cons c k => simp at h
  | cons a t ih =>
    intro k hk h
    cases k with
    | nil => simp at h
    | cons c k =>
      simp only [List.map_cons, List.cons.injEq] at h
      simp only [List.map_cons, List.cons.injEq]
      exact ⟨unicode.ToUpper_of_toLower_eq (hk c (List.mem_cons_self _ _)) h.1,
        ih k (fun x hx => hk x (List.mem_cons_of_mem _ hx)) h.2⟩

end strings

namespace autodns

open libdns

theorem ToUpper_of_same {t k : String} (hk : k ∈ knownTags) (h : sameIgnoringCase t k) :
    strings.ToUpper t = k := by
  unfold sameIgnoringCase at h
  unfold strings.ToUpper
  have hcap : ∀ c ∈ k.data, 65 ≤ c.toNat ∧ c.toNat ≤ 90 := by
    simp only [knownTags, List.mem_cons, List.mem_singleton, List.not_mem_nil, or_false] at hk
    rcases hk with rfl | rfl | rfl | rfl | rfl | rfl | rfl <;> decide
  rw [strings.map_ToUpper_of_same t.data k.data hcap h]

/-- C4. `ToLibDNS` dispatches on the type tag case-insensitively: for every
name, value and TTL and any two type tags that differ only in letter case and
spell one of A, AAAA, CNAME, TXT, MX, NS, SRV, the two decodes either both
succeed with equal records or both fail; and the decode of such a tag is the
one of the branch that the tag spells: a spelling of A or AAAA parses the value
as an address, a spelling of CNAME, TXT or NS returns that variant with the
value verbatim, a spelling of MX or SRV splits the value into two or four
fields and converts the leading ones. -/
theorem dispatch_ignores_case (name value : String) (ttl : Int) (t1 t2 k : String)
    (hk : k ∈ knownTags) (h1 : sameIgnoringCase t1 k) (h2 : sameIgnoringCase t2 k) :
    ((∃ r, ToLibDNS ⟨name, t1, value, ttl⟩ = .ok r ∧ ToLibDNS ⟨name, t2, value, ttl⟩ = .ok r) ∨
    ((∃ e, ToLibDNS ⟨name, t1, value, ttl⟩ = .error e) ∧
      (∃ e, ToLibDNS ⟨name, t2, value, ttl⟩ = .error e))) ∧
    (k = "A" ∨ k = "AAAA" →
      ToLibDNS ⟨name, t1, value, ttl⟩ =
        match netip.ParseAddr value with
        | none => .error ("invalid " ++ t1 ++ " record value: " ++ value)
        | some ip => .ok (.Address name ip (ttlDuration ttl) none)) ∧
    (k = "CNAME" →
      ToLibDNS ⟨name, t1, value, ttl⟩ = .ok (.CNAME name value (ttlDuration ttl) none)) ∧
    (k = "TXT" →
      ToLibDNS ⟨name, t1, value, ttl⟩ = .ok (.TXT name value (ttlDuration ttl) none)) ∧
    (k = "NS" →
      ToLibDNS ⟨name, t1, value, ttl⟩ = .ok (.NS name value (ttlDuration ttl) none)) ∧
    (k = "MX" →
      ToLibDNS ⟨name, t1, value, ttl⟩ =
        match strings.Fields value with
        | [p0, p1] =>
          match strconv.Atoi p0 with
          | none => .error ("invalid MX preference: " ++ p0)
          | some preference => .ok (.MX name (uint16 preference) p1 (ttlDuration ttl) none)
        | _ => .error ("invalid MX record format: " ++ value)) ∧
    (k = "SRV" →
      ToLibDNS ⟨name, t1, value, ttl⟩ =
        match strings.Fields value with
        | [p0, p1, p2, p3] =>
          match strconv.Atoi p0 with
          | none => .error ("invalid SRV priority: " ++ p0)
          | some priority =>
            match strconv.Atoi p1 with
            | none => .error ("invalid SRV weight: " ++ p1)
            | some weight =>
              match strconv.Atoi p2 with
              | none => .error ("invalid SRV port: " ++ p2)
              | some port =>
                .ok (.SRV name (uint16 priority) (uint16 weight) (uint16 port) p3
                  (ttlDuration ttl) "" "" none)
        | _ => .error ("invalid SRV record format: " ++ value)) := by
  have e1 := ToUpper_of_same hk h1
  have e2 := ToUpper_of_same hk h2
  refine ⟨?_, ?_, ?_, ?_, ?_, ?_, ?_⟩
  · have key : ∀ X : Except String Record,
        (∃ r, X = .ok r ∧ X = .ok r) ∨ ((∃ e, X = .error e) ∧ (∃ e, X = .error e)) := by
      intro X
      cases X <;> simp
    unfold ToLibDNS
    simp only [e1, e2]
    simp only [knownTags, List.mem_cons, List.mem_singleton, List.not_mem_nil, or_false] at hk
    rcases hk with rfl | rfl | rfl | rfl | rfl | rfl | rfl
    · cases netip.ParseAddr value <;> simp
    · cases netip.ParseAddr value <;> simp
    · simp
    · simp
    · simp only [String.reduceEq, or_self, if_false, if_true]
      exact key _
    · simp
    · simp only [String.reduceEq, or_self, if_false, if_true]
      exact key _
  · intro h
    have e : strings.ToUpper t1 = "A" ∨ strings.ToUpper t1 = "AAAA" := by
      rcases h with h | h
      · exact Or.inl (e1.trans h)
      · exact Or.inr (e1.trans h)
    unfold ToLibDNS
    simp only [e, if_true]
  · intro h
    unfold ToLibDNS
    simp [e1, h]
  · intro h
    unfold ToLibDNS
    simp [e1, h]
  · intro h
    unfold ToLibDNS
    simp [e1, h]
  · intro h
    unfold ToLibDNS
    simp [e1, h]
  · intro h
    unfold ToLibDNS
    simp [e1, h]

/-- C4, witness: the tags `mx` and `Mx` on the MX fixture, both decoded by the
MX branch. -/
theorem dispatch_ignores_case_witness :
    "MX" ∈ knownTags ∧ sameIgnoringCase "mx" "MX" ∧ sameIgnoringCase "Mx" "MX" ∧
    ToLibDNS ⟨"@", "mx", "10 mail.example.org", 3600⟩ =
      .ok (.MX "@" 10 "mail.example.org" 3600000000000 none) ∧
    ToLibDNS ⟨"@", "Mx", "10 mail.example.org", 3600⟩ =
      .ok (.MX "@" 10 "mail.example.org" 3600000000000 none) ∧
    ((∃ r, ToLibDNS ⟨"@", "mx", "10 mail.example.org", 3600⟩ = .ok r ∧
        ToLibDNS ⟨"@", "Mx", "10 mail.example.org", 3600⟩ = .ok r) ∨
    ((∃ e, ToLibDNS ⟨"@", "mx", "10 mail.example.org", 3600⟩ = .error e) ∧
      (∃ e, ToLibDNS ⟨"@", "Mx", "10 mail.example.org", 3600⟩ = .error e))) ∧
    ("MX" = "MX" →
      ToLibDNS ⟨"@", "mx", "10 mail.example.org", 3600⟩ =
        match strings.Fields "10 mail.example.org" with
        | [p0, p1] =>
          match strconv.Atoi p0 with
          | none => .error ("invalid MX preference: " ++ p0)
          | some preference => .ok (.MX "@" (uint16 preference) p1 (ttlDuration 3600) none)
        | _ => .error ("invalid MX record format: " ++ "10 mail.example.org")) :=
  ⟨by decide, by decide, by decide, by decide, by decide,
    (dispatch_ignores_case "@" "10 mail.example.org" 3600 "mx" "Mx" "MX" (by decide) (by decide)
      (by decide)).1,
    (dispatch_ignores_case "@" "10 mail.example.org" 3600 "mx" "Mx" "MX" (by decide) (by decide)
      (by decide)).2.2.2.2.2.1⟩

end autodns

namespace autodns

open libdns

/-- C5, counterexample. A record with the unknown tag `CAA` and a TTL of
9223372037 seconds decodes to a fallback record whose TTL is the wrapped
`int64` product, a negative duration, not 9223372037 seconds. -/
theorem fallback_ttl_refuted :
    isInt64 9223372037 ∧ strings.ToUpper "CAA" ∉ knownTags ∧
    ToLibDNS ⟨"custom", "CAA", "0 issue \"letsencrypt.org\"", 9223372037⟩ =
      .ok (.RR "custom" "CAA" "0 issue \"letsencrypt.org\"" (-9223372036709551616)) ∧
    ToLibDNS ⟨"custom", "CAA", "0 issue \"letsencrypt.org\"", 9223372037⟩ ≠
      .ok (.RR "custom" "CAA" "0 issue \"letsencrypt.org\"" (9223372037 * time.Second)) := by
  decide

/-- C5, amended. For every provider record whose type tag is not, ignoring case
(as `strings.ToUpper` does), one of A, AAAA, CNAME, TXT, MX, NS, SRV, `ToLibDNS`
returns no error and returns the fallback RR record carrying the record's name,
the type tag exactly as given, the value exactly as given as its data, and as TTL
the `int64` product of the TTL and one second, which is that many seconds
whenever the TTL lies between -9223372036 and 9223372036. -/
theorem fallback_decode (zr : ZoneRecord) (htag : strings.ToUpper zr.Typ ∉ knownTags) :
    ToLibDNS zr = .ok (.RR zr.Name zr.Typ zr.Value (ttlDuration zr.TTL)) ∧
    (ttlInRange zr.TTL → ttlDuration zr.TTL = zr.TTL * time.Second) :=
  ⟨ToLibDNS_fallback zr htag, fun h => ttlDuration_of_inRange h⟩

/-- C5, witness: the CAA zone record of the fixtures. -/
theorem fallback_decode_witness :
    strings.ToUpper "CAA" ∉ knownTags ∧
    ToLibDNS ⟨"custom", "CAA", "0 issue \"letsencrypt.org\"", 86400⟩ =
      .ok (.RR "custom" "CAA" "0 issue \"letsencrypt.org\"" (ttlDuration 86400)) ∧
    (ttlInRange 86400 → ttlDuration 86400 = 86400 * time.Second) :=
  ⟨by decide, fallback_decode ⟨"custom", "CAA", "0 issue \"letsencrypt.org\"", 86400⟩ (by decide)⟩

/-- C6, counterexample. An `A` record with a valid address and a TTL of
9223372037 seconds decodes to an Address whose TTL is the wrapped `int64`
product, not 9223372037 seconds. -/
theorem address_ttl_refuted :
    isInt64 9223372037 ∧ netip.ParseAddr "192.168.1.1" = some (.v4 192 168 1 1) ∧
    ToLibDNS ⟨"@", "A", "192.168.1.1", 9223372037⟩ =
      .ok (.Address "@" (.v4 192 168 1 1) (-9223372036709551616) none) ∧
    ToLibDNS ⟨"@", "A", "192.168.1.1", 9223372037⟩ ≠
      .ok (.Address "@" (.v4 192 168 1 1) (9223372037 * time.Second) none) := by
  decide

/-- C6, amended. For every provider record whose type tag is A or AAAA in any
letter case, `ToLibDNS` fails exactly when the value is not a valid IP address
literal; in that case the error text is `invalid TYPE record value: VALUE` with
the tag in its original case and the raw value; otherwise it returns an Address
carrying the parsed address, the record's name and as TTL the `int64` product
of the TTL and one second, which is that many seconds whenever the TTL lies
between -9223372036 and 9223372036. -/
theorem address_decode (zr : ZoneRecord)
    (htag : strings.ToUpper zr.Typ = "A" ∨ strings.ToUpper zr.Typ = "AAAA") :
    ((∃ e, ToLibDNS zr = .error e) ↔ netip.ParseAddr zr.Value = none) ∧
    (netip.ParseAddr zr.Value = none →
      ToLibDNS zr = .error ("invalid " ++ zr.Typ ++ " record value: " ++ zr.Value)) ∧
    (∀ ip, netip.ParseAddr zr.Value = some ip →
      ToLibDNS zr = .ok (.Address zr.Name ip (ttlDuration zr.TTL) none)) ∧
    (ttlInRange zr.TTL → ttlDuration zr.TTL = zr.TTL * time.Second) := by
  refine ⟨?_, ?_, ?_, fun h => ttlDuration_of_inRange h⟩
  · unfold ToLibDNS
    simp only [htag, if_true]
    cases netip.ParseAddr zr.Value <;> simp
  · intro h
    unfold ToLibDNS
    simp only [htag, if_true, h]
  · intro ip h
    unfold ToLibDNS
    simp only [htag, if_true, h]

/-- C6, witness: a malformed and a well-formed AAAA value under the tag `aaaa`. -/
theorem address_decode_witness :
    (strings.ToUpper "aaaa" = "A" ∨ strings.ToUpper "aaaa" = "AAAA") ∧
    netip.ParseAddr "invalid-ipv6" = none ∧
    ToLibDNS ⟨"test", "aaaa", "invalid-ipv6", 0⟩ =
      .error ("invalid " ++ "aaaa" ++ " record value: " ++ "invalid-ipv6") ∧
    netip.ParseAddr "2001:db8::1" = some (.v6 [8193, 3512, 0, 0, 0, 0, 0, 1] "") ∧
    ToLibDNS ⟨"ipv6", "aaaa", "2001:db8::1", 3600⟩ =
      .ok (.Address "ipv6" (.v6 [8193, 3512, 0, 0, 0, 0, 0, 1] "") (ttlDuration 3600) none) ∧
    ttlDuration 3600 = 3600 * time.Second :=
  ⟨by decide, by decide,
    (address_decode ⟨"test", "aaaa", "invalid-ipv6", 0⟩ (by decide)).2.1 (by decide),
    by decide,
    (address_decode ⟨"ipv6", "aaaa", "2001:db8::1", 3600⟩ (by decide)).2.2.1 _ (by decide),
    (address_decode ⟨"ipv6", "aaaa", "2001:db8::1", 3600⟩ (by decide)).2.2.2 (by decide)⟩

theorem MX_messages_differ (v f : String) :
    "invalid MX record format: " ++ v ≠ "invalid MX preference: " ++ f := by
  intro h
  have := congrArg String.data h
  simp [String.data_append] at this

/-- C7. For every provider record with type MX: if the value does not split
into exactly two whitespace-separated fields, `ToLibDNS` fails with
`invalid MX record format: VALUE`; if it has exactly two fields and the first
does not parse as an integer, it fails with `invalid MX preference: FIELD`; the
two errors never coincide, and no record is returned in either case. -/
theorem MX_errors (zr : ZoneRecord) (htag : strings.ToUpper zr.Typ = "MX") :
    ((strings.Fields zr.Value).length ≠ 2 →
      ToLibDNS zr = .error ("invalid MX record format: " ++ zr.Value)) ∧
    (∀ p0 p1, strings.Fields zr.Value = [p0, p1] → strconv.Atoi p0 = none →
      ToLibDNS zr = .error ("invalid MX preference: " ++ p0)) ∧
    (∀ v f : String, "invalid MX record format: " ++ v ≠ "invalid MX preference: " ++ f) := by
  refine ⟨?_, ?_, MX_messages_differ⟩
  · intro hlen
    unfold ToLibDNS
    simp only [htag, String.reduceEq, or_self, if_false, if_true]
    split
    · rename_i h; rw [h] at hlen; simp at hlen
    · rfl
  · intro p0 p1 hf ha
    unfold ToLibDNS
    simp only [htag, String.reduceEq, or_self, if_false, if_true, hf, ha]

/-- C7, witness: the two malformed MX values of the fixtures. -/
theorem MX_errors_witness :
    strings.ToUpper "MX" = "MX" ∧ (strings.Fields "invalid").length ≠ 2 ∧
    ToLibDNS ⟨"test", "MX", "invalid", 0⟩ = .error ("invalid MX record format: " ++ "invalid") ∧
    strings.Fields "abc mx.example.org" = ["abc", "mx.example.org"] ∧ strconv.Atoi "abc" = none ∧
    ToLibDNS ⟨"test", "MX", "abc mx.example.org", 0⟩ = .error ("invalid MX preference: " ++ "abc") :=
  ⟨by decide, by decide, (MX_errors ⟨"test", "MX", "invalid", 0⟩ (by decide)).1 (by decide),
    by decide, by decide,
    (MX_errors ⟨"test", "MX", "abc mx.example.org", 0⟩ (by decide)).2.1 "abc" "mx.example.org"
      (by decide) (by decide)⟩

end autodns

namespace strconv

theorem parseDigits_eq_foldl : ∀ (cs : List Char) (a : Nat),
    (∀ c ∈ cs, 48 ≤ c.toNat ∧ c.toNat ≤ 57) →
    parseDigits cs a = some (cs.foldl (fun a c => 10 * a + (c.toNat - 48)) a) := by
  intro cs
  induction cs with
  | nil => intro a _; rfl
  | cons c cs ih =>
    intro a h
    have hc := h c (List.mem_cons_self _ _)
    have hd : isDigit c = true := by
      simp [isDigit, hc.1, hc.2]
    simp only [parseDigits, hd, if_true, List.foldl_cons]
    rw [ih _ (fun x hx => h x (List.mem_cons_of_mem _ hx)), mul_comm]

end strconv

namespace autodns

open libdns

/-- A decimal integer up to 65535 is read by `Atoi` and kept by `uint16`. -/
theorem Atoi_of_IsDecimal {s : String} {n : Nat} (h : IsDecimal s n) (hn : n ≤ 65535) :
    strconv.Atoi s = some (n : Int) ∧ uint16 (n : Int) = n := by
  obtain ⟨hne, hd, hv⟩ := h
  refine ⟨?_, uint16_natCast (by omega)⟩
  apply strconv.Atoi_of_digits s n hne
  · intro c hc
    have := hd c hc
    simp [strconv.isDigit, this.1, this.2]
  · rw [strconv.parseDigits_eq_foldl _ _ hd]
    exact congrArg some hv
  · norm_num; omega

/-- C8. For every provider record with type SRV: if the value does not have
exactly four whitespace-separated fields, `ToLibDNS` fails with
`invalid SRV record format: VALUE`, whatever the fields are; if it has exactly
four fields, the error, if any, names the first of priority, weight, port, in
that order, whose field does not parse as an integer, and quotes that field,
whether or not later fields parse. -/
theorem SRV_errors (zr : ZoneRecord) (htag : strings.ToUpper zr.Typ = "SRV") :
    ((strings.Fields zr.Value).length ≠ 4 →
      ToLibDNS zr = .error ("invalid SRV record format: " ++ zr.Value)) ∧
    (∀ p0 p1 p2 p3, strings.Fields zr.Value = [p0, p1, p2, p3] →
      (strconv.Atoi p0 = none → ToLibDNS zr = .error ("invalid SRV priority: " ++ p0)) ∧
      (strconv.Atoi p0 ≠ none → strconv.Atoi p1 = none →
        ToLibDNS zr = .error ("invalid SRV weight: " ++ p1)) ∧
      (strconv.Atoi p0 ≠ none → strconv.Atoi p1 ≠ none → strconv.Atoi p2 = none →
        ToLibDNS zr = .error ("invalid SRV port: " ++ p2)) ∧
      (strconv.Atoi p0 ≠ none → strconv.Atoi p1 ≠ none → strconv.Atoi p2 ≠ none →
        ∃ r, ToLibDNS zr = .ok r)) := by
  refine ⟨?_, ?_⟩
  · intro hlen
    unfold ToLibDNS
    simp only [htag, String.reduceEq, or_self, if_false, if_true]
    split
    · rename_i h; rw [h] at hlen; simp at hlen
    · rfl
  · intro p0 p1 p2 p3 hf
    unfold ToLibDNS
    simp only [htag, String.reduceEq, or_self, if_false, if_true, hf]
    refine ⟨?_, ?_, ?_, ?_⟩
    · intro h0; simp only [h0]
    · intro h0 h1
      obtain ⟨a, ha⟩ := Option.ne_none_iff_exists'.mp h0
      simp only [ha, h1]
    · intro h0 h1 h2
      obtain ⟨a, ha⟩ := Option.ne_none_iff_exists'.mp h0
      obtain ⟨b, hb⟩ := Option.ne_none_iff_exists'.mp h1
      simp only [ha, hb, h2]
    · intro h0 h1 h2
      obtain ⟨a, ha⟩ := Option.ne_none_iff_exists'.mp h0
      obtain ⟨b, hb⟩ := Option.ne_none_iff_exists'.mp h1
      obtain ⟨c, hc⟩ := Option.ne_none_iff_exists'.mp h2
      simp only [ha, hb, hc]
      exact ⟨_, rfl⟩

/-- C8, witness: a value of three fields, and one whose weight and port are both malformed. -/
theorem SRV_errors_witness :
    strings.ToUpper "SRV" = "SRV" ∧ (strings.Fields "10 5 target").length ≠ 4 ∧
    ToLibDNS ⟨"test", "SRV", "10 5 target", 0⟩ =
      .error ("invalid SRV record format: " ++ "10 5 target") ∧
    strings.Fields "10 abc xyz target" = ["10", "abc", "xyz", "target"] ∧
    strconv.Atoi "10" ≠ none ∧ strconv.Atoi "abc" = none ∧
    ToLibDNS ⟨"test", "SRV", "10 abc xyz target", 0⟩ = .error ("invalid SRV weight: " ++ "abc") :=
  ⟨by decide, by decide, (SRV_errors ⟨"test", "SRV", "10 5 target", 0⟩ (by decide)).1 (by decide),
    by decide, by decide, by decide,
    ((SRV_errors ⟨"test", "SRV", "10 abc xyz target", 0⟩ (by decide)).2 "10" "abc" "xyz" "target"
      (by decide)).2.1 (by decide) (by decide)⟩

/-- C9, counterexample. A well-formed SRV value with a TTL of 9223372037
seconds decodes to an SRV record whose TTL is the wrapped `int64` product, not
9223372037 seconds. -/
theorem SRV_ttl_refuted :
    isInt64 9223372037 ∧
    strings.Fields "10 5 5060 sipserver.example.org" = ["10", "5", "5060", "sipserver.example.org"] ∧
    IsDecimal "10" 10 ∧ IsDecimal "5" 5 ∧ IsDecimal "5060" 5060 ∧
    ToLibDNS ⟨"_sip._tcp", "SRV", "10 5 5060 sipserver.example.org", 9223372037⟩ =
      .ok (.SRV "_sip._tcp" 10 5 5060 "sipserver.example.org" (-9223372036709551616) "" "" none) ∧
    ToLibDNS ⟨"_sip._tcp", "SRV", "10 5 5060 sipserver.example.org", 9223372037⟩ ≠
      .ok (.SRV "_sip._tcp" 10 5 5060 "sipserver.example.org" (9223372037 * time.Second) "" "" none) := by
  refine ⟨by decide, by decide, ?_, ?_, ?_, by decide, by decide⟩ <;>
    (unfold IsDecimal; decide)

/-- C9, amended. For every provider record with type SRV whose value consists
of exactly four whitespace-separated fields, the first three being decimal
integers in 0..65535, `ToLibDNS` succeeds and returns an SRV record whose
priority, weight and port are those integers, whose target is the fourth field
and whose name is the record's name; likewise an MX value of two fields, a
decimal integer in 0..65535 and a target, yields an MX record with that
preference and target.  The TTL is the `int64` product of the TTL and one
second, which is that many seconds whenever the TTL lies between -9223372036
and 9223372036. -/
theorem SRV_MX_decode (zr : ZoneRecord) :
    (strings.ToUpper zr.Typ = "SRV" → ∀ p0 p1 p2 p3 a b c,
      strings.Fields zr.Value = [p0, p1, p2, p3] →
      IsDecimal p0 a → a ≤ 65535 → IsDecimal p1 b → b ≤ 65535 → IsDecimal p2 c → c ≤ 65535 →
      ToLibDNS zr = .ok (.SRV zr.Name a b c p3 (ttlDuration zr.TTL) "" "" none)) ∧
    (strings.ToUpper zr.Typ = "MX" → ∀ p0 p1 a,
      strings.Fields zr.Value = [p0, p1] → IsDecimal p0 a → a ≤ 65535 →
      ToLibDNS zr = .ok (.MX zr.Name a p1 (ttlDuration zr.TTL) none)) ∧
    (ttlInRange zr.TTL → ttlDuration zr.TTL = zr.TTL * time.Second) := by
  refine ⟨?_, ?_, fun h => ttlDuration_of_inRange h⟩
  · intro htag p0 p1 p2 p3 a b c hf ha ha2 hb hb2 hc hc2
    obtain ⟨a1, a2⟩ := Atoi_of_IsDecimal ha ha2
    obtain ⟨b1, b2⟩ := Atoi_of_IsDecimal hb hb2
    obtain ⟨c1, c2⟩ := Atoi_of_IsDecimal hc hc2
    unfold ToLibDNS
    simp only [htag, String.reduceEq, or_self, if_false, if_true, hf, a1, b1, c1, a2, b2, c2]
  · intro htag p0 p1 a hf ha ha2
    obtain ⟨a1, a2⟩ := Atoi_of_IsDecimal ha ha2
    unfold ToLibDNS
    simp only [htag, String.reduceEq, or_self, if_false, if_true, hf, a1, a2]

/-- C9, witness: the SRV and MX zone records of the fixtures. -/
theorem SRV_MX_decode_witness :
    strings.Fields "10 5 5060 sipserver.example.org" = ["10", "5", "5060", "sipserver.example.org"] ∧
    IsDecimal "10" 10 ∧ IsDecimal "5" 5 ∧ IsDecimal "5060" 5060 ∧
    ToLibDNS ⟨"_sip._tcp", "SRV", "10 5 5060 sipserver.example.org", 3600⟩ =
      .ok (.SRV "_sip._tcp" 10 5 5060 "sipserver.example.org" (ttlDuration 3600) "" "" none) ∧
    strings.Fields "10 mail.example.org" = ["10", "mail.example.org"] ∧
    ToLibDNS ⟨"@", "mx", "10 mail.example.org", 3600⟩ =
      .ok (.MX "@" 10 "mail.example.org" (ttlDuration 3600) none) ∧
    ttlInRange 3600 ∧ ttlDuration 3600 = 3600 * time.Second :=
  ⟨by decide, by unfold IsDecimal; decide, by unfold IsDecimal; decide,
    by unfold IsDecimal; decide,
    (SRV_MX_decode ⟨"_sip._tcp", "SRV", "10 5 5060 sipserver.example.org", 3600⟩).1 (by decide)
      "10" "5" "5060" "sipserver.example.org" 10 5 5060 (by decide)
      (by unfold IsDecimal; decide) (by decide)
      (by unfold IsDecimal; decide) (by decide) (by unfold IsDecimal; decide) (by decide),
    by decide,
    (SRV_MX_decode ⟨"@", "mx", "10 mail.example.org", 3600⟩).2.1 (by decide)
      "10" "mail.example.org" 10 (by decide) (by unfold IsDecimal; decide) (by decide),
    by decide,
    (SRV_MX_decode ⟨"@", "mx", "10 mail.example.org", 3600⟩).2.2 (by decide)⟩

/-- C10, counterexample. A CNAME record with a TTL of 9223372037 seconds decodes
to a CNAME whose TTL is the wrapped `int64` product, not 9223372037 seconds. -/
theorem raw_value_ttl_refuted :
    isInt64 9223372037 ∧
    ToLibDNS ⟨"mail", "CNAME", "mailserver.example.org", 9223372037⟩ =
      .ok (.CNAME "mail" "mailserver.example.org" (-9223372036709551616) none) ∧
    ToLibDNS ⟨"mail", "CNAME", "mailserver.example.org", 9223372037⟩ ≠
      .ok (.CNAME "mail" "mailserver.example.org" (9223372037 * time.Second) none) := by
  decide

/-- C10, amended. For every provider record whose type tag is CNAME, TXT or NS
in any letter case and for every value string (the empty string and strings
with white space or quotes included), `ToLibDNS` returns no error and returns
the corresponding variant whose target or text is the value unchanged, with the
record's name, and as TTL the `int64` product of the TTL and one second, which
is that many seconds whenever the TTL lies between -9223372036 and
9223372036. -/
theorem raw_value_decode (zr : ZoneRecord) :
    (strings.ToUpper zr.Typ = "CNAME" →
      ToLibDNS zr = .ok (.CNAME zr.Name zr.Value (ttlDuration zr.TTL) none)) ∧
    (strings.ToUpper zr.Typ = "TXT" →
      ToLibDNS zr = .ok (.TXT zr.Name zr.Value (ttlDuration zr.TTL) none)) ∧
    (strings.ToUpper zr.Typ = "NS" →
      ToLibDNS zr = .ok (.NS zr.Name zr.Value (ttlDuration zr.TTL) none)) ∧
    (ttlInRange zr.TTL → ttlDuration zr.TTL = zr.TTL * time.Second) := by
  refine ⟨?_, ?_, ?_, fun h => ttlDuration_of_inRange h⟩ <;>
  · intro htag
    unfold ToLibDNS
    simp only [htag, String.reduceEq, or_self, if_false, if_true]

/-- C10, witness: an empty CNAME value, a TXT value with blanks and quotes, an NS value. -/
theorem raw_value_decode_witness :
    ToLibDNS ⟨"mail", "cname", "", 3600⟩ = .ok (.CNAME "mail" "" (ttlDuration 3600) none) ∧
    ToLibDNS ⟨"@", "Txt", " v=spf1  \"a b\" ", 3600⟩ =
      .ok (.TXT "@" " v=spf1  \"a b\" " (ttlDuration 3600) none) ∧
    ToLibDNS ⟨"@", "NS", "ns1.example.org", 3600⟩ =
      .ok (.NS "@" "ns1.example.org" (ttlDuration 3600) none) ∧
    ttlInRange 3600 ∧ ttlDuration 3600 = 3600 * time.Second :=
  ⟨(raw_value_decode ⟨"mail", "cname", "", 3600⟩).1 (by decide),
    (raw_value_decode ⟨"@", "Txt", " v=spf1  \"a b\" ", 3600⟩).2.1 (by decide),
    (raw_value_decode ⟨"@", "NS", "ns1.example.org", 3600⟩).2.2.1 (by decide),
    by decide,
    (raw_value_decode ⟨"@", "NS", "ns1.example.org", 3600⟩).2.2.2 (by decide)⟩

end autodns

/-! ## net/netip: printing an address and parsing it back -/

namespace netip

theorem hexVal_digitChar : ∀ d, d < 10 → hexVal (strconv.digitChar d) = some d := by decide

theorem hexVal_hexDigit : ∀ d, d < 16 → hexVal (hexDigit d) = some d := by decide

theorem digitChar_ne_special : ∀ d, d < 10 →
    strconv.digitChar d ≠ '.' ∧ strconv.digitChar d ≠ ':' ∧ strconv.digitChar d ≠ '%' := by
  decide

theorem hexDigit_ne_special : ∀ d, d < 16 →
    hexDigit d ≠ '.' ∧ hexDigit d ≠ ':' ∧ hexDigit d ≠ '%' := by
  decide

/-- The text of a byte: one to three digits, the first not `0` unless alone. -/
theorem appendDecimal_cases {x : Nat} (hx : x < 256) :
    (x < 10 ∧ appendDecimal x = [strconv.digitChar x]) ∨
    (10 ≤ x ∧ x < 100 ∧ appendDecimal x = [strconv.digitChar (x / 10 % 10), strconv.digitChar (x % 10)]) ∨
    (100 ≤ x ∧ appendDecimal x =
      [strconv.digitChar (x / 100), strconv.digitChar (x / 10 % 10), strconv.digitChar (x % 10)]) := by
  unfold appendDecimal
  by_cases h1 : 100 ≤ x
  · right; right
    have h2 : 10 ≤ x := by omega
    simp [h1, h2]
  · by_cases h2 : 10 ≤ x
    · right; left
      simp [h1, h2]; omega
    · left
      simp [h1, h2]
      constructor
      · omega
      · congr 1; omega

/-- Reading the text of a byte with `parseIPv4Fields`: the scan arrives behind
it with the byte as the current value. -/
theorem parseIPv4Fields_octet {x : Nat} (hx : x < 256) (rest : List Char) (start : Bool)
    (fields : List Nat) :
    ∃ dl, parseIPv4Fields (appendDecimal x ++ rest) start 0 0 fields =
      parseIPv4Fields rest false x dl fields := by
  have hd := strconv.isDigit_digitChar
  have hn := strconv.digitChar_toNat
  rcases appendDecimal_cases hx with ⟨h1, e⟩ | ⟨h1, h2, e⟩ | ⟨h1, e⟩
  · refine ⟨1, ?_⟩
    rw [e]
    simp only [List.singleton_append, parseIPv4Fields, hd x h1, hn x h1, if_true]
    have : ¬ (0 * 10 + (48 + x - 48) > 255) := by omega
    simp only [this, if_false]
    simp
  · refine ⟨2, ?_⟩
    rw [e]
    have a1 : x / 10 % 10 < 10 := by omega
    have a2 : x % 10 < 10 := by omega
    simp only [List.cons_append, List.nil_append, parseIPv4Fields, hd _ a1, hd _ a2, hn _ a1,
      hn _ a2, if_true]
    have b1 : ¬ (0 * 10 + (48 + x / 10 % 10 - 48) > 255) := by omega
    have b2 : ¬ ((0 * 10 + (48 + x / 10 % 10 - 48)) * 10 + (48 + x % 10 - 48) > 255) := by omega
    have b3 : ¬ (0 + 1 = 1 ∧ 0 * 10 + (48 + x / 10 % 10 - 48) = 0) := by omega
    have b4 : (0 * 10 + (48 + x / 10 % 10 - 48)) * 10 + (48 + x % 10 - 48) = x := by omega
    simp only [b1, b2, b3, b4, if_false]
    have c1 : x / 10 % 10 ≠ 0 := by omega
    have c2 : ¬ 255 < x := by omega
    simp [c1, c2]
  · refine ⟨3, ?_⟩
    rw [e]
    have a0 : x / 100 < 10 := by omega
    have a1 : x / 10 % 10 < 10 := by omega
    have a2 : x % 10 < 10 := by omega
    simp only [List.cons_append, List.nil_append, parseIPv4Fields, hd _ a0, hd _ a1, hd _ a2,
      hn _ a0, hn _ a1, hn _ a2, if_true]
    have b0 : ¬ (0 * 10 + (48 + x / 100 - 48) > 255) := by omega
    have b1 : ¬ ((0 * 10 + (48 + x / 100 - 48)) * 10 + (48 + x / 10 % 10 - 48) > 255) := by omega
    have b2 : ¬ (((0 * 10 + (48 + x / 100 - 48)) * 10 + (48 + x / 10 % 10 - 48)) * 10 +
        (48 + x % 10 - 48) > 255) := by omega
    have b3 : ¬ (0 + 1 = 1 ∧ 0 * 10 + (48 + x / 100 - 48) = 0) := by omega
    have b4 : ((0 * 10 + (48 + x / 100 - 48)) * 10 + (48 + x / 10 % 10 - 48)) * 10 +
        (48 + x % 10 - 48) = x := by omega
    simp only [b0, b1, b2, b3, b4, if_false]
    have c1 : x / 100 ≠ 0 := by omega
    have c2 : ¬ 255 < x := by omega
    simp [c1, c2]

end netip

namespace netip

theorem appendDecimal_digits {x : Nat} (hx : x < 256) :
    ∃ d t, d < 10 ∧ appendDecimal x = strconv.digitChar d :: t ∧
      ∀ c ∈ appendDecimal x, ∃ e, e < 10 ∧ c = strconv.digitChar e := by
  rcases appendDecimal_cases hx with ⟨h1, e⟩ | ⟨h1, h2, e⟩ | ⟨h1, e⟩
  · refine ⟨x, [], h1, e, ?_⟩
    rw [e]; intro c hc
    simp only [List.mem_singleton] at hc
    exact ⟨x, h1, hc⟩
  · refine ⟨x / 10 % 10, _, by omega, e, ?_⟩
    rw [e]; intro c hc
    simp only [List.mem_cons, List.mem_singleton, List.not_mem_nil, or_false] at hc
    rcases hc with hc | hc
    · exact ⟨_, by omega, hc⟩
    · exact ⟨_, by omega, hc⟩
  · refine ⟨x / 100, _, by omega, e, ?_⟩
    rw [e]; intro c hc
    simp only [List.mem_cons, List.mem_singleton, List.not_mem_nil, or_false] at hc
    rcases hc with hc | hc | hc
    · exact ⟨_, by omega, hc⟩
    · exact ⟨_, by omega, hc⟩
    · exact ⟨_, by omega, hc⟩

theorem appendDecimal_ne_nil {x : Nat} (hx : x < 256) (rest : List Char) :
    appendDecimal x ++ rest ≠ [] := by
  obtain ⟨d, t, _, e, _⟩ := appendDecimal_digits hx
  rw [e]; simp

theorem parseIPv4Fields_dot (cs : List Char) (hcs : cs ≠ []) (val dl : Nat) (fields : List Nat)
    (hf : fields.length ≠ 3) :
    parseIPv4Fields ('.' :: cs) false val dl fields = parseIPv4Fields cs true 0 0 (fields ++ [val]) := by
  have h1 : strconv.isDigit '.' = false := by decide
  simp [parseIPv4Fields, h1, hcs, hf]

/-- The dotted-decimal text of four bytes parses to these bytes. -/
theorem parseIPv4Fields_string4 {a b c d : Nat} (ha : a < 256) (hb : b < 256) (hc : c < 256)
    (hd : d < 256) : parseIPv4Fields (string4 a b c d) true 0 0 [] = some [a, b, c, d] := by
  unfold string4
  obtain ⟨l1, e1⟩ := parseIPv4Fields_octet ha
    ('.' :: appendDecimal b ++ '.' :: appendDecimal c ++ '.' :: appendDecimal d) true []
  obtain ⟨l2, e2⟩ := parseIPv4Fields_octet hb
    ('.' :: appendDecimal c ++ '.' :: appendDecimal d) true [a]
  obtain ⟨l3, e3⟩ := parseIPv4Fields_octet hc ('.' :: appendDecimal d) true [a, b]
  obtain ⟨l4, e4⟩ := parseIPv4Fields_octet hd [] true [a, b, c]
  simp only [List.append_assoc, List.cons_append] at e1 e2 e3 e4 ⊢
  rw [e1, parseIPv4Fields_dot _ (appendDecimal_ne_nil hb _) _ _ _ (by simp)]
  simp only [List.nil_append]
  rw [e2, parseIPv4Fields_dot _ (appendDecimal_ne_nil hc _) _ _ _ (by simp)]
  simp only [List.singleton_append]
  rw [e3, parseIPv4Fields_dot _ (by simpa using appendDecimal_ne_nil hd []) _ _ _ (by simp)]
  simp only [List.cons_append, List.nil_append]
  simp only [List.append_nil] at e4
  rw [e4]
  simp [parseIPv4Fields]

theorem parseAddrScan_dot (whole pre rest : List Char)
    (hpre : ∀ c ∈ pre, c ≠ '.' ∧ c ≠ ':' ∧ c ≠ '%') :
    parseAddrScan whole (pre ++ '.' :: rest) = parseIPv4 whole := by
  induction pre with
  | nil => simp [parseAddrScan]
  | cons c pre ih =>
    obtain ⟨h1, h2, h3⟩ := hpre c (List.mem_cons_self _ _)
    simp only [List.cons_append, parseAddrScan, h1, h2, h3, if_false]
    exact ih (fun x hx => hpre x (List.mem_cons_of_mem _ hx))

/-- An IPv4 address is read back from its text. -/
theorem ParseAddr_String_v4 {a b c d : Nat} (ha : a < 256) (hb : b < 256) (hc : c < 256)
    (hd : d < 256) : ParseAddr (Addr.String (.v4 a b c d)) = some (.v4 a b c d) := by
  unfold ParseAddr Addr.String
  simp only []
  have hscan : parseAddrScan (string4 a b c d) (string4 a b c d) = parseIPv4 (string4 a b c d) := by
    have hform : string4 a b c d =
        appendDecimal a ++ '.' :: (appendDecimal b ++ '.' :: appendDecimal c ++ '.' :: appendDecimal d) := by
      simp [string4]
    conv => lhs; arg 2; rw [hform]
    apply parseAddrScan_dot
    intro x hx
    obtain ⟨_, _, _, _, hall⟩ := appendDecimal_digits ha
    obtain ⟨e, he, rfl⟩ := hall x hx
    exact digitChar_ne_special e he
  rw [hscan]
  unfold parseIPv4
  rw [parseIPv4Fields_string4 ha hb hc hd]

end netip

namespace netip

/-- The text of a group: one to four hexadecimal digits. -/
theorem appendHex_cases {x : Nat} (hx : x < 65536) :
    (x < 0x10 ∧ appendHex x = [hexDigit (x % 16)]) ∨
    (0x10 ≤ x ∧ x < 0x100 ∧ appendHex x = [hexDigit (x / 0x10 % 16), hexDigit (x % 16)]) ∨
    (0x100 ≤ x ∧ x < 0x1000 ∧
      appendHex x = [hexDigit (x / 0x100 % 16), hexDigit (x / 0x10 % 16), hexDigit (x % 16)]) ∨
    (0x1000 ≤ x ∧ appendHex x =
      [hexDigit (x / 0x1000), hexDigit (x / 0x100 % 16), hexDigit (x / 0x10 % 16),
        hexDigit (x % 16)]) := by
  unfold appendHex
  by_cases h1 : 0x1000 ≤ x
  · right; right; right
    have h2 : 0x100 ≤ x := by omega
    have h3 : 0x10 ≤ x := by omega
    simp [h1, h2, h3]
  · by_cases h2 : 0x100 ≤ x
    · right; right; left
      have h3 : 0x10 ≤ x := by omega
      simp [h1, h2, h3]; omega
    · by_cases h3 : 0x10 ≤ x
      · right; left
        simp [h1, h2, h3]; omega
      · left
        simp [h1, h2, h3]; omega

theorem appendHex_digits {x : Nat} (hx : x < 65536) :
    ∃ d t, d < 16 ∧ appendHex x = hexDigit d :: t ∧
      ∀ c ∈ appendHex x, ∃ e, e < 16 ∧ c = hexDigit e := by
  rcases appendHex_cases hx with ⟨h1, e⟩ | ⟨h1, h2, e⟩ | ⟨h1, h2, e⟩ | ⟨h1, e⟩
  · refine ⟨_, [], by omega, e, ?_⟩
    rw [e]; intro c hc
    simp only [List.mem_singleton] at hc
    exact ⟨_, by omega, hc⟩
  · refine ⟨_, _, by omega, e, ?_⟩
    rw [e]; intro c hc
    simp only [List.mem_cons, List.mem_singleton, List.not_mem_nil, or_false] at hc
    rcases hc with hc | hc
    · exact ⟨_, by omega, hc⟩
    · exact ⟨_, by omega, hc⟩
  · refine ⟨_, _, by omega, e, ?_⟩
    rw [e]; intro c hc
    simp only [List.mem_cons, List.mem_singleton, List.not_mem_nil, or_false] at hc
    rcases hc with hc | hc | hc
    · exact ⟨_, by omega, hc⟩
    · exact ⟨_, by omega, hc⟩
    · exact ⟨_, by omega, hc⟩
  · refine ⟨_, _, by omega, e, ?_⟩
    rw [e]; intro c hc
    simp only [List.mem_cons, List.mem_singleton, List.not_mem_nil, or_false] at hc
    rcases hc with hc | hc | hc | hc
    · exact ⟨_, by omega, hc⟩
    · exact ⟨_, by omega, hc⟩
    · exact ⟨_, by omega, hc⟩
    · exact ⟨_, by omega, hc⟩

/-- The end of a run of hexadecimal digits. -/
theorem parseHexField_stop (off acc : Nat) (rest : List Char)
    (hrest : ∀ c r, rest = c :: r → hexVal c = none) :
    parseHexField off acc rest = some (off, acc, rest) := by
  cases rest with
  | nil => rfl
  | cons c r => simp [parseHexField, hrest c r rfl]

/-- Reading the text of a group: its value, and the text behind it. -/
theorem parseHexField_appendHex {x : Nat} (hx : x < 65536) (rest : List Char)
    (hrest : ∀ c r, rest = c :: r → hexVal c = none) :
    ∃ off, off ≠ 0 ∧ parseHexField 0 0 (appendHex x ++ rest) = some (off, x, rest) := by
  have hv := hexVal_hexDigit
  rcases appendHex_cases hx with ⟨h1, e⟩ | ⟨h1, h2, e⟩ | ⟨h1, h2, e⟩ | ⟨h1, e⟩
  · refine ⟨1, by simp, ?_⟩
    rw [e]
    have a0 : x % 16 < 16 := by omega
    have b0 : ¬ (0 * 16 + x % 16 > 65535) := by omega
    have b1 : 0 * 16 + x % 16 = x := by omega
    simp only [List.cons_append, List.nil_append, parseHexField, hv _ a0, b0, b1, if_false]
    have hx1 : x ≤ 65535 := by omega
    simp [parseHexField_stop _ _ rest hrest, hx1]
  · refine ⟨2, by simp, ?_⟩
    rw [e]
    have a0 : x % 16 < 16 := by omega
    have a1 : x / 0x10 % 16 < 16 := by omega
    have b0 : ¬ (0 * 16 + x / 0x10 % 16 > 65535) := by omega
    have b1 : ¬ ((0 * 16 + x / 0x10 % 16) * 16 + x % 16 > 65535) := by omega
    have b2 : (0 * 16 + x / 0x10 % 16) * 16 + x % 16 = x := by omega
    simp only [List.cons_append, List.nil_append, parseHexField, hv _ a0, hv _ a1, b0, b1, b2,
      if_false]
    have hx1 : x ≤ 65535 := by omega
    simp [parseHexField_stop _ _ rest hrest, hx1]
  · refine ⟨3, by simp, ?_⟩
    rw [e]
    have a0 : x % 16 < 16 := by omega
    have a1 : x / 0x10 % 16 < 16 := by omega
    have a2 : x / 0x100 % 16 < 16 := by omega
    have b0 : ¬ (0 * 16 + x / 0x100 % 16 > 65535) := by omega
    have b1 : ¬ ((0 * 16 + x / 0x100 % 16) * 16 + x / 0x10 % 16 > 65535) := by omega
    have b2 : ¬ (((0 * 16 + x / 0x100 % 16) * 16 + x / 0x10 % 16) * 16 + x % 16 > 65535) := by
      omega
    have b3 : ((0 * 16 + x / 0x100 % 16) * 16 + x / 0x10 % 16) * 16 + x % 16 = x := by omega
    simp only [List.cons_append, List.nil_append, parseHexField, hv _ a0, hv _ a1, hv _ a2, b0,
      b1, b2, b3, if_false]
    have hx1 : x ≤ 65535 := by omega
    simp [parseHexField_stop _ _ rest hrest, hx1]
  · refine ⟨4, by simp, ?_⟩
    rw [e]
    have a0 : x % 16 < 16 := by omega
    have a1 : x / 0x10 % 16 < 16 := by omega
    have a2 : x / 0x100 % 16 < 16 := by omega
    have a3 : x / 0x1000 < 16 := by omega
    have b0 : ¬ (0 * 16 + x / 0x1000 > 65535) := by omega
    have b1 : ¬ ((0 * 16 + x / 0x1000) * 16 + x / 0x100 % 16 > 65535) := by omega
    have b2 : ¬ (((0 * 16 + x / 0x1000) * 16 + x / 0x100 % 16) * 16 + x / 0x10 % 16 > 65535) := by
      omega
    have b3 : ¬ ((((0 * 16 + x / 0x1000) * 16 + x / 0x100 % 16) * 16 + x / 0x10 % 16) * 16 +
        x % 16 > 65535) := by omega
    have b4 : (((0 * 16 + x / 0x1000) * 16 + x / 0x100 % 16) * 16 + x / 0x10 % 16) * 16 +
        x % 16 = x := by omega
    simp only [List.cons_append, List.nil_append, parseHexField, hv _ a0, hv _ a1, hv _ a2,
      hv _ a3, b0, b1, b2, b3, b4, if_false]
    have hx1 : x ≤ 65535 := by omega
    simp [parseHexField_stop _ _ rest hrest, hx1]

end netip

namespace netip

theorem parseIPv6Loop_last {x : Nat} (hx : x < 65536) (f : Nat) (ip : List Nat)
    (ell : Option Nat) :
    parseIPv6Loop (f + 1) ip ell (appendHex x) = some (ip ++ [x], ell, []) := by
  obtain ⟨off, hoff, e⟩ := parseHexField_appendHex hx [] (by simp)
  simp only [List.append_nil] at e
  unfold parseIPv6Loop
  simp only [e, hoff, if_false]

theorem parseIPv6Loop_colon {x : Nat} (hx : x < 65536) (f : Nat) (ip : List Nat)
    (ell : Option Nat) (c1 : Char) (r : List Char) (hc1 : c1 ≠ ':') :
    parseIPv6Loop (f + 1) ip ell (appendHex x ++ ':' :: c1 :: r) =
      parseIPv6Loop f (ip ++ [x]) ell (c1 :: r) := by
  have hcolon : hexVal ':' = none := by decide
  obtain ⟨off, hoff, e⟩ := parseHexField_appendHex hx (':' :: c1 :: r)
    (by intro c r1 h; simp only [List.cons.injEq] at h; rw [← h.1]; exact hcolon)
  rw [parseIPv6Loop]
  have hne : ¬ (':' = '.') := by decide
  simp only [e, hoff, if_false, hne, hc1, ne_eq, not_true_eq_false]

theorem parseIPv6Loop_ellipsis {x : Nat} (hx : x < 65536) (f : Nat) (ip : List Nat)
    (rest2 : List Char) :
    parseIPv6Loop (f + 1) ip none (appendHex x ++ ':' :: ':' :: rest2) =
      if rest2 = [] then some (ip ++ [x], some (ip.length + 1), [])
      else parseIPv6Loop f (ip ++ [x]) (some (ip.length + 1)) rest2 := by
  have hcolon : hexVal ':' = none := by decide
  obtain ⟨off, hoff, e⟩ := parseHexField_appendHex hx (':' :: ':' :: rest2)
    (by intro c r1 h; simp only [List.cons.injEq] at h; rw [← h.1]; exact hcolon)
  rw [parseIPv6Loop]
  have hne : ¬ (':' = '.') := by decide
  simp only [e, hoff, if_false, hne, ne_eq, not_true_eq_false, if_true]

theorem joinHex_cons_cons (x y : Nat) (r : List Nat) :
    joinHex (x :: y :: r) = appendHex x ++ ':' :: joinHex (y :: r) := rfl

/-- The text of a non-empty list of groups starts with a hexadecimal digit. -/
theorem joinHex_head {xs : List Nat} (hne : xs ≠ []) (hxs : ∀ x ∈ xs, x < 65536) :
    ∃ d t, d < 16 ∧ joinHex xs = hexDigit d :: t := by
  cases xs with
  | nil => exact absurd rfl hne
  | cons x r =>
    obtain ⟨d, t, hd, e, _⟩ := appendHex_digits (hxs x (List.mem_cons_self _ _))
    cases r with
    | nil => exact ⟨d, t, hd, e⟩
    | cons y r =>
      refine ⟨d, t ++ ':' :: joinHex (y :: r), hd, ?_⟩
      rw [joinHex_cons_cons, e]; rfl

/-- The loop reads a colon-separated list of groups to its end. -/
theorem parseIPv6Loop_joinHex : ∀ (xs : List Nat), xs ≠ [] → (∀ x ∈ xs, x < 65536) →
    ∀ (f : Nat) (ip : List Nat) (ell : Option Nat), xs.length ≤ f →
      parseIPv6Loop f ip ell (joinHex xs) = some (ip ++ xs, ell, []) := by
  intro xs
  induction xs with
  | nil => intro h; exact absurd rfl h
  | cons x r ih =>
    intro _ hxs f ip ell hf
    have hx := hxs x (List.mem_cons_self _ _)
    cases f with
    | zero => simp at hf
    | succ f =>
      cases r with
      | nil => exact parseIPv6Loop_last hx f ip ell
      | cons y r =>
        have hr : ∀ z ∈ y :: r, z < 65536 := fun z hz => hxs z (List.mem_cons_of_mem _ hz)
        obtain ⟨d, t, hd, e⟩ := joinHex_head (List.cons_ne_nil y r) hr
        rw [joinHex_cons_cons, e,
          parseIPv6Loop_colon hx f ip ell _ _ (hexDigit_ne_special d hd).2.1, ← e,
          ih (List.cons_ne_nil y r) hr f (ip ++ [x]) ell (by simpa using hf)]
        simp

/-- The loop reads two lists of groups with `::` between them. -/
theorem parseIPv6Loop_joinHex_ellipsis : ∀ (xs : List Nat), xs ≠ [] → (∀ x ∈ xs, x < 65536) →
    ∀ (ys : List Nat), (∀ y ∈ ys, y < 65536) →
    ∀ (f : Nat) (ip : List Nat), xs.length + ys.length ≤ f →
      parseIPv6Loop f ip none (joinHex xs ++ ':' :: ':' :: joinHex ys) =
        some (ip ++ xs ++ ys, some (ip.length + xs.length), []) := by
  intro xs
  induction xs with
  | nil => intro h; exact absurd rfl h
  | cons x r ih =>
    intro _ hxs ys hys f ip hf
    have hx := hxs x (List.mem_cons_self _ _)
    cases f with
    | zero => simp at hf
    | succ f =>
      cases r with
      | nil =>
        show parseIPv6Loop (f + 1) ip none (appendHex x ++ ':' :: ':' :: joinHex ys) = _
        rw [parseIPv6Loop_ellipsis hx]
        cases ys with
        | nil => simp [joinHex]
        | cons y ys =>
          obtain ⟨d, t, hd, e⟩ := joinHex_head (List.cons_ne_nil y ys) hys
          have hne : joinHex (y :: ys) ≠ [] := by rw [e]; simp
          rw [if_neg hne, parseIPv6Loop_joinHex _ (List.cons_ne_nil y ys) hys f _ _
            (by simp at hf ⊢; omega)]
          simp
      | cons y r =>
        have hr : ∀ z ∈ y :: r, z < 65536 := fun z hz => hxs z (List.mem_cons_of_mem _ hz)
        obtain ⟨d, t, hd, e⟩ := joinHex_head (List.cons_ne_nil y r) hr
        have hstep := ih (List.cons_ne_nil y r) hr ys hys f (ip ++ [x])
          (by simp at hf ⊢; omega)
        rw [joinHex_cons_cons, List.append_assoc, List.cons_append, e, List.cons_append,
          parseIPv6Loop_colon hx f ip none _ _ (hexDigit_ne_special d hd).2.1]
        rw [e, List.cons_append] at hstep
        rw [hstep]
        simp
        omega

end netip

namespace netip

theorem splitZone_text (text : List Char) (h : ∀ c ∈ text, c ≠ '%') :
    splitZone text = (text, none) := by
  induction text with
  | nil => rfl
  | cons c t ih =>
    have hc := h c (List.mem_cons_self _ _)
    have := ih (fun x hx => h x (List.mem_cons_of_mem _ hx))
    simp [splitZone, hc, this]

theorem splitZone_zone (text zone : List Char) (h : ∀ c ∈ text, c ≠ '%') :
    splitZone (text ++ '%' :: zone) = (text, some zone) := by
  induction text with
  | nil => simp [splitZone]
  | cons c t ih =>
    have hc := h c (List.mem_cons_self _ _)
    have := ih (fun x hx => h x (List.mem_cons_of_mem _ hx))
    simp [splitZone, hc, this]

/-- Parsing an IPv6 text with the suffix of a zone: the zone is split off. -/
theorem parseIPv6_zoneSuffix (text : List Char) (zone : String) (h : ∀ c ∈ text, c ≠ '%') :
    parseIPv6 (text ++ zoneSuffix zone) = parseIPv6Groups text zone := by
  unfold parseIPv6 zoneSuffix
  by_cases hz : zone = ""
  · subst hz
    simp only [if_true, List.append_nil, splitZone_text text h]
    rfl
  · have hd : zone.data ≠ [] := by
      intro hd
      apply hz
      exact String.ext hd
    simp only [hz, if_false, splitZone_zone text zone.data h]
    cases hzd : zone.data with
    | nil => exact absurd hzd hd
    | cons c cs =>
      simp only [Option.getD_some]
      rw [← hzd]

theorem joinHex_chars : ∀ (xs : List Nat), (∀ x ∈ xs, x < 65536) →
    ∀ c ∈ joinHex xs, c ≠ '%' ∧ c ≠ '.' := by
  intro xs
  induction xs with
  | nil => intro _ c hc; simp [joinHex] at hc
  | cons x r ih =>
    intro hxs c hc
    have hx := hxs x (List.mem_cons_self _ _)
    obtain ⟨_, _, _, _, hall⟩ := appendHex_digits hx
    have hA : ∀ c ∈ appendHex x, c ≠ '%' ∧ c ≠ '.' := by
      intro c hc
      obtain ⟨e, he, rfl⟩ := hall c hc
      exact ⟨(hexDigit_ne_special e he).2.2, (hexDigit_ne_special e he).1⟩
    cases r with
    | nil => exact hA c hc
    | cons y r =>
      rw [joinHex_cons_cons] at hc
      rcases List.mem_append.mp hc with hc | hc
      · exact hA c hc
      · rcases List.mem_cons.mp hc with hc | hc
        · subst hc; decide
        · exact ih (fun z hz => hxs z (List.mem_cons_of_mem _ hz)) c hc

end netip

namespace netip

/-- The run of zeros at `i`: that many zero groups, then the rest of the list. -/
theorem zeroRunAt_spec (groups : List Nat) (i : Nat) :
    groups.drop i = List.replicate (zeroRunAt groups i) 0 ++ groups.drop (i + zeroRunAt groups i) ∧
    zeroRunAt groups i ≤ groups.length - i := by
  unfold zeroRunAt
  have hsplit := List.takeWhile_append_dropWhile (fun x => x == 0) (groups.drop i)
  have htw : (groups.drop i).takeWhile (fun x => x == 0) =
      List.replicate ((groups.drop i).takeWhile (fun x => x == 0)).length 0 := by
    apply List.eq_replicate_iff.mpr
    refine ⟨rfl, ?_⟩
    intro b hb
    have := List.mem_takeWhile_imp hb
    simpa using this
  have hlen : ((groups.drop i).takeWhile (fun x => x == 0)).length ≤ groups.length - i := by
    have := congrArg List.length hsplit
    simp only [List.length_append, List.length_drop] at this
    omega
  refine ⟨?_, hlen⟩
  have h2 : (groups.drop i).drop ((groups.drop i).takeWhile (fun x => x == 0)).length =
      (groups.drop i).dropWhile (fun x => x == 0) := by
    have h3 : ((groups.drop i).takeWhile (fun x => x == 0) ++
        (groups.drop i).dropWhile (fun x => x == 0)).drop
          ((groups.drop i).takeWhile (fun x => x == 0)).length =
        (groups.drop i).dropWhile (fun x => x == 0) := List.drop_left _ _
    rw [hsplit] at h3
    exact h3
  have h4 : groups.drop (i + ((groups.drop i).takeWhile (fun x => x == 0)).length) =
      (groups.drop i).dropWhile (fun x => x == 0) := by
    rw [← h2, List.drop_drop]
  rw [h4, ← htw, hsplit]

/-- What the first loop of `appendTo6` returns. -/
theorem longestZeroRun_spec (groups : List Nat) :
    (longestZeroRun groups).1 = 255 ∨
    ((longestZeroRun groups).1 < 8 ∧
      (longestZeroRun groups).2 =
        (longestZeroRun groups).1 + zeroRunAt groups (longestZeroRun groups).1 ∧
      2 ≤ zeroRunAt groups (longestZeroRun groups).1) := by
  unfold longestZeroRun
  have key : ∀ (l : List Nat), (∀ i ∈ l, i < 8) → ∀ z : Nat × Nat,
      (z.1 = 255 ∨ (z.1 < 8 ∧ z.2 = z.1 + zeroRunAt groups z.1 ∧ 2 ≤ zeroRunAt groups z.1)) →
      ((l.foldl (fun (z : Nat × Nat) i =>
          if 2 ≤ zeroRunAt groups i ∧ z.2 - z.1 < zeroRunAt groups i then
            (i, i + zeroRunAt groups i)
          else z) z).1 = 255 ∨
        ((l.foldl (fun (z : Nat × Nat) i =>
          if 2 ≤ zeroRunAt groups i ∧ z.2 - z.1 < zeroRunAt groups i then
            (i, i + zeroRunAt groups i)
          else z) z).1 < 8 ∧
         (l.foldl (fun (z : Nat × Nat) i =>
          if 2 ≤ zeroRunAt groups i ∧ z.2 - z.1 < zeroRunAt groups i then
            (i, i + zeroRunAt groups i)
          else z) z).2 =
          (l.foldl (fun (z : Nat × Nat) i =>
          if 2 ≤ zeroRunAt groups i ∧ z.2 - z.1 < zeroRunAt groups i then
            (i, i + zeroRunAt groups i)
          else z) z).1 + zeroRunAt groups (l.foldl (fun (z : Nat × Nat) i =>
          if 2 ≤ zeroRunAt groups i ∧ z.2 - z.1 < zeroRunAt groups i then
            (i, i + zeroRunAt groups i)
          else z) z).1 ∧
         2 ≤ zeroRunAt groups (l.foldl (fun (z : Nat × Nat) i =>
          if 2 ≤ zeroRunAt groups i ∧ z.2 - z.1 < zeroRunAt groups i then
            (i, i + zeroRunAt groups i)
          else z) z).1)) := by
    intro l
    induction l with
    | nil => intro _ z hz; exact hz
    | cons i l ih =>
      intro hl z hz
      simp only [List.foldl_cons]
      apply ih (fun j hj => hl j (List.mem_cons_of_mem _ hj))
      by_cases hc : 2 ≤ zeroRunAt groups i ∧ z.2 - z.1 < zeroRunAt groups i
      · rw [if_pos hc]
        right
        exact ⟨hl i (List.mem_cons_self _ _), rfl, hc.1⟩
      · rw [if_neg hc]
        exact hz
  exact key (List.range 8) (fun i hi => List.mem_range.mp hi) (255, 255) (Or.inl rfl)

/-- A chosen run splits the eight groups in three: the groups in front, the
zeros that `::` stands for, the groups behind. -/
theorem longestZeroRun_split {groups : List Nat} (hlen : groups.length = 8)
    (h : (longestZeroRun groups).1 ≠ 255) :
    (longestZeroRun groups).1 < (longestZeroRun groups).2 ∧ (longestZeroRun groups).2 ≤ 8 ∧
    groups = groups.take (longestZeroRun groups).1 ++
      List.replicate ((longestZeroRun groups).2 - (longestZeroRun groups).1) 0 ++
      groups.drop (longestZeroRun groups).2 := by
  rcases longestZeroRun_spec groups with h1 | ⟨h1, h2, h3⟩
  · exact absurd h1 h
  · obtain ⟨e1, e2⟩ := zeroRunAt_spec groups (longestZeroRun groups).1
    rw [hlen] at e2
    refine ⟨by omega, by omega, ?_⟩
    have e3 : (longestZeroRun groups).2 - (longestZeroRun groups).1 =
        zeroRunAt groups (longestZeroRun groups).1 := by omega
    rw [e3, h2, List.append_assoc, ← e1, List.take_append_drop]

end netip

namespace netip

theorem parseIPv6Groups_nolead (c : Char) (t : List Char) (zone : String) (hc : c ≠ ':') :
    parseIPv6Groups (c :: t) zone = expandEllipsis zone (parseIPv6Loop 8 [] none (c :: t)) := by
  unfold parseIPv6Groups
  split
  · rename_i h; simp only [List.cons.injEq] at h; exact absurd h.1 hc
  · rename_i h; simp only [List.cons.injEq] at h; exact absurd h.1 hc
  · rfl

theorem parseIPv6Groups_lead (c : Char) (t : List Char) (zone : String) :
    parseIPv6Groups (':' :: ':' :: c :: t) zone =
      expandEllipsis zone (parseIPv6Loop 8 [] (some 0) (c :: t)) := by
  unfold parseIPv6Groups
  split
  · rename_i h; simp at h
  · rename_i h; simp only [List.cons.injEq, true_and] at h; rw [h]
  · rename_i h; exact absurd rfl (h (c :: t))

end netip

namespace netip

theorem parseAddrScan_colon_any (whole pre rest : List Char)
    (hpre : ∀ c ∈ pre, c ≠ '%' ∧ c ≠ '.') :
    parseAddrScan whole (pre ++ ':' :: rest) = parseIPv6 whole := by
  induction pre with
  | nil => simp [parseAddrScan]
  | cons c pre ih =>
    obtain ⟨h1, h2⟩ := hpre c (List.mem_cons_self _ _)
    by_cases h3 : c = ':'
    · subst h3; simp [parseAddrScan]
    · simp only [List.cons_append, parseAddrScan, h1, h2, h3, if_false]
      exact ih (fun x hx => hpre x (List.mem_cons_of_mem _ hx))

/-- The groups of an IPv6 text written by `string6` are read back. -/
theorem parseIPv6Groups_string6 {groups : List Nat} (hlen : groups.length = 8)
    (hg : ∀ x ∈ groups, x < 65536) (zone : String) :
    parseIPv6Groups (string6 groups) zone = some (.v6 groups zone) := by
  unfold string6
  by_cases hz : (longestZeroRun groups).1 = 255
  · simp only [hz, if_true]
    have hne : groups ≠ [] := by intro h; rw [h] at hlen; simp at hlen
    obtain ⟨d, t, hd, e⟩ := joinHex_head hne hg
    rw [e, parseIPv6Groups_nolead _ _ _ (hexDigit_ne_special d hd).2.1, ← e,
      parseIPv6Loop_joinHex groups hne hg 8 [] none (by omega)]
    simp [expandEllipsis, hlen]
  · simp only [hz, if_false]
    obtain ⟨h1, h2, h3⟩ := longestZeroRun_split hlen hz
    generalize (longestZeroRun groups).1 = zs at *
    generalize (longestZeroRun groups).2 = ze at *
    have hpre : ∀ x ∈ groups.take zs, x < 65536 := fun x hx => hg x (List.mem_of_mem_take hx)
    have hpost : ∀ x ∈ groups.drop ze, x < 65536 := fun x hx => hg x (List.mem_of_mem_drop hx)
    have lpre : (groups.take zs).length = zs := by rw [List.length_take]; omega
    have lpost : (groups.drop ze).length = 8 - ze := by rw [List.length_drop]; omega
    by_cases hzs : zs = 0
    · subst hzs
      simp only [List.take_zero, joinHex, List.nil_append]
      cases hp : groups.drop ze with
      | nil =>
        rw [hp] at lpost h3
        simp only [joinHex]
        have hze : ze = 8 := by simp at lpost; omega
        subst hze
        simp only [List.take_zero, List.nil_append, List.append_nil, Nat.sub_zero] at h3
        rw [h3]
        rfl
      | cons y r =>
        rw [hp] at lpost h3 hpost
        obtain ⟨d, t, hd, e⟩ := joinHex_head (List.cons_ne_nil y r) hpost
        rw [e, parseIPv6Groups_lead, ← e,
          parseIPv6Loop_joinHex _ (List.cons_ne_nil y r) hpost 8 [] (some 0) (by omega)]
        have hl : (y :: r).length < 8 := by omega
        simp only [expandEllipsis, List.nil_append, ne_eq, not_true_eq_false, if_false, hl,
          if_true, List.take_zero, List.drop_zero]
        simp only [List.take_zero, List.nil_append, Nat.sub_zero] at h3
        have : 8 - (y :: r).length = ze := by omega
        rw [this, ← h3]
    · have hne : groups.take zs ≠ [] := by
        intro h; rw [h] at lpre; simp at lpre; omega
      obtain ⟨d, t, hd, e⟩ := joinHex_head hne hpre
      have hJ := parseIPv6Loop_joinHex_ellipsis (groups.take zs) hne hpre (groups.drop ze) hpost
        8 [] (by omega)
      rw [e, List.cons_append, parseIPv6Groups_nolead _ _ _ (hexDigit_ne_special d hd).2.1,
        ← List.cons_append, ← e, hJ]
      have hl : (groups.take zs ++ groups.drop ze).length < 8 := by
        rw [List.length_append]; omega
      simp only [expandEllipsis, List.nil_append, ne_eq, not_true_eq_false, if_false, hl, if_true,
        List.length_nil, Nat.zero_add, lpre]
      have ht : (groups.take zs ++ groups.drop ze).take zs = groups.take zs := by
        rw [List.take_append_of_le_length (by omega), List.take_take]; simp
      have hdp : (groups.take zs ++ groups.drop ze).drop zs = groups.drop ze := by
        have := List.drop_left (groups.take zs) (groups.drop ze)
        rw [lpre] at this
        exact this
      have hc : 8 - (groups.take zs ++ groups.drop ze).length = ze - zs := by
        rw [List.length_append]; omega
      rw [ht, hdp, hc, ← h3]

end netip

namespace netip

theorem parseHexField_decimal {x : Nat} (hx : x < 256) (more : List Char) :
    ∃ off acc, off ≠ 0 ∧
      parseHexField 0 0 (appendDecimal x ++ '.' :: more) = some (off, acc, '.' :: more) := by
  have hv := hexVal_digitChar
  have hdot : hexVal '.' = none := by decide
  rcases appendDecimal_cases hx with ⟨h1, e⟩ | ⟨h1, h2, e⟩ | ⟨h1, e⟩
  · refine ⟨1, x, by simp, ?_⟩
    rw [e]
    have b0 : ¬ (0 * 16 + x > 65535) := by omega
    simp only [List.cons_append, List.nil_append, parseHexField, hv _ h1, b0, hdot, if_false]
    simp
  · refine ⟨2, (x / 10 % 10) * 16 + x % 10, by simp, ?_⟩
    rw [e]
    have a1 : x / 10 % 10 < 10 := by omega
    have a2 : x % 10 < 10 := by omega
    have b0 : ¬ (0 * 16 + x / 10 % 10 > 65535) := by omega
    have b1 : ¬ ((0 * 16 + x / 10 % 10) * 16 + x % 10 > 65535) := by omega
    simp only [List.cons_append, List.nil_append, parseHexField, hv _ a1, hv _ a2, b0, b1, hdot,
      if_false]
    simp
  · refine ⟨3, ((x / 100) * 16 + x / 10 % 10) * 16 + x % 10, by simp, ?_⟩
    rw [e]
    have a0 : x / 100 < 10 := by omega
    have a1 : x / 10 % 10 < 10 := by omega
    have a2 : x % 10 < 10 := by omega
    have b0 : ¬ (0 * 16 + x / 100 > 65535) := by omega
    have b1 : ¬ ((0 * 16 + x / 100) * 16 + x / 10 % 10 > 65535) := by omega
    have b2 : ¬ (((0 * 16 + x / 100) * 16 + x / 10 % 10) * 16 + x % 10 > 65535) := by omega
    simp only [List.cons_append, List.nil_append, parseHexField, hv _ a0, hv _ a1, hv _ a2, b0,
      b1, b2, hdot, if_false]
    simp

/-- The loop at a trailing dotted-decimal text, behind a `::`. -/
theorem parseIPv6Loop_string4 {a b c d : Nat} (ha : a < 256) (hb : b < 256) (hc : c < 256)
    (hd : d < 256) (f : Nat) (ip : List Nat) (e : Nat) (hip : ip.length + 2 ≤ 8) :
    parseIPv6Loop (f + 1) ip (some e) (string4 a b c d) =
      some (ip ++ [a * 256 + b, c * 256 + d], some e, []) := by
  have h4 := parseIPv4Fields_string4 ha hb hc hd
  obtain ⟨off, acc, hoff, hp⟩ := parseHexField_decimal ha
    (appendDecimal b ++ '.' :: appendDecimal c ++ '.' :: appendDecimal d)
  have hform : string4 a b c d = appendDecimal a ++
      '.' :: (appendDecimal b ++ '.' :: appendDecimal c ++ '.' :: appendDecimal d) := by
    simp [string4]
  rw [parseIPv6Loop]
  rw [← hform] at hp
  have hgt : ¬ (ip.length + 2 > 8) := by omega
  simp only [hp, hoff, if_false, if_true, h4, hgt, reduceCtorEq, false_and]

theorem string4_chars {a b c d : Nat} (ha : a < 256) (hb : b < 256) (hc : c < 256)
    (hd : d < 256) : ∀ x ∈ string4 a b c d, x ≠ '%' ∧ x ≠ ':' := by
  have key : ∀ {y : Nat}, y < 256 → ∀ x ∈ appendDecimal y, x ≠ '%' ∧ x ≠ ':' := by
    intro y hy x hx
    obtain ⟨_, _, _, _, hall⟩ := appendDecimal_digits hy
    obtain ⟨e, he, rfl⟩ := hall x hx
    exact ⟨(digitChar_ne_special e he).2.2, (digitChar_ne_special e he).2.1⟩
  intro x hx
  unfold string4 at hx
  simp only [List.mem_append, List.mem_cons] at hx
  rcases hx with ((hx | hx | hx) | hx | hx) | hx | hx
  · exact key ha x hx
  · subst hx; decide
  · exact key hb x hx
  · subst hx; decide
  · exact key hc x hx
  · subst hx; decide
  · exact key hd x hx

/-- The groups of an IPv4-mapped text are read back. -/
theorem parseIPv6Groups_string4In6 {a b c d : Nat} (ha : a < 256) (hb : b < 256) (hc : c < 256)
    (hd : d < 256) (zone : String) :
    parseIPv6Groups ("::ffff:".data ++ string4 a b c d) zone =
      some (.v6 [0, 0, 0, 0, 0, 0xffff, a * 256 + b, c * 256 + d] zone) := by
  obtain ⟨d0, t0, hd0, e0, _⟩ := appendDecimal_digits ha
  have hform : string4 a b c d = strconv.digitChar d0 ::
      (t0 ++ '.' :: (appendDecimal b ++ '.' :: appendDecimal c ++ '.' :: appendDecimal d)) := by
    simp [string4, e0]
  have hffff : appendHex 0xffff = ['f', 'f', 'f', 'f'] := by decide
  have hs : "::ffff:".data ++ string4 a b c d =
      ':' :: ':' :: 'f' :: ('f' :: 'f' :: 'f' :: ':' :: string4 a b c d) := rfl
  rw [hs, parseIPv6Groups_lead]
  have hs2 : 'f' :: ('f' :: 'f' :: 'f' :: ':' :: string4 a b c d) =
      appendHex 0xffff ++ ':' :: strconv.digitChar d0 ::
        (t0 ++ '.' :: (appendDecimal b ++ '.' :: appendDecimal c ++ '.' :: appendDecimal d)) := by
    rw [hffff, ← hform]; rfl
  rw [hs2, parseIPv6Loop_colon (by norm_num) 7 [] (some 0) _ _ (digitChar_ne_special d0 hd0).2.1,
    ← hform, parseIPv6Loop_string4 ha hb hc hd 6 _ 0 (by simp)]
  simp [expandEllipsis]

end netip

namespace netip

theorem string6_chars {groups : List Nat} (hg : ∀ x ∈ groups, x < 65536) :
    ∀ c ∈ string6 groups, c ≠ '%' ∧ c ≠ '.' := by
  intro c hc
  unfold string6 at hc
  by_cases hz : (longestZeroRun groups).1 = 255
  · simp only [hz, if_true] at hc
    exact joinHex_chars groups hg c hc
  · simp only [hz, if_false] at hc
    rcases List.mem_append.mp hc with hc | hc
    · exact joinHex_chars _ (fun x hx => hg x (List.mem_of_mem_take hx)) c hc
    · rcases List.mem_cons.mp hc with hc | hc
      · subst hc; decide
      · rcases List.mem_cons.mp hc with hc | hc
        · subst hc; decide
        · exact joinHex_chars _ (fun x hx => hg x (List.mem_of_mem_drop hx)) c hc

/-- The text of `string6` has a colon in it. -/
theorem string6_form {groups : List Nat} (hlen : groups.length = 8)
    (hg : ∀ x ∈ groups, x < 65536) :
    ∃ pre rest, (∀ c ∈ pre, c ≠ '%' ∧ c ≠ '.') ∧ string6 groups = pre ++ ':' :: rest := by
  unfold string6
  by_cases hz : (longestZeroRun groups).1 = 255
  · simp only [hz, if_true]
    match groups, hlen, hg with
    | x :: y :: r, _, hg =>
      refine ⟨appendHex x, joinHex (y :: r), ?_, joinHex_cons_cons x y r⟩
      intro c hc
      exact joinHex_chars [x] (fun z hz => by
        simp only [List.mem_singleton] at hz
        subst hz
        exact hg z (List.mem_cons_self _ _)) c hc
  · simp only [hz, if_false]
    exact ⟨_, _, joinHex_chars _ (fun x hx => hg x (List.mem_of_mem_take hx)), rfl⟩

theorem is4In6_form {groups : List Nat} {zone : String} (hlen : groups.length = 8)
    (h : Addr.Is4In6 (.v6 groups zone) = true) :
    groups = [0, 0, 0, 0, 0, 0xffff, groups.getD 6 0, groups.getD 7 0] := by
  match groups, hlen, h with
  | [a, b, c, d, e, f, g6, g7], _, h =>
    simp only [Addr.Is4In6, List.take, beq_iff_eq, List.cons.injEq, and_true] at h
    obtain ⟨rfl, rfl, rfl, rfl, rfl, rfl⟩ := h
    rfl

/-- Every valid address is read back from its text. -/
theorem ParseAddr_String (ip : Addr) (hwf : ip.WF) (hv : ip.IsValid = true) :
    ParseAddr ip.String = some ip := by
  cases ip with
  | zero => simp [Addr.IsValid] at hv
  | v4 a b c d =>
    obtain ⟨ha, hb, hc, hd⟩ := hwf
    exact ParseAddr_String_v4 ha hb hc hd
  | v6 groups zone =>
    obtain ⟨hlen, hg⟩ := hwf
    unfold ParseAddr Addr.String
    by_cases h46 : Addr.Is4In6 (.v6 groups zone) = true
    · simp only [h46, if_true]
      have hform := is4In6_form hlen h46
      have h6 : groups.getD 6 0 < 65536 := by
        apply hg; rw [hform]; simp
      have h7 : groups.getD 7 0 < 65536 := by
        apply hg; rw [hform]; simp
      generalize groups.getD 6 0 = g6 at *
      generalize groups.getD 7 0 = g7 at *
      have ha : g6 / 256 < 256 := by omega
      have hb : g6 % 256 < 256 := by omega
      have hc : g7 / 256 < 256 := by omega
      have hd : g7 % 256 < 256 := by omega
      have hscan : parseAddrScan
          ("::ffff:".data ++ string4 (g6 / 256) (g6 % 256) (g7 / 256) (g7 % 256) ++ zoneSuffix zone)
          ("::ffff:".data ++ string4 (g6 / 256) (g6 % 256) (g7 / 256) (g7 % 256) ++ zoneSuffix zone) =
          parseIPv6
          ("::ffff:".data ++ string4 (g6 / 256) (g6 % 256) (g7 / 256) (g7 % 256) ++ zoneSuffix zone) :=
        parseAddrScan_colon_any _ [] _ (by simp)
      rw [hscan, parseIPv6_zoneSuffix, parseIPv6Groups_string4In6 ha hb hc hd]
      · have e6 : g6 / 256 * 256 + g6 % 256 = g6 := by omega
        have e7 : g7 / 256 * 256 + g7 % 256 = g7 := by omega
        rw [e6, e7, ← hform]
      · intro x hx
        rcases List.mem_append.mp hx with hx | hx
        · have hlit : ∀ y ∈ "::ffff:".data, y ≠ '%' := by decide
          exact hlit x hx
        · exact (string4_chars ha hb hc hd x hx).1
    · simp only [h46, Bool.false_eq_true, if_false]
      obtain ⟨pre, rest, hpre, e⟩ := string6_form hlen hg
      have hscan : parseAddrScan (string6 groups ++ zoneSuffix zone)
          (string6 groups ++ zoneSuffix zone) = parseIPv6 (string6 groups ++ zoneSuffix zone) := by
        conv => lhs; arg 2; rw [e, List.append_assoc, List.cons_append]
        exact parseAddrScan_colon_any _ pre _ hpre
      rw [hscan, parseIPv6_zoneSuffix _ _ (fun c hc => (string6_chars hg c hc).1),
        parseIPv6Groups_string6 hlen hg]

end netip

namespace autodns

open libdns

/-- C2. For every Address record whose IP is a valid address and whose TTL is
a whole number of seconds, `ToAutoDNS` gives type `A` when the IP is of the
4-byte family and type `AAAA` when it is of the 16-byte family, and `ToLibDNS`
of that result succeeds and returns an Address equal to the original (same IP,
same name, same TTL), whatever the `ProviderData` of the original, which the
decoded Address has as nil. -/
theorem roundtrip_address (name : String) (ip : netip.Addr) (ttl : Int) (pd : Any)
    (hwf : Record.WF (.Address name ip ttl pd)) (hv : ip.IsValid = true)
    (httl : wholeSeconds ttl) :
    ∃ zr, ToAutoDNS (.Address name ip ttl pd) = .ok zr ∧
      (ip.Is4 = true → zr.Typ = "A") ∧ (ip.Is6 = true → zr.Typ = "AAAA") ∧
      ToLibDNS zr = .ok (.Address name ip ttl none) := by
  obtain ⟨hip, ht⟩ := hwf
  refine ⟨_, rfl, ?_, ?_, ?_⟩
  · intro h4
    cases ip <;> simp [netip.Addr.Is4, netip.Addr.Is6] at h4 ⊢
  · intro h6
    simp [h6]
  · have hparse := netip.ParseAddr_String ip hip hv
    have hd := ttl_roundtrip ht httl
    by_cases h6 : ip.Is6 = true
    · simp [ToLibDNS, h6, ToUpper_AAAA, hparse, hd]
    · simp [ToLibDNS, h6, ToUpper_A, hparse, hd]

/-- C2, witness: the AAAA fixture of the repository's tests, with a provider
value attached. -/
theorem roundtrip_address_witness :
    Record.WF
      (.Address "test-aaaa" (.v6 [0x2001, 0xdb8, 0, 0, 0, 0, 0, 2] "") 3600000000000
        (some "id-7")) ∧
    netip.Addr.IsValid (.v6 [0x2001, 0xdb8, 0, 0, 0, 0, 0, 2] "") = true ∧
    wholeSeconds 3600000000000 ∧
    ∃ zr, ToAutoDNS (.Address "test-aaaa" (.v6 [0x2001, 0xdb8, 0, 0, 0, 0, 0, 2] "")
        3600000000000 (some "id-7")) = .ok zr ∧
      (netip.Addr.Is4 (.v6 [0x2001, 0xdb8, 0, 0, 0, 0, 0, 2] "") = true → zr.Typ = "A") ∧
      (netip.Addr.Is6 (.v6 [0x2001, 0xdb8, 0, 0, 0, 0, 0, 2] "") = true → zr.Typ = "AAAA") ∧
      ToLibDNS zr =
        .ok (.Address "test-aaaa" (.v6 [0x2001, 0xdb8, 0, 0, 0, 0, 0, 2] "") 3600000000000 none) :=
  ⟨by simp [Record.WF, netip.Addr.WF, isInt64], by decide, by decide,
    roundtrip_address "test-aaaa" (.v6 [0x2001, 0xdb8, 0, 0, 0, 0, 0, 2] "") 3600000000000
      (some "id-7") (by simp [Record.WF, netip.Addr.WF, isInt64]) (by decide) (by decide)⟩

end autodns

namespace strconv

theorem digitChar_eq : ∀ d, d < 10 → Nat.digitChar d = digitChar d := by decide

theorem formatBits_eq_toDigitsCore : ∀ (fuel n : Nat) (acc : List Char),
    formatBits fuel n acc = Nat.toDigitsCore 10 fuel n acc := by
  intro fuel
  induction fuel with
  | zero => intro n acc; rfl
  | succ fuel ih =>
    intro n acc
    unfold formatBits Nat.toDigitsCore
    have hm : n % 10 < 10 := Nat.mod_lt _ (by norm_num)
    by_cases h : n < 10
    · have h0 : n / 10 = 0 := by omega
      have h1 : n % 10 = n := by omega
      simp only [h, if_true, h0, h1, digitChar_eq n h]
    · have h0 : ¬ n / 10 = 0 := by omega
      simp only [h, if_false, h0, digitChar_eq _ hm]
      exact ih _ _

/-- The text of `FormatUint` is the base-10 representation `Nat.repr`. -/
theorem FormatUint_eq_repr (n : Nat) : FormatUint n = Nat.repr n := by
  unfold FormatUint Nat.repr Nat.toDigits List.asString
  rw [formatBits_eq_toDigitsCore]

end strconv

namespace autodns

open libdns

/-- C11. `ToAutoDNS` is total and never fails: for every record, one of the
seven variants or any other, it returns a provider record and no error; for a
variant outside the seven the result is the name, type and data of the
record's RR projection with the TTL `int(rr.TTL.Seconds())`, which is the
number of seconds of a TTL of whole seconds. -/
theorem ToAutoDNS_total :
    (∀ r : Record, ∃ zr, ToAutoDNS r = .ok zr) ∧
    (∀ rr : libdns.RR,
      ToAutoDNS (.other rr) = .ok ⟨rr.Name, rr.Typ, rr.Data, ttlSeconds rr.TTL⟩) ∧
    (∀ k : Int, ttlInRange k → ttlSeconds (k * time.Second) = k) := by
  refine ⟨?_, fun _ => rfl, fun k hk => ttlSeconds_mul k hk.1 hk.2⟩
  intro r
  cases r <;> exact ⟨_, rfl⟩

/-- C12. For every MX record `ToAutoDNS` returns type `MX` and a value equal
to the base-10 text of the preference, one space, then the target; for every
SRV record it returns type `SRV` and the base-10 texts of priority, weight and
port and then the target, joined by single spaces; the name is copied
unchanged and the target verbatim, whatever the `ProviderData` of the record
and the `Service` and `Transport` of an SRV record. -/
theorem ToAutoDNS_MX_SRV :
    (∀ (name : String) (p : Nat) (target : String) (ttl : Int) (pd : Any),
      ToAutoDNS (.MX name p target ttl pd) =
        .ok ⟨name, "MX", Nat.repr p ++ " " ++ target, ttlSeconds ttl⟩) ∧
    (∀ (name : String) (p w q : Nat) (target : String) (ttl : Int) (service transport : String)
        (pd : Any),
      ToAutoDNS (.SRV name p w q target ttl service transport pd) =
        .ok ⟨name, "SRV", Nat.repr p ++ " " ++ Nat.repr w ++ " " ++ Nat.repr q ++ " " ++ target,
          ttlSeconds ttl⟩) := by
  constructor
  · intro name p target ttl pd
    simp only [ToAutoDNS, strconv.FormatUint_eq_repr]
  · intro name p w q target ttl service transport pd
    simp only [ToAutoDNS, strconv.FormatUint_eq_repr]

end autodns

namespace autodns

open libdns

/-- C11, witness: a record outside the seven variants, with a TTL of 300 seconds. -/
theorem ToAutoDNS_total_witness :
    ToAutoDNS (.other ⟨"svc", 300000000000, "HTTPS", "1 . alpn=h2"⟩) =
      .ok ⟨"svc", "HTTPS", "1 . alpn=h2", ttlSeconds 300000000000⟩ ∧
    ttlInRange 300 ∧ ttlSeconds (300 * time.Second) = 300 :=
  ⟨ToAutoDNS_total.2.1 ⟨"svc", 300000000000, "HTTPS", "1 . alpn=h2"⟩, by decide,
    ToAutoDNS_total.2.2 300 (by decide)⟩

theorem IsDecimal_digits {s : String} {m : Nat} (h : IsDecimal s m) :
    s.data ≠ [] ∧ (∀ c ∈ s.data, strconv.isDigit c = true) ∧
      strconv.parseDigits s.data 0 = some m := by
  obtain ⟨hne, hd, hv⟩ := h
  refine ⟨hne, ?_, ?_⟩
  · intro c hc
    have := hd c hc
    simp [strconv.isDigit, this.1, this.2]
  · rw [strconv.parseDigits_eq_foldl _ _ hd]
    exact congrArg some hv

/-- The decimal text of an integer of the range of `int` is read by `Atoi`. -/
theorem Atoi_of_IsIntegerText {s : String} {n : Int} (h : IsIntegerText s n) (hn : isInt64 n) :
    strconv.Atoi s = some n := by
  unfold isInt64 at hn
  rcases h with ⟨m, hm, rfl⟩ | ⟨t, m, rfl, hm, rfl⟩
  · obtain ⟨h1, h2, h3⟩ := IsDecimal_digits hm
    exact strconv.Atoi_of_digits s m h1 h2 h3 (by omega)
  · obtain ⟨h1, h2, h3⟩ := IsDecimal_digits hm
    unfold strconv.Atoi
    have hd : ("-" ++ t).data = '-' :: t.data := by simp [String.data_append]
    rw [hd]
    simp only [true_or, if_true]
    rw [if_neg h1, h3]
    simp only [if_true]
    rw [if_pos (by omega)]

/-- C16. Out-of-range numeric fields are narrowed silently: for every MX or
SRV provider record with the right field count whose numeric fields are the
decimal text of integers that fit a signed 64-bit int (negative ones and ones
above 65535 included), `ToLibDNS` returns no error and stores each integer
reduced modulo 65536 in the corresponding field. -/
theorem numeric_fields_narrowed (zr : ZoneRecord) :
    (strings.ToUpper zr.Typ = "MX" → ∀ (p0 p1 : String) (n : Int),
      strings.Fields zr.Value = [p0, p1] → IsIntegerText p0 n → isInt64 n →
      ToLibDNS zr = .ok (.MX zr.Name (n % 65536).toNat p1 (ttlDuration zr.TTL) none)) ∧
    (strings.ToUpper zr.Typ = "SRV" → ∀ (p0 p1 p2 p3 : String) (a b c : Int),
      strings.Fields zr.Value = [p0, p1, p2, p3] →
      IsIntegerText p0 a → isInt64 a → IsIntegerText p1 b → isInt64 b →
      IsIntegerText p2 c → isInt64 c →
      ToLibDNS zr = .ok (.SRV zr.Name (a % 65536).toNat (b % 65536).toNat (c % 65536).toNat p3
        (ttlDuration zr.TTL) "" "" none)) := by
  constructor
  · intro htag p0 p1 n hf hn hn2
    have a1 := Atoi_of_IsIntegerText hn hn2
    unfold ToLibDNS
    simp only [htag, String.reduceEq, or_self, if_false, if_true, hf, a1, uint16]
  · intro htag p0 p1 p2 p3 a b c hf ha ha2 hb hb2 hc hc2
    have a1 := Atoi_of_IsIntegerText ha ha2
    have b1 := Atoi_of_IsIntegerText hb hb2
    have c1 := Atoi_of_IsIntegerText hc hc2
    unfold ToLibDNS
    simp only [htag, String.reduceEq, or_self, if_false, if_true, hf, a1, b1, c1, uint16]

/-- C16, witness: a preference of 70000 is stored as 4464, a priority of -1 as 65535. -/
theorem numeric_fields_narrowed_witness :
    IsIntegerText "70000" 70000 ∧ isInt64 70000 ∧
    ToLibDNS ⟨"@", "MX", "70000 mail.example.org", 3600⟩ =
      .ok (.MX "@" 4464 "mail.example.org" (ttlDuration 3600) none) ∧
    IsIntegerText "-1" (-1) ∧ IsIntegerText "65536" 65536 ∧ IsIntegerText "443" 443 ∧
    ToLibDNS ⟨"_s._tcp", "SRV", "-1 65536 443 target", 3600⟩ =
      .ok (.SRV "_s._tcp" 65535 0 443 "target" (ttlDuration 3600) "" "" none) :=
  have d1 : IsIntegerText "70000" 70000 := Or.inl ⟨70000, by unfold IsDecimal; decide, rfl⟩
  have d2 : IsIntegerText "-1" (-1) := Or.inr ⟨"1", 1, by decide, by unfold IsDecimal; decide, rfl⟩
  have d3 : IsIntegerText "65536" 65536 := Or.inl ⟨65536, by unfold IsDecimal; decide, rfl⟩
  have d4 : IsIntegerText "443" 443 := Or.inl ⟨443, by unfold IsDecimal; decide, rfl⟩
  ⟨d1, by decide,
    (numeric_fields_narrowed ⟨"@", "MX", "70000 mail.example.org", 3600⟩).1 (by decide)
      "70000" "mail.example.org" 70000 (by decide) d1 (by decide),
    d2, d3, d4,
    (numeric_fields_narrowed ⟨"_s._tcp", "SRV", "-1 65536 443 target", 3600⟩).2 (by decide)
      "-1" "65536" "443" "target" (-1) 65536 443 (by decide) d2 (by decide) d3 (by decide) d4
      (by decide)⟩

/-- C18. The decoder does not check that the address family matches the tag:
a record with type `A` whose value is a valid IPv6 literal (and a record with
type `AAAA` whose value is a valid IPv4 literal) decodes to an Address with
that address, and `ToAutoDNS` of the result carries the tag of the address
family, `AAAA` for the IPv6 address and `A` for the IPv4 address. -/
theorem family_not_checked (zr : ZoneRecord) (ip : netip.Addr)
    (hparse : netip.ParseAddr zr.Value = some ip)
    (hmix : (strings.ToUpper zr.Typ = "A" ∧ ip.Is6 = true) ∨
      (strings.ToUpper zr.Typ = "AAAA" ∧ ip.Is4 = true)) :
    ToLibDNS zr = .ok (.Address zr.Name ip (ttlDuration zr.TTL) none) ∧
    ∃ zr1, ToAutoDNS (.Address zr.Name ip (ttlDuration zr.TTL) none) = .ok zr1 ∧
      zr1.Value = ip.String ∧
      (ip.Is6 = true → zr1.Typ = "AAAA") ∧ (ip.Is4 = true → zr1.Typ = "A") := by
  constructor
  · unfold ToLibDNS
    rcases hmix with ⟨ht, _⟩ | ⟨ht, _⟩
    · simp only [ht, true_or, if_true, hparse]
    · simp only [ht, or_true, if_true, hparse]
  · refine ⟨_, rfl, rfl, ?_, ?_⟩
    · intro h6
      simp [h6]
    · intro h4
      cases ip <;> simp [netip.Addr.Is4, netip.Addr.Is6] at h4 ⊢

/-- C18, witness: the IPv6 fixture under the tag `A`, the IPv4 fixture under `AAAA`. -/
theorem family_not_checked_witness :
    netip.ParseAddr "2001:db8::1" = some (.v6 [0x2001, 0xdb8, 0, 0, 0, 0, 0, 1] "") ∧
    ToLibDNS ⟨"ipv6", "A", "2001:db8::1", 3600⟩ =
      .ok (.Address "ipv6" (.v6 [0x2001, 0xdb8, 0, 0, 0, 0, 0, 1] "") (ttlDuration 3600) none) ∧
    ToAutoDNS (.Address "ipv6" (.v6 [0x2001, 0xdb8, 0, 0, 0, 0, 0, 1] "") (ttlDuration 3600) none) =
      .ok ⟨"ipv6", "AAAA", "2001:db8::1", 3600⟩ ∧
    netip.ParseAddr "192.168.1.1" = some (.v4 192 168 1 1) ∧
    ToLibDNS ⟨"@", "AAAA", "192.168.1.1", 3600⟩ =
      .ok (.Address "@" (.v4 192 168 1 1) (ttlDuration 3600) none) ∧
    ToAutoDNS (.Address "@" (.v4 192 168 1 1) (ttlDuration 3600) none) =
      .ok ⟨"@", "A", "192.168.1.1", 3600⟩ :=
  ⟨by decide,
    (family_not_checked ⟨"ipv6", "A", "2001:db8::1", 3600⟩
      (.v6 [0x2001, 0xdb8, 0, 0, 0, 0, 0, 1] "") (by decide) (Or.inl ⟨by decide, rfl⟩)).1,
    by decide, by decide,
    (family_not_checked ⟨"@", "AAAA", "192.168.1.1", 3600⟩
      (.v4 192 168 1 1) (by decide) (Or.inr ⟨by decide, rfl⟩)).1,
    by decide⟩

end autodns

namespace strings

/-- Every field is a non-empty run of runes that are no white space. -/
theorem fieldsGo_plain : ∀ (s cur : List Char), (∀ c ∈ cur, unicode.IsSpace c = false) →
    ∀ f ∈ fieldsGo cur s, f ≠ [] ∧ ∀ c ∈ f, unicode.IsSpace c = false := by
  intro s
  induction s with
  | nil =>
    intro cur hcur f hf
    unfold fieldsGo at hf
    by_cases hc : cur = []
    · simp [hc] at hf
    · simp only [hc, if_false, List.mem_singleton] at hf
      subst hf
      exact ⟨hc, hcur⟩
  | cons c s ih =>
    intro cur hcur f hf
    unfold fieldsGo at hf
    by_cases hsp : unicode.IsSpace c = true
    · simp only [hsp, if_true] at hf
      by_cases hc : cur = []
      · simp only [hc, if_true] at hf
        exact ih [] (by simp) f hf
      · simp only [hc, if_false, List.mem_cons] at hf
        rcases hf with hf | hf
        · subst hf; exact ⟨hc, hcur⟩
        · exact ih [] (by simp) f hf
    · simp only [hsp, if_false] at hf
      apply ih (cur ++ [c]) _ f hf
      intro x hx
      rcases List.mem_append.mp hx with hx | hx
      · exact hcur x hx
      · simp only [List.mem_singleton] at hx
        subst hx
        simpa using hsp

theorem Fields_plain (s : String) : ∀ f ∈ Fields s, autodns.plainTarget f := by
  intro f hf
  unfold Fields at hf
  obtain ⟨w, hw, rfl⟩ := List.mem_map.mp hf
  exact fieldsGo_plain s.data [] (by simp) w hw

end strings

namespace autodns

open libdns

theorem Fields_number_space (p : Nat) (target : String) :
    strings.Fields (strconv.FormatUint p ++ " " ++ target) =
      strconv.FormatUint p :: strings.Fields target := by
  unfold strings.Fields
  have hd : (strconv.FormatUint p ++ " " ++ target).data =
      (strconv.FormatUint p).data ++ ' ' :: target.data := by
    simp [String.data_append]
  rw [hd, strings.fieldsGo_word_space _ (strconv.FormatUint_spec p).1 (FormatUint_noSpace p)]
  rfl

/-- C19. The encoder can emit MX values the decoder does not read back: for
every MX record `ToAutoDNS` succeeds, and `ToLibDNS` of its result fails with
the `invalid MX record format` error exactly when the target does not consist
of exactly one whitespace-separated field; when the target has exactly one
field, the decode succeeds and the decoded target is that field, without the
white space around it. -/
theorem MX_reencode (name : String) (p : Nat) (target : String) (ttl : Int) (pd : Any)
    (hp : p < 65536) :
    ∃ zr, ToAutoDNS (.MX name p target ttl pd) = .ok zr ∧
      ((strings.Fields target).length ≠ 1 ↔
        ToLibDNS zr = .error ("invalid MX record format: " ++ zr.Value)) ∧
      (∀ f, strings.Fields target = [f] →
        ToLibDNS zr = .ok (.MX name p f (ttlDuration (ttlSeconds ttl)) none)) := by
  refine ⟨_, rfl, ?_, ?_⟩
  · unfold ToLibDNS
    simp only [ToUpper_MX, String.reduceEq, or_self, if_false, if_true,
      Fields_number_space, Atoi_FormatUint16 hp]
    cases hf : strings.Fields target with
    | nil => simp
    | cons f r =>
      cases r with
      | nil => simp [Atoi_FormatUint16 hp]
      | cons g r => simp
  · intro f hf
    unfold ToLibDNS
    simp only [ToUpper_MX, String.reduceEq, or_self, if_false, if_true,
      Fields_number_space, hf, Atoi_FormatUint16 hp, uint16_natCast hp]

/-- C19, witness: an empty target, a target of two words, a target with blanks around it. -/
theorem MX_reencode_witness :
    (10 : Nat) < 65536 ∧
    ToLibDNS ⟨"@", "MX", "10 ", 0⟩ = .error "invalid MX record format: 10 " ∧
    ToLibDNS ⟨"@", "MX", "10 a b", 0⟩ = .error "invalid MX record format: 10 a b" ∧
    ToLibDNS ⟨"@", "MX", "10  mail.example.org ", 0⟩ = .ok (.MX "@" 10 "mail.example.org" 0 none) ∧
    ∃ zr, ToAutoDNS (.MX "@" 10 " mail.example.org " 0 none) = .ok zr ∧
      ((strings.Fields " mail.example.org ").length ≠ 1 ↔
        ToLibDNS zr = .error ("invalid MX record format: " ++ zr.Value)) ∧
      (∀ f, strings.Fields " mail.example.org " = [f] →
        ToLibDNS zr = .ok (.MX "@" 10 f (ttlDuration (ttlSeconds 0)) none)) :=
  ⟨by decide, by decide, by decide, by decide,
    MX_reencode "@" 10 " mail.example.org " 0 none (by decide)⟩

end autodns

namespace netip

theorem parseIPv4Fields_bound : ∀ (s : List Char) (start : Bool) (val dl : Nat)
    (fields out : List Nat), parseIPv4Fields s start val dl fields = some out →
    val ≤ 255 → (∀ x ∈ fields, x ≤ 255) → ∀ x ∈ out, x ≤ 255 := by
  intro s
  induction s with
  | nil =>
    intro start val dl fields out h hv hf x hx
    unfold parseIPv4Fields at h
    split at h
    · exact absurd h (by simp)
    · simp only [Option.some.injEq] at h
      subst h
      rcases List.mem_append.mp hx with hx | hx
      · exact hf x hx
      · simp only [List.mem_singleton] at hx
        omega
  | cons c cs ih =>
    intro start val dl fields out h hv hf
    unfold parseIPv4Fields at h
    split at h
    · split at h
      · exact absurd h (by simp)
      · split at h
        · exact absurd h (by simp)
        · rename_i hle
          exact ih _ _ _ _ _ h (by omega) hf
    · split at h
      · split at h
        · exact absurd h (by simp)
        · split at h
          · exact absurd h (by simp)
          · apply ih _ _ _ _ _ h (by omega)
            intro x hx
            rcases List.mem_append.mp hx with hx | hx
            · exact hf x hx
            · simp only [List.mem_singleton] at hx
              omega
      · exact absurd h (by simp)

theorem parseIPv4Fields_four {s : List Char} {out : List Nat}
    (h : parseIPv4Fields s true 0 0 [] = some out) : ∀ x ∈ out, x ≤ 255 :=
  parseIPv4Fields_bound s true 0 0 [] out h (by omega) (by simp)

theorem parseHexField_bound : ∀ (s : List Char) (off acc off1 acc1 : Nat) (rest : List Char),
    parseHexField off acc s = some (off1, acc1, rest) → acc ≤ 65535 → acc1 ≤ 65535 := by
  intro s
  induction s with
  | nil =>
    intro off acc off1 acc1 rest h ha
    simp only [parseHexField, Option.some.injEq, Prod.mk.injEq] at h
    omega
  | cons c cs ih =>
    intro off acc off1 acc1 rest h ha
    unfold parseHexField at h
    split at h
    · simp only [Option.some.injEq, Prod.mk.injEq] at h
      omega
    · split at h
      · exact absurd h (by simp)
      · split at h
        · exact absurd h (by simp)
        · exact ih _ _ _ _ _ h (by omega)

/-- The loop keeps at most eight groups, each of 16 bits. -/
theorem parseIPv6Loop_bound : ∀ (f : Nat) (ip : List Nat) (ell : Option Nat) (s : List Char)
    (ip1 : List Nat) (ell1 : Option Nat) (rest : List Char),
    parseIPv6Loop f ip ell s = some (ip1, ell1, rest) →
    ip.length + f ≤ 8 → (∀ x ∈ ip, x < 65536) →
    ip1.length ≤ 8 ∧ ∀ x ∈ ip1, x < 65536 := by
  intro f
  induction f with
  | zero =>
    intro ip ell s ip1 ell1 rest h hl hx
    simp only [parseIPv6Loop, Option.some.injEq, Prod.mk.injEq] at h
    obtain ⟨rfl, _, _⟩ := h
    exact ⟨by omega, hx⟩
  | succ f ih =>
    intro ip ell s ip1 ell1 rest h hl hx
    have hsnoc : ∀ acc, acc ≤ 65535 → ∀ x ∈ ip ++ [acc], x < 65536 := by
      intro acc ha x hxm
      rcases List.mem_append.mp hxm with hxm | hxm
      · exact hx x hxm
      · simp only [List.mem_singleton] at hxm
        omega
    unfold parseIPv6Loop at h
    split at h
    · exact absurd h (by simp)
    · rename_i off acc rest0 hp
      have hacc := parseHexField_bound s 0 0 off acc rest0 hp (by omega)
      split at h
      · exact absurd h (by simp)
      · split at h
        · simp only [Option.some.injEq, Prod.mk.injEq] at h
          obtain ⟨rfl, _, _⟩ := h
          exact ⟨by simp; omega, hsnoc acc hacc⟩
        · split at h
          · split at h
            · exact absurd h (by simp)
            · split at h
              · exact absurd h (by simp)
              · rename_i hlen
                split at h
                · rename_i a b c d h4
                  have hb := parseIPv4Fields_four h4
                  simp only [Option.some.injEq, Prod.mk.injEq] at h
                  obtain ⟨rfl, _, _⟩ := h
                  refine ⟨by simp; omega, ?_⟩
                  intro x hxm
                  have ha := hb a (by simp)
                  have hb2 := hb b (by simp)
                  have hc := hb c (by simp)
                  have hd := hb d (by simp)
                  rcases List.mem_append.mp hxm with hxm | hxm
                  · exact hx x hxm
                  · simp only [List.mem_cons, List.mem_singleton, List.not_mem_nil,
                      or_false] at hxm
                    rcases hxm with rfl | rfl <;> omega
                · exact absurd h (by simp)
          · split at h
            · exact absurd h (by simp)
            · split at h
              · exact absurd h (by simp)
              · split at h
                · split at h
                  · exact absurd h (by simp)
                  · split at h
                    · simp only [Option.some.injEq, Prod.mk.injEq] at h
                      obtain ⟨rfl, _, _⟩ := h
                      exact ⟨by simp; omega, hsnoc acc hacc⟩
                    · exact ih _ _ _ _ _ _ h (by simp; omega) (hsnoc acc hacc)
                · exact ih _ _ _ _ _ _ h (by simp; omega) (hsnoc acc hacc)

end netip

namespace netip

theorem expandEllipsis_WF (zone : String) (ip : List Nat) (ell : Option Nat) (rest : List Char)
    (a : Addr) (h : expandEllipsis zone (some (ip, ell, rest)) = some a)
    (hl : ip.length ≤ 8) (hx : ∀ x ∈ ip, x < 65536) : a.WF ∧ a.IsValid = true := by
  simp only [expandEllipsis] at h
  by_cases hr : rest ≠ []
  · rw [if_pos hr] at h; exact absurd h (by simp)
  · rw [if_neg hr] at h
    by_cases hlt : ip.length < 8
    · rw [if_pos hlt] at h
      cases ell with
      | none => exact absurd h (by simp)
      | some e =>
        simp only [Option.some.injEq] at h
        subst h
        refine ⟨⟨?_, ?_⟩, rfl⟩
        · simp only [List.length_append, List.length_take, List.length_replicate,
            List.length_drop]
          omega
        · intro x hxm
          simp only [List.mem_append, List.mem_replicate] at hxm
          rcases hxm with (hxm | hxm) | hxm
          · exact hx x (List.mem_of_mem_take hxm)
          · omega
          · exact hx x (List.mem_of_mem_drop hxm)
    · rw [if_neg hlt] at h
      by_cases he : ell ≠ none
      · rw [if_pos he] at h; exact absurd h (by simp)
      · rw [if_neg he] at h
        simp only [Option.some.injEq] at h
        subst h
        exact ⟨⟨by omega, hx⟩, rfl⟩

theorem parseIPv6Groups_WF (s : List Char) (zone : String) (a : Addr)
    (h : parseIPv6Groups s zone = some a) : a.WF ∧ a.IsValid = true := by
  unfold parseIPv6Groups at h
  split at h
  · simp only [Option.some.injEq] at h
    subst h
    exact ⟨⟨rfl, by decide⟩, rfl⟩
  · cases hp : parseIPv6Loop 8 [] (some 0) _ with
    | none => rw [hp] at h; simp [expandEllipsis] at h
    | some t =>
      obtain ⟨ip, ell, rest⟩ := t
      rw [hp] at h
      obtain ⟨h1, h2⟩ := parseIPv6Loop_bound _ _ _ _ _ _ _ hp (by simp) (by simp)
      exact expandEllipsis_WF zone ip ell rest a h h1 h2
  · cases hp : parseIPv6Loop 8 [] none s with
    | none => rw [hp] at h; simp [expandEllipsis] at h
    | some t =>
      obtain ⟨ip, ell, rest⟩ := t
      rw [hp] at h
      obtain ⟨h1, h2⟩ := parseIPv6Loop_bound _ _ _ _ _ _ _ hp (by simp) (by simp)
      exact expandEllipsis_WF zone ip ell rest a h h1 h2

theorem parseIPv6_WF (s : List Char) (a : Addr) (h : parseIPv6 s = some a) :
    a.WF ∧ a.IsValid = true := by
  unfold parseIPv6 at h
  split at h
  · exact absurd h (by simp)
  · exact parseIPv6Groups_WF _ _ a h

theorem parseIPv4_WF (s : List Char) (a : Addr) (h : parseIPv4 s = some a) :
    a.WF ∧ a.IsValid = true := by
  unfold parseIPv4 at h
  split at h
  · rename_i x y z w h4
    have hb := parseIPv4Fields_four h4
    simp only [Option.some.injEq] at h
    subst h
    have h1 := hb x (by simp)
    have h2 := hb y (by simp)
    have h3 := hb z (by simp)
    have h5 := hb w (by simp)
    exact ⟨⟨by omega, by omega, by omega, by omega⟩, rfl⟩
  · exact absurd h (by simp)

theorem parseAddrScan_WF (whole : List Char) (a : Addr) :
    ∀ s, parseAddrScan whole s = some a → a.WF ∧ a.IsValid = true := by
  intro s
  induction s with
  | nil => intro h; simp [parseAddrScan] at h
  | cons c cs ih =>
    intro h
    unfold parseAddrScan at h
    split at h
    · exact parseIPv4_WF _ _ h
    · split at h
      · exact parseIPv6_WF _ _ h
      · split at h
        · exact absurd h (by simp)
        · exact ih h

/-- Every parsed address is valid and within the ranges of the Go representation. -/
theorem ParseAddr_WF {s : String} {a : Addr} (h : ParseAddr s = some a) :
    a.WF ∧ a.IsValid = true :=
  parseAddrScan_WF s.data a s.data h

/-- A parsed address is read back from its own text. -/
theorem ParseAddr_String_of_parsed {s : String} {a : Addr} (h : ParseAddr s = some a) :
    ParseAddr a.String = some a :=
  ParseAddr_String a (ParseAddr_WF h).1 (ParseAddr_WF h).2

end netip

namespace autodns

open libdns

theorem uint16_lt (x : Int) : uint16 x < 65536 := by
  unfold uint16
  omega

/-- The duration of a TTL in range is whole and survives a round trip. -/
theorem ttlDuration_stable {ttl : Int} (h : ttlInRange ttl) :
    ttlDuration (ttlSeconds (ttlDuration ttl)) = ttlDuration ttl ∧
    ttlSeconds (ttlDuration ttl) = ttl := by
  rw [ttlDuration_of_inRange h, ttlSeconds_mul ttl h.1 h.2, ttlDuration_of_inRange h]
  exact ⟨rfl, rfl⟩

/-- What `ToLibDNS` returns is encoded and decoded to itself. -/
theorem decode_stable {zr : ZoneRecord} {r : Record} (httl : ttlInRange zr.TTL)
    (h : ToLibDNS zr = .ok r) : RoundTrips r := by
  have hd := (ttlDuration_stable httl).1
  unfold ToLibDNS at h
  simp only [] at h
  by_cases hA : strings.ToUpper zr.Typ = "A" ∨ strings.ToUpper zr.Typ = "AAAA"
  · rw [if_pos hA] at h
    cases hp : netip.ParseAddr zr.Value with
    | none => rw [hp] at h; exact absurd h (by simp)
    | some ip =>
      rw [hp] at h
      simp only [Except.ok.injEq] at h
      subst h
      have hparse := netip.ParseAddr_String_of_parsed hp
      refine ⟨_, rfl, ?_⟩
      by_cases h6 : ip.Is6 = true
      · simp [ToLibDNS, h6, ToUpper_AAAA, hparse, hd]
      · simp [ToLibDNS, h6, ToUpper_A, hparse, hd]
  · rw [if_neg hA] at h
    by_cases hC : strings.ToUpper zr.Typ = "CNAME"
    · rw [if_pos hC] at h
      simp only [Except.ok.injEq] at h
      subst h
      refine ⟨_, rfl, ?_⟩
      simp [ToLibDNS, ToUpper_CNAME, hd]
    · rw [if_neg hC] at h
      by_cases hT : strings.ToUpper zr.Typ = "TXT"
      · rw [if_pos hT] at h
        simp only [Except.ok.injEq] at h
        subst h
        refine ⟨_, rfl, ?_⟩
        simp [ToLibDNS, ToUpper_TXT, hd]
      · rw [if_neg hT] at h
        by_cases hM : strings.ToUpper zr.Typ = "MX"
        · rw [if_pos hM] at h
          cases hf : strings.Fields zr.Value with
          | nil => rw [hf] at h; exact absurd h (by simp)
          | cons p0 l1 =>
            cases l1 with
            | nil => rw [hf] at h; exact absurd h (by simp)
            | cons p1 l2 =>
              cases l2 with
              | cons p2 l3 => rw [hf] at h; exact absurd h (by simp)
              | nil =>
                rw [hf] at h
                simp only [] at h
                cases ha : strconv.Atoi p0 with
                | none => rw [ha] at h; exact absurd h (by simp)
                | some pref =>
                  rw [ha] at h
                  simp only [Except.ok.injEq] at h
                  subst h
                  have hplain : plainTarget p1 :=
                    strings.Fields_plain zr.Value p1 (by rw [hf]; simp)
                  have hp := uint16_lt pref
                  refine ⟨_, rfl, ?_⟩
                  simp [ToLibDNS, ToUpper_MX, hd, Fields_MX_value _ p1 hplain,
                    Atoi_FormatUint16 hp, uint16_natCast hp]
        · rw [if_neg hM] at h
          by_cases hN : strings.ToUpper zr.Typ = "NS"
          · rw [if_pos hN] at h
            simp only [Except.ok.injEq] at h
            subst h
            refine ⟨_, rfl, ?_⟩
            simp [ToLibDNS, ToUpper_NS, hd]
          · rw [if_neg hN] at h
            by_cases hS : strings.ToUpper zr.Typ = "SRV"
            · rw [if_pos hS] at h
              cases hf : strings.Fields zr.Value with
              | nil => rw [hf] at h; exact absurd h (by simp)
              | cons p0 l1 =>
                cases l1 with
                | nil => rw [hf] at h; exact absurd h (by simp)
                | cons p1 l2 =>
                  cases l2 with
                  | nil => rw [hf] at h; exact absurd h (by simp)
                  | cons p2 l3 =>
                    cases l3 with
                    | nil => rw [hf] at h; exact absurd h (by simp)
                    | cons p3 l4 =>
                      cases l4 with
                      | cons p4 l5 => rw [hf] at h; exact absurd h (by simp)
                      | nil =>
                        rw [hf] at h
                        simp only [] at h
                        cases ha : strconv.Atoi p0 with
                        | none => rw [ha] at h; exact absurd h (by simp)
                        | some a =>
                          rw [ha] at h
                          simp only [] at h
                          cases hb : strconv.Atoi p1 with
                          | none => rw [hb] at h; exact absurd h (by simp)
                          | some b =>
                            rw [hb] at h
                            simp only [] at h
                            cases hc : strconv.Atoi p2 with
                            | none => rw [hc] at h; exact absurd h (by simp)
                            | some c =>
                              rw [hc] at h
                              simp only [Except.ok.injEq] at h
                              subst h
                              have hplain : plainTarget p3 :=
                                strings.Fields_plain zr.Value p3 (by rw [hf]; simp)
                              have h1 := uint16_lt a
                              have h2 := uint16_lt b
                              have h3 := uint16_lt c
                              refine ⟨_, rfl, ?_⟩
                              simp [ToLibDNS, ToUpper_SRV, hd,
                                Fields_SRV_value _ _ _ p3 hplain, Atoi_FormatUint16 h1,
                                Atoi_FormatUint16 h2, Atoi_FormatUint16 h3, uint16_natCast h1,
                                uint16_natCast h2, uint16_natCast h3]
            · rw [if_neg hS] at h
              simp only [Except.ok.injEq] at h
              subst h
              refine ⟨_, rfl, ?_⟩
              have htag : strings.ToUpper zr.Typ ∉ knownTags := by
                simp only [knownTags, List.mem_cons, List.mem_singleton, List.not_mem_nil,
                  or_false, not_or]
                exact ⟨fun e => hA (Or.inl e), fun e => hA (Or.inr e), hC, hT, hM, hN, hS⟩
              rw [ToLibDNS_fallback ⟨zr.Name, zr.Typ, zr.Value, ttlSeconds (ttlDuration zr.TTL)⟩
                htag, hd]

/-- C17. Decoding normalises once and then is stable: for every provider
record with 0 <= TTL <= 9223372036 on which `ToLibDNS` succeeds with record
`r`, `ToAutoDNS r` succeeds and `ToLibDNS` of it succeeds and equals `r`. -/
theorem decode_then_stable (zr : ZoneRecord) (r : Record) (h0 : 0 ≤ zr.TTL)
    (h1 : zr.TTL ≤ 9223372036) (h : ToLibDNS zr = .ok r) : RoundTrips r :=
  decode_stable ⟨by omega, h1⟩ h

/-- C17, witness: an MX record in lower case with wide spacing and a padded number. -/
theorem decode_then_stable_witness :
    (0 : Int) ≤ 3600 ∧ (3600 : Int) ≤ 9223372036 ∧
    ToLibDNS ⟨"@", "mx", "  010   mail.example.org ", 3600⟩ =
      .ok (.MX "@" 10 "mail.example.org" 3600000000000 none) ∧
    RoundTrips (.MX "@" 10 "mail.example.org" 3600000000000 none) :=
  ⟨by decide, by decide, by decide,
    decode_then_stable ⟨"@", "mx", "  010   mail.example.org ", 3600⟩
      (.MX "@" 10 "mail.example.org" 3600000000000 none) (by decide) (by decide) (by decide)⟩

end autodns

namespace autodns

open libdns

/-- A decoded record carries the `int64` product as its TTL. -/
theorem decode_TTL {zr : ZoneRecord} {r : Record} (h : ToLibDNS zr = .ok r) :
    r.TTL = ttlDuration zr.TTL := by
  unfold ToLibDNS at h
  simp only [] at h
  repeat' split at h
  all_goals (cases h; try rfl)

/-- An encoded record carries `int(r.TTL.Seconds())` as its TTL. -/
theorem encode_TTL {r : Record} {zr : ZoneRecord} (h : ToAutoDNS r = .ok zr) :
    zr.TTL = ttlSeconds r.TTL := by
  cases r <;> (simp only [ToAutoDNS, Except.ok.injEq] at h; subst h; rfl)

/-- A record that decodes to `r` and is the encoding of `r` is a fixed point
of any number of rounds of decode and encode. -/
theorem recodeTimes_fixed {zr : ZoneRecord} {r : Record} (h1 : ToLibDNS zr = .ok r)
    (h2 : ToAutoDNS r = .ok zr) : ∀ k, recodeTimes k zr = .ok zr := by
  intro k
  induction k with
  | zero => rfl
  | succ k ih =>
    have hr : recode zr = .ok zr := by
      unfold recode
      rw [h1]
      exact h2
    unfold recodeTimes
    rw [hr]
    exact ih

set_option maxRecDepth 8000 in
/-- C13, counterexample. A CNAME record with the non-negative TTL 9223372037
decodes to a negative duration, and one round of decode and encode changes the
TTL to -9223372036. -/
theorem ttl_fidelity_refuted :
    (0 : Int) ≤ 9223372037 ∧ isInt64 9223372037 ∧
    ToLibDNS ⟨"mail", "CNAME", "mailserver.example.org", 9223372037⟩ =
      .ok (.CNAME "mail" "mailserver.example.org" (-9223372036709551616) none) ∧
    (-9223372036709551616 : Int) ≠ 9223372037 * time.Second ∧
    ToAutoDNS (.CNAME "mail" "mailserver.example.org" (-9223372036709551616) none) =
      .ok ⟨"mail", "CNAME", "mailserver.example.org", -9223372036⟩ ∧
    recodeTimes 1 ⟨"mail", "CNAME", "mailserver.example.org", 9223372037⟩ =
      .ok ⟨"mail", "CNAME", "mailserver.example.org", -9223372036⟩ := by
  decide

/-- C13, amended. TTL fidelity: for every provider record with an integer TTL
`n`, 0 <= n <= 9223372036, that `ToLibDNS` decodes successfully, the decoded
record's TTL is a duration of exactly `n` seconds, `ToAutoDNS` of the decoded
record has TTL exactly `n` again, and any number of rounds of decode and encode
succeeds and leaves the TTL at `n`. -/
theorem ttl_fidelity (zr : ZoneRecord) (r : Record) (h0 : 0 ≤ zr.TTL)
    (h1 : zr.TTL ≤ 9223372036) (h : ToLibDNS zr = .ok r) :
    r.TTL = zr.TTL * time.Second ∧
    (∃ zr1, ToAutoDNS r = .ok zr1 ∧ zr1.TTL = zr.TTL) ∧
    ∀ k, ∃ zrk, recodeTimes k zr = .ok zrk ∧ zrk.TTL = zr.TTL := by
  have hr : ttlInRange zr.TTL := ⟨by omega, h1⟩
  have hT := decode_TTL h
  obtain ⟨zr1, e1, e2⟩ := decode_stable hr h
  have hT1 : zr1.TTL = zr.TTL := by
    rw [encode_TTL e1, hT, (ttlDuration_stable hr).2]
  refine ⟨by rw [hT, ttlDuration_of_inRange hr], ⟨zr1, e1, hT1⟩, ?_⟩
  intro k
  cases k with
  | zero => exact ⟨zr, rfl, rfl⟩
  | succ k =>
    refine ⟨zr1, ?_, hT1⟩
    have hrec : recode zr = .ok zr1 := by
      unfold recode
      rw [h]
      exact e1
    unfold recodeTimes
    rw [hrec]
    exact recodeTimes_fixed e2 e1 k

/-- C13, witness: the NS zone record of the fixtures, TTL 86400. -/
theorem ttl_fidelity_witness :
    (0 : Int) ≤ 86400 ∧ (86400 : Int) ≤ 9223372036 ∧
    ToLibDNS ⟨"@", "NS", "ns1.example.org", 86400⟩ =
      .ok (.NS "@" "ns1.example.org" 86400000000000 none) ∧
    (86400000000000 : Int) = 86400 * time.Second ∧
    (∃ zr1, ToAutoDNS (.NS "@" "ns1.example.org" 86400000000000 none) = .ok zr1 ∧ zr1.TTL = 86400) ∧
    ∀ k, ∃ zrk, recodeTimes k ⟨"@", "NS", "ns1.example.org", 86400⟩ = .ok zrk ∧
      zrk.TTL = 86400 :=
  ⟨by decide, by decide, by decide,
    ttl_fidelity ⟨"@", "NS", "ns1.example.org", 86400⟩ (.NS "@" "ns1.example.org" 86400000000000 none)
      (by decide) (by decide) (by decide)⟩

/-- C14, counterexample. An MX value with two blanks between its fields decodes,
and the decoded record is encoded with a single blank: the value string is not
reproduced. -/
theorem MX_value_refuted :
    ToLibDNS ⟨"@", "MX", "10  mail.example.org", 3600⟩ =
      .ok (.MX "@" 10 "mail.example.org" 3600000000000 none) ∧
    ToAutoDNS (.MX "@" 10 "mail.example.org" 3600000000000 none) =
      .ok ⟨"@", "MX", "10 mail.example.org", 3600⟩ ∧
    "10 mail.example.org" ≠ "10  mail.example.org" := by
  decide

/-- C14, amended. For every provider record with type MX whose value
`ToLibDNS` decodes successfully, `ToAutoDNS` of the decoded record returns a
provider record with the same name, the type `MX`, and as value the base-10
text of the decoded preference, one space and the decoded target; this is the
identical string whenever the value has that form already: an integer in
0..65535 without sign or leading zeros, one space, a target without white
space. -/
theorem MX_value_normalised (zr : ZoneRecord) (r : Record)
    (htag : strings.ToUpper zr.Typ = "MX") (h : ToLibDNS zr = .ok r) :
    ∃ (p : Nat) (target : String) (d : Int) (zr1 : ZoneRecord),
      r = .MX zr.Name p target d none ∧ ToAutoDNS r = .ok zr1 ∧
      zr1.Name = zr.Name ∧ zr1.Typ = "MX" ∧ zr1.Value = Nat.repr p ++ " " ++ target ∧
      (∀ (q : Nat) (t : String), q < 65536 → plainTarget t →
        zr.Value = Nat.repr q ++ " " ++ t → zr1.Value = zr.Value) := by
  unfold ToLibDNS at h
  simp only [htag, String.reduceEq, or_self, if_false, if_true] at h
  cases hf : strings.Fields zr.Value with
  | nil => rw [hf] at h; exact absurd h (by simp)
  | cons p0 l1 =>
    cases l1 with
    | nil => rw [hf] at h; exact absurd h (by simp)
    | cons p1 l2 =>
      cases l2 with
      | cons p2 l3 => rw [hf] at h; exact absurd h (by simp)
      | nil =>
        rw [hf] at h
        simp only [] at h
        cases ha : strconv.Atoi p0 with
        | none => rw [ha] at h; exact absurd h (by simp)
        | some pref =>
          rw [ha] at h
          simp only [Except.ok.injEq] at h
          subst h
          refine ⟨uint16 pref, p1, ttlDuration zr.TTL, _, rfl, rfl, rfl, rfl, ?_, ?_⟩
          · simp only [strconv.FormatUint_eq_repr]
          · intro q t hq ht hv
            rw [hv, ← strconv.FormatUint_eq_repr, Fields_MX_value q t ht] at hf
            simp only [List.cons.injEq, and_true] at hf
            obtain ⟨e0, e1⟩ := hf
            rw [← e0, Atoi_FormatUint16 hq] at ha
            simp only [Option.some.injEq] at ha
            subst ha
            rw [hv, uint16_natCast hq, ← e1, strconv.FormatUint_eq_repr]

/-- C14, witness: the MX zone record of the fixtures. -/
theorem MX_value_normalised_witness :
    strings.ToUpper "MX" = "MX" ∧
    ToLibDNS ⟨"@", "MX", "10 mail.example.org", 3600⟩ =
      .ok (.MX "@" 10 "mail.example.org" 3600000000000 none) ∧
    ∃ (p : Nat) (target : String) (d : Int) (zr1 : ZoneRecord),
      Record.MX "@" 10 "mail.example.org" 3600000000000 none = .MX "@" p target d none ∧
      ToAutoDNS (.MX "@" 10 "mail.example.org" 3600000000000 none) = .ok zr1 ∧
      zr1.Name = "@" ∧ zr1.Typ = "MX" ∧ zr1.Value = Nat.repr p ++ " " ++ target ∧
      (∀ (q : Nat) (t : String), q < 65536 → plainTarget t →
        "10 mail.example.org" = Nat.repr q ++ " " ++ t → zr1.Value = "10 mail.example.org") :=
  ⟨by decide, by decide,
    MX_value_normalised ⟨"@", "MX", "10 mail.example.org", 3600⟩
      (.MX "@" 10 "mail.example.org" 3600000000000 none) (by decide) (by decide)⟩

end autodns

namespace float64

/-- Rounding to the nearest integer, from the quotient and the remainder. -/
theorem nearest_spec (N D : Nat) (hD : 0 < D) :
    2 * ((if 2 * (N % D) < D then N / D else if D < 2 * (N % D) then N / D + 1
        else if N / D % 2 = 0 then N / D else N / D + 1) * D) ≤ 2 * N + D ∧
    2 * N ≤ 2 * ((if 2 * (N % D) < D then N / D else if D < 2 * (N % D) then N / D + 1
        else if N / D % 2 = 0 then N / D else N / D + 1) * D) + D := by
  have h := Nat.div_add_mod N D
  have hr := Nat.mod_lt N hD
  generalize N / D = f at *
  generalize N % D = r at *
  have hfD : D * f = f * D := Nat.mul_comm _ _
  have hf1 : (f + 1) * D = f * D + D := by ring
  generalize hX : f * D = X at *
  split
  · constructor <;> omega
  · split
    · rw [hf1]; constructor <;> omega
    · split
      · constructor <;> omega
      · rw [hf1]; constructor <;> omega

/-- The arithmetic at the heart of `int(d.Seconds())` below `2 ^ 24` seconds:
`m` is the rounded fraction scaled by `v`, `m1` the rounded sum scaled by `u`. -/
theorem trunc_bound (sec nsec m m1 u v : Nat) (hns : nsec + 1 ≤ 1000000000)
    (hu : 2 ^ 29 ≤ u) (hv : 2 ^ 53 ≤ v)
    (hm : 2 * (m * 1000000000) ≤ 2 * (nsec * v) + 1000000000)
    (hup : 2 * (m1 * v) ≤ 2 * ((sec * v + m) * u) + v)
    (hlo : 2 * ((sec * v + m) * u) ≤ 2 * (m1 * v) + v) :
    sec * u ≤ m1 ∧ m1 < (sec + 1) * u := by
  have hvpos : 0 < v := lt_of_lt_of_le (by norm_num) hv
  constructor
  · by_contra hc
    have h1 : m1 + 1 ≤ sec * u := by omega
    have h2 : (m1 + 1) * v ≤ sec * u * v := Nat.mul_le_mul_right v h1
    nlinarith
  · by_contra hc
    have h1 : (sec + 1) * u ≤ m1 := by omega
    have h2 : (sec + 1) * u * v ≤ m1 * v := Nat.mul_le_mul_right v h1
    have h3 : (nsec + 1) * v ≤ 1000000000 * v := Nat.mul_le_mul_right v hns
    have h4 : 0 ≤ ((u : Int) - 2 ^ 29) * ((v : Int) - 2 ^ 53) :=
      mul_nonneg (by exact_mod_cast (by omega : (2 : Int) ^ 29 ≤ u) |> sub_nonneg.mpr)
        (by exact_mod_cast (by omega : (2 : Int) ^ 53 ≤ v) |> sub_nonneg.mpr)
    zify at *
    nlinarith

end float64

namespace float64

/-- The binary exponent chosen by `round`: `2 ^ e ≤ p / den < 2 ^ (e + 1)`. -/
theorem exponent_spec (p den : Nat) (hp : 0 < p) (hd : 0 < den) :
    ∃ e : Int,
      (if den * 2 ^ ((log2Fuel p p : Int) - (log2Fuel den den : Int)).toNat ≤
          p * 2 ^ (-((log2Fuel p p : Int) - (log2Fuel den den : Int))).toNat
        then (log2Fuel p p : Int) - (log2Fuel den den : Int)
        else (log2Fuel p p : Int) - (log2Fuel den den : Int) - 1) = e ∧
      den * 2 ^ e.toNat ≤ p * 2 ^ (-e).toNat ∧ p * 2 ^ (-e).toNat < 2 * (den * 2 ^ e.toNat) := by
  obtain ⟨hp1, hp2⟩ := log2Fuel_spec p p le_rfl (by omega)
  obtain ⟨hd1, hd2⟩ := log2Fuel_spec den den le_rfl (by omega)
  generalize log2Fuel p p = Lp at *
  generalize log2Fuel den den = Ld at *
  rw [pow_succ] at hp2 hd2
  by_cases hle : Ld ≤ Lp
  · obtain ⟨k, rfl⟩ := Nat.exists_eq_add_of_le hle
    have e1 : (((Ld + k : Nat) : Int) - (Ld : Int)).toNat = k := by omega
    have e2 : (-(((Ld + k : Nat) : Int) - (Ld : Int))).toNat = 0 := by omega
    rw [e1, e2]
    rw [pow_add] at hp1 hp2
    have hc : 0 < 2 ^ k := Nat.pos_pow_of_pos k (by norm_num)
    have h1 : 2 ^ Ld * 2 ^ k ≤ den * 2 ^ k := Nat.mul_le_mul_right _ hd1
    by_cases ht : den * 2 ^ k ≤ p * 2 ^ 0
    · refine ⟨_, if_pos ht, ?_⟩
      rw [e1, e2]
      refine ⟨ht, ?_⟩
      omega
    · refine ⟨_, if_neg ht, ?_⟩
      cases k with
      | zero =>
        have e3 : (((Ld + 0 : Nat) : Int) - (Ld : Int) - 1).toNat = 0 := by omega
        have e4 : (-(((Ld + 0 : Nat) : Int) - (Ld : Int) - 1)).toNat = 1 := by omega
        rw [e3, e4]
        simp only [pow_zero, mul_one, pow_one] at *
        omega
      | succ k =>
        have e3 : (((Ld + (k + 1) : Nat) : Int) - (Ld : Int) - 1).toNat = k := by omega
        have e4 : (-(((Ld + (k + 1) : Nat) : Int) - (Ld : Int) - 1)).toNat = 0 := by omega
        rw [e3, e4]
        rw [pow_succ] at hp1 hp2 ht h1 hc
        have h2 : den * 2 ^ k < 2 ^ Ld * 2 * 2 ^ k := Nat.mul_lt_mul_of_pos_right hd2 (by omega)
        simp only [pow_zero, mul_one] at *
        constructor
        · nlinarith
        · nlinarith
  · have hlt : Lp < Ld := by omega
    obtain ⟨k, rfl⟩ := Nat.exists_eq_add_of_le (Nat.le_of_lt hlt)
    have e1 : (((Lp : Nat) : Int) - ((Lp + k : Nat) : Int)).toNat = 0 := by omega
    have e2 : (-(((Lp : Nat) : Int) - ((Lp + k : Nat) : Int))).toNat = k := by omega
    rw [e1, e2]
    rw [pow_add] at hd1 hd2
    have hc : 0 < 2 ^ k := Nat.pos_pow_of_pos k (by norm_num)
    have h1 : 2 ^ Lp * 2 ^ k ≤ p * 2 ^ k := Nat.mul_le_mul_right _ hp1
    have h2 : p * 2 ^ k < 2 ^ Lp * 2 * 2 ^ k := Nat.mul_lt_mul_of_pos_right hp2 hc
    by_cases ht : den * 2 ^ 0 ≤ p * 2 ^ k
    · refine ⟨_, if_pos ht, ?_⟩
      rw [e1, e2]
      refine ⟨ht, ?_⟩
      simp only [pow_zero, mul_one] at *
      nlinarith
    · refine ⟨_, if_neg ht, ?_⟩
      have e3 : (((Lp : Nat) : Int) - ((Lp + k : Nat) : Int) - 1).toNat = 0 := by omega
      have e4 : (-(((Lp : Nat) : Int) - ((Lp + k : Nat) : Int) - 1)).toNat = k + 1 := by omega
      rw [e3, e4, pow_succ]
      simp only [pow_zero, mul_one] at *
      constructor
      · nlinarith
      · nlinarith

end float64

namespace float64

/-- What `round` returns for a positive quotient: the exponent `e` of the
quotient, and the integer `m` nearest to the quotient scaled by `2 ^ (52 - e)`. -/
theorem round_spec (p den : Nat) (hp : 0 < p) (hd : 0 < den) :
    ∃ (e : Int) (m : Nat), round (p : Int) den = ⟨(m : Int), e - 52⟩ ∧
      den * 2 ^ e.toNat ≤ p * 2 ^ (-e).toNat ∧ p * 2 ^ (-e).toNat < 2 * (den * 2 ^ e.toNat) ∧
      2 * (m * (den * 2 ^ (e - 52).toNat)) ≤
        2 * (p * 2 ^ (52 - e).toNat) + den * 2 ^ (e - 52).toNat ∧
      2 * (p * 2 ^ (52 - e).toNat) ≤
        2 * (m * (den * 2 ^ (e - 52).toNat)) + den * 2 ^ (e - 52).toNat := by
  obtain ⟨e, he, h1, h2⟩ := exponent_spec p den hp hd
  have hD : 0 < den * 2 ^ (e - 52).toNat :=
    Nat.mul_pos hd (Nat.pos_pow_of_pos _ (by norm_num))
  obtain ⟨n1, n2⟩ := nearest_spec (p * 2 ^ (52 - e).toNat) (den * 2 ^ (e - 52).toNat) hD
  refine ⟨e, _, ?_, h1, h2, n1, n2⟩
  unfold round
  have hnat : ((p : Int)).natAbs = p := Int.natAbs_ofNat p
  have hcond : ¬ (p = 0 ∨ den = 0) := by omega
  have hneg : ¬ ((p : Int) < 0) := by omega
  simp only [hnat, hcond, if_false, he, hneg]

end float64

namespace float64

theorem log2Fuel_lt_of_lt {n k : Nat} (hn : 0 < n) (h : n < 2 ^ k) : log2Fuel n n < k := by
  obtain ⟨h1, _⟩ := log2Fuel_spec n n le_rfl (by omega)
  by_contra hc
  have : 2 ^ k ≤ 2 ^ log2Fuel n n := Nat.pow_le_pow_right (by norm_num) (by omega)
  omega

/-- The conversion of a small non-negative integer: exact. -/
theorem ofInt_natCast (n : Nat) (hn : 0 < n) (h : n < 2 ^ 52) :
    ofInt (n : Int) = ⟨((n * 2 ^ (52 - log2Fuel n n) : Nat) : Int), (log2Fuel n n : Int) - 52⟩ := by
  have hL := log2Fuel_lt_of_lt hn h
  have := round_exact (n : Int) n 0 hn (by simp) (by omega)
  simp only [pow_zero] at this
  unfold ofInt
  rw [this]
  have hneg : ¬ ((n : Int) < 0) := by omega
  simp only [hneg, if_false]

/-- The quotient `float64(nsec) / 1e9` for `0 < nsec < 1e9`: a positive
significand `m` at an exponent below `-52`, within half a unit of the exact
quotient. -/
theorem div_nsec (nsec : Nat) (h0 : 0 < nsec) (h1 : nsec < 1000000000) :
    ∃ (j m : Nat), 1 ≤ j ∧ 0 < m ∧
      div (ofInt (nsec : Int)) (ofInt 1000000000) = ⟨(m : Int), -((j : Int) + 52)⟩ ∧
      2 * (m * 1000000000) ≤ 2 * (nsec * 2 ^ (52 + j)) + 1000000000 := by
  have hb : ofInt 1000000000 = ⟨8388608000000000, -23⟩ := by decide
  have hlt : nsec < 2 ^ 52 := by norm_num; omega
  have hL : log2Fuel nsec nsec < 30 := log2Fuel_lt_of_lt h0 (by norm_num; omega)
  rw [hb, ofInt_natCast nsec h0 hlt]
  generalize log2Fuel nsec nsec = L at *
  unfold div
  have e1 : ((L : Int) - 52 - -23).toNat = 0 := by omega
  have e2 : (-23 - ((L : Int) - 52)).toNat = 29 - L := by omega
  have e3 : (8388608000000000 : Int).sign = 1 := by decide
  have e4 : (8388608000000000 : Int).natAbs = 8388608000000000 := by decide
  simp only [e1, e2, e3, e4, pow_zero, mul_one]
  have hsplit : 2 ^ (52 - L) = 2 ^ 23 * 2 ^ (29 - L) := by
    rw [← pow_add]; congr 1; omega
  have hT : 0 < 2 ^ (29 - L) := Nat.pos_pow_of_pos _ (by norm_num)
  generalize 2 ^ (29 - L) = T at *
  rw [hsplit]
  have hp : 0 < nsec * (2 ^ 23 * T) := Nat.mul_pos h0 (Nat.mul_pos (by norm_num) hT)
  have hd : 0 < 8388608000000000 * T := Nat.mul_pos (by norm_num) hT
  obtain ⟨e, m, hr, x1, x2, n1, n2⟩ := round_spec (nsec * (2 ^ 23 * T)) (8388608000000000 * T) hp hd
  have hnT : nsec * T + T ≤ 1000000000 * T := by nlinarith
  have hneg : e < 0 := by
    by_contra hc
    have z1 : (-e).toNat = 0 := by omega
    rw [z1] at x1
    have : 1 ≤ 2 ^ e.toNat := Nat.one_le_two_pow
    have : 8388608000000000 * T * 1 ≤ 8388608000000000 * T * 2 ^ e.toNat :=
      Nat.mul_le_mul_left _ this
    simp only [pow_zero, mul_one] at x1 this
    nlinarith
  obtain ⟨j, hj⟩ : ∃ j : Nat, (-e).toNat = j ∧ 1 ≤ j ∧ e = -(j : Int) :=
    ⟨(-e).toNat, rfl, by omega, by omega⟩
  obtain ⟨hj1, hj2, hj3⟩ := hj
  have z2 : e.toNat = 0 := by omega
  have z3 : (e - 52).toNat = 0 := by omega
  have z4 : (52 - e).toNat = 52 + j := by omega
  rw [z2, hj1] at x1 x2
  rw [z3, z4] at n1 n2
  simp only [pow_zero, mul_one] at x1 x2 n1 n2
  have hv : 0 < 2 ^ (52 + j) := Nat.pos_pow_of_pos _ (by norm_num)
  have hvj : 2 ^ (52 + j) = 2 ^ 52 * 2 ^ j := pow_add 2 52 j
  refine ⟨j, m, hj2, ?_, ?_, ?_⟩
  · by_contra hm
    have hm0 : m = 0 := by omega
    rw [hm0, hvj] at n2
    have hxx : nsec * (2 ^ 23 * T) * (2 ^ 52 * 2 ^ j) =
        2 ^ 52 * (nsec * (2 ^ 23 * T) * 2 ^ j) := by ring
    rw [hxx] at n2
    generalize nsec * (2 ^ 23 * T) * 2 ^ j = Y at *
    norm_num at n2
    omega
  · rw [hr, hj3]
    congr 1
    ring
  · have hy1 : nsec * (2 ^ 23 * T) * 2 ^ (52 + j) = 2 ^ 23 * T * (nsec * 2 ^ (52 + j)) := by ring
    have hy2 : m * (8388608000000000 * T) = 2 ^ 23 * T * (m * 1000000000) := by ring
    rw [hy1, hy2] at n1
    have hy3 : 8388608000000000 * T = 2 ^ 23 * T * 1000000000 := by ring
    rw [hy3] at n1
    have hc : 0 < 2 ^ 23 * T := Nat.mul_pos (by norm_num) hT
    have : 2 ^ 23 * T * (2 * (m * 1000000000)) ≤
        2 ^ 23 * T * (2 * (nsec * 2 ^ (52 + j)) + 1000000000) := by
      calc 2 ^ 23 * T * (2 * (m * 1000000000)) = 2 * (2 ^ 23 * T * (m * 1000000000)) := by ring
        _ ≤ 2 * (2 ^ 23 * T * (nsec * 2 ^ (52 + j))) + 2 ^ 23 * T * 1000000000 := n1
        _ = 2 ^ 23 * T * (2 * (nsec * 2 ^ (52 + j)) + 1000000000) := by ring
    exact Nat.le_of_mul_le_mul_left this hc

end float64

namespace float64

/-- The conversion `float64(sec)` of a number of seconds below `2 ^ 24`,
aligned to the exponent of the fraction. -/
theorem ofInt_sec (sec j : Nat) (hs : sec < 2 ^ 24) :
    ∃ (sA eA : Int), ofInt (sec : Int) = ⟨sA, eA⟩ ∧ -52 ≤ eA ∧
      sA * 2 ^ (eA + (j : Int) + 52).toNat = ((sec * 2 ^ (52 + j) : Nat) : Int) := by
  by_cases h0 : sec = 0
  · subst h0
    exact ⟨0, 0, by decide, by omega, by simp⟩
  · have hpos : 0 < sec := by omega
    have hL : log2Fuel sec sec < 24 := log2Fuel_lt_of_lt hpos hs
    refine ⟨_, _, ofInt_natCast sec hpos (by norm_num at hs ⊢; omega), by omega, ?_⟩
    generalize log2Fuel sec sec = L at *
    have e1 : ((L : Int) - 52 + (j : Int) + 52).toNat = L + j := by omega
    rw [e1]
    have e2 : 52 + j = (52 - L) + (L + j) := by omega
    rw [e2, pow_add]
    push_cast
    ring

/-- The sum and its conversion to `int`: the whole seconds. -/
theorem toInt_add_fraction (sec nsec j m : Nat) (hs : sec < 2 ^ 24) (hns : nsec + 1 ≤ 1000000000)
    (hj : 1 ≤ j) (hm : 0 < m)
    (hmb : 2 * (m * 1000000000) ≤ 2 * (nsec * 2 ^ (52 + j)) + 1000000000) :
    toInt (add (ofInt (sec : Int)) ⟨(m : Int), -((j : Int) + 52)⟩) = (sec : Int) := by
  obtain ⟨sA, eA, hA, hA1, hA2⟩ := ofInt_sec sec j hs
  rw [hA]
  unfold add
  have hmin : min eA (-((j : Int) + 52)) = -((j : Int) + 52) := by omega
  simp only [hmin]
  have e1 : (eA - -((j : Int) + 52)).toNat = (eA + (j : Int) + 52).toNat := by
    congr 1; ring
  have e2 : (-((j : Int) + 52) - -((j : Int) + 52)).toNat = 0 := by omega
  have e3 : (-((j : Int) + 52)).toNat = 0 := by omega
  have e4 : (- -((j : Int) + 52)).toNat = 52 + j := by omega
  rw [e1, e2, e3, e4, hA2]
  simp only [pow_zero, mul_one]
  have hv : 2 ^ 53 ≤ 2 ^ (52 + j) := Nat.pow_le_pow_right (by norm_num) (by omega)
  generalize 2 ^ (52 + j) = v at *
  have hvpos : 0 < v := lt_of_lt_of_le (by norm_num) hv
  have hcast : ((sec * v : Nat) : Int) + (m : Int) = ((sec * v + m : Nat) : Int) := by
    push_cast; ring
  rw [hcast]
  have hp : 0 < sec * v + m := by omega
  obtain ⟨e, m1, hr, x1, x2, n1, n2⟩ := round_spec (sec * v + m) v hp hvpos
  rw [hr]
  -- the fraction is below one
  have hnv : nsec * v + v ≤ 1000000000 * v := by
    have := Nat.mul_le_mul_right v hns
    rwa [Nat.add_mul, Nat.one_mul] at this
  have hmv : m < v := by
    norm_num at hv
    omega
  -- so the sum is below 2 ^ 24 and its exponent is at most 23
  have he : e ≤ 23 := by
    by_contra hc
    have z1 : (-e).toNat = 0 := by omega
    have z2 : 2 ^ 24 ≤ 2 ^ e.toNat := Nat.pow_le_pow_right (by norm_num) (by omega)
    rw [z1] at x1
    simp only [pow_zero, mul_one] at x1
    have z3 : v * 2 ^ 24 ≤ v * 2 ^ e.toNat := Nat.mul_le_mul_left v z2
    have z4 : sec * v + v ≤ 2 ^ 24 * v := by
      have := Nat.mul_le_mul_right v (by omega : sec + 1 ≤ 2 ^ 24)
      rwa [Nat.add_mul, Nat.one_mul] at this
    norm_num at z3 z4
    omega
  have z3 : (e - 52).toNat = 0 := by omega
  obtain ⟨k, hk1, hk2⟩ : ∃ k : Nat, (52 - e).toNat = k ∧ 29 ≤ k := ⟨_, rfl, by omega⟩
  rw [z3, hk1] at n1 n2
  simp only [pow_zero, mul_one] at n1 n2
  have hu : 2 ^ 29 ≤ 2 ^ k := Nat.pow_le_pow_right (by norm_num) hk2
  unfold toInt
  have hexp : ¬ (0 : Int) ≤ e - 52 := by omega
  have z5 : (-(e - 52)).toNat = k := by omega
  simp only [hexp, if_false, z5]
  obtain ⟨b1, b2⟩ := trunc_bound sec nsec m m1 (2 ^ k) v hns hu hv hmb n1 n2
  have hdiv : m1 / 2 ^ k = sec := Nat.div_eq_of_lt_le b1 b2
  rw [Int.tdiv_eq_ediv (by omega) (by positivity)]
  norm_cast

end float64

namespace float64

theorem round_neg (num : Int) (den : Nat) :
    round (-num) den = ⟨-(round num den).sig, (round num den).exp⟩ := by
  unfold round
  simp only [Int.natAbs_neg]
  by_cases hc : num.natAbs = 0 ∨ den = 0
  · simp only [hc, if_true]
    rfl
  · simp only [hc, if_false]
    have hne : num ≠ 0 := fun h => hc (Or.inl (by rw [h]; rfl))
    by_cases hn : num < 0
    · have h2 : ¬ (-num < 0) := by omega
      simp only [hn, h2, if_true, if_false, neg_neg]
    · have h2 : -num < 0 := by omega
      simp only [hn, h2, if_true, if_false]

theorem ofInt_neg (n : Int) : ofInt (-n) = ⟨-(ofInt n).sig, (ofInt n).exp⟩ :=
  round_neg n 1

theorem div_neg (a b : float64) :
    div ⟨-a.sig, a.exp⟩ b = ⟨-(div a b).sig, (div a b).exp⟩ := by
  unfold div
  simp only [neg_mul]
  exact round_neg _ _

theorem add_neg (a b : float64) :
    add ⟨-a.sig, a.exp⟩ ⟨-b.sig, b.exp⟩ = ⟨-(add a b).sig, (add a b).exp⟩ := by
  unfold add
  simp only [neg_mul, ← neg_add]
  exact round_neg _ _

theorem toInt_neg (x : float64) : toInt ⟨-x.sig, x.exp⟩ = -toInt x := by
  unfold toInt
  simp only []
  split
  · rw [neg_mul]
  · rw [Int.neg_tdiv]

end float64

namespace autodns

theorem ttlSeconds_neg (d : Int) : ttlSeconds (-d) = -ttlSeconds d := by
  unfold ttlSeconds time.Duration.Seconds
  have hm : (-d).tmod time.Second = -(d.tmod time.Second) := by
    rw [Int.tmod_def, Int.tmod_def, Int.neg_tdiv]
    ring
  rw [Int.neg_tdiv, hm, float64.ofInt_neg, float64.ofInt_neg (d.tmod time.Second),
    float64.div_neg, float64.add_neg, float64.toInt_neg]

/-- Below `2 ^ 24` seconds `int(d.Seconds())` is the quotient by one second. -/
theorem ttlSeconds_natCast (n : Nat) (h : n < 16777216000000000) :
    ttlSeconds (n : Int) = ((n / 1000000000 : Nat) : Int) := by
  have hn : n = n / 1000000000 * 1000000000 + n % 1000000000 := by omega
  have hsec : n / 1000000000 < 2 ^ 24 := by norm_num; omega
  by_cases h0 : n % 1000000000 = 0
  · have hk : (n : Int) = ((n / 1000000000 : Nat) : Int) * time.Second := by
      unfold time.Second
      omega
    rw [hk, ttlSeconds_mul _ (by omega) (by norm_num at hsec; omega)]
  · unfold ttlSeconds time.Duration.Seconds
    have e1 : (n : Int).tdiv time.Second = ((n / 1000000000 : Nat) : Int) := by
      unfold time.Second
      rw [Int.tdiv_eq_ediv (by omega) (by norm_num)]
      norm_cast
    have e2 : (n : Int).tmod time.Second = ((n % 1000000000 : Nat) : Int) := by
      unfold time.Second
      rw [Int.tmod_eq_emod (by omega) (by norm_num)]
      norm_cast
    rw [e1, e2]
    have hlt : n % 1000000000 < 1000000000 := Nat.mod_lt _ (by norm_num)
    obtain ⟨j, m, hj, hm, hdiv, hmb⟩ := float64.div_nsec (n % 1000000000) (by omega) hlt
    rw [hdiv]
    exact float64.toInt_add_fraction (n / 1000000000) (n % 1000000000) j m hsec (by omega) hj hm hmb

/-- Below `2 ^ 24` seconds in absolute value `int(d.Seconds())` truncates toward zero. -/
theorem ttlSeconds_tdiv (d : Int) (h1 : -16777216000000000 < d) (h2 : d < 16777216000000000) :
    ttlSeconds d = d.tdiv time.Second := by
  have key : ∀ n : Nat, n < 16777216000000000 →
      ttlSeconds (n : Int) = (n : Int).tdiv time.Second := by
    intro n hn
    rw [ttlSeconds_natCast n hn]
    unfold time.Second
    rw [Int.tdiv_eq_ediv (by omega) (by norm_num)]
    norm_cast
  by_cases hd : 0 ≤ d
  · obtain ⟨n, rfl⟩ := Int.eq_ofNat_of_zero_le hd
    exact key n (by omega)
  · obtain ⟨n, hn⟩ := Int.eq_ofNat_of_zero_le (by omega : 0 ≤ -d)
    have hdn : d = -(n : Int) := by omega
    rw [hdn, ttlSeconds_neg, key n (by omega), Int.neg_tdiv]

end autodns

namespace autodns

open libdns

set_option maxRecDepth 8000 in
/-- C15, counterexample. A CNAME record whose TTL is the representable duration
16777216.999999999 s, not a whole number of seconds: the quotient of its
nanosecond count by 1,000,000,000 rounded toward zero is 16777216, and
`ToAutoDNS` returns the TTL 16777217, because the float64 sum inside
`Seconds()` rounds up to the next integer. -/
theorem ttl_truncation_refuted :
    isInt64 16777216999999999 ∧ ¬ wholeSeconds 16777216999999999 ∧
    (16777216999999999 : Int).tdiv 1000000000 = 16777216 ∧
    ToAutoDNS (.CNAME "www" "example.org" 16777216999999999 none) =
      .ok ⟨"www", "CNAME", "example.org", 16777217⟩ := by
  decide

/-- C15, amended. For every record, of the seven variants or any other, whose
TTL duration `d` is not a whole number of seconds and lies strictly between
-16777216 s and 16777216 s (`2 ^ 24` seconds), `ToAutoDNS` succeeds and the TTL
of its result is the duration in seconds truncated toward zero: the integer
quotient of the nanosecond count of `d` by 1,000,000,000 rounded toward zero. -/
theorem ttl_truncation (r : Record) (hw : ¬ wholeSeconds r.TTL)
    (h1 : -16777216000000000 < r.TTL) (h2 : r.TTL < 16777216000000000) :
    ∃ zr, ToAutoDNS r = .ok zr ∧ zr.TTL = r.TTL.tdiv 1000000000 := by
  have ht := ttlSeconds_tdiv r.TTL h1 h2
  unfold time.Second at ht
  cases r <;> exact ⟨_, rfl, ht⟩

/-- C15, witness: a TXT record with TTL 1.999999999 s is encoded with TTL 1. -/
theorem ttl_truncation_witness :
    ¬ wholeSeconds 1999999999 ∧ (1999999999 : Int).tdiv 1000000000 = 1 ∧
    ∃ zr, ToAutoDNS (.TXT "@" "v=spf1 -all" 1999999999 none) = .ok zr ∧
      zr.TTL = (1999999999 : Int).tdiv 1000000000 :=
  ⟨by decide, by decide,
    ttl_truncation (.TXT "@" "v=spf1 -all" 1999999999 none) (by decide) (by decide) (by decide)⟩

end autodns
